import Mathlib

/-!
Revenue aggregation and quantile selection (`internal/processor/processor.go`).

A shallow embedding of the three methods of `Processor`:
`CalculateCustomerRevenue`, `GetTopQuantileCustomers` and `CalculateQuantileStats`.

Modelling conventions.

* A `float64` (`Float64`) is a finite number, +Inf, -Inf or NaN.  A finite number is the
  rational it denotes; the two zeros are not told apart (they compare equal, and the
  one division of the code, `1.0 / quantile`, converts to the same `int` for both).
  Every arithmetic operation computes the exact result and rounds it once
  (`Float64.round`): to 53 significant bits, ties to even, to a multiple of 2 ^ (-1074)
  below 2 ^ (-1022), and to an infinity from 2 ^ 1024 - 2 ^ 970 on.  Comparisons with a
  NaN are false.  The type also holds finite rationals that are no `float64`
  (`Float64.Representable` tells them apart); a statement about every `Float64` holds
  of every `float64`, and the example inputs are shown to be `float64` values.
* The Go specification lets a compiler fuse `x * y + z` into one operation that rounds
  once.  The gc compiler does so on arm64 and on amd64 at GOAMD64=v3, and not on the
  default amd64.  `CalculateCustomerRevenue` therefore takes the flag `fused`, and the
  statements about it hold for both values.
* Go `int` is the 64-bit integer, modelled in `ℤ`; the code does no integer arithmetic
  that can wrap for a slice that fits in memory.  The conversion `int(x)`
  (`Float64.toInt`) truncates a finite `x` within the `int64` range; for every other
  `x` the Go specification leaves the result to the implementation, and the model
  takes the result of amd64, -2 ^ 63.  arm64 saturates instead, which differs for a
  value above the range (2 ^ 63 - 1) and for a NaN (0).  The statements below that
  assert a return or a panic through such a conversion do so where both agree on the
  outcome: `int(float64(n) * quantile)` below the range is -2 ^ 63 on both,
  `int(float64(0) * quantile)` for an infinite quantile runs no iteration on either,
  and `int(1.0 / quantile)` above the range makes `make` panic on both.
  `float64(n)` is exact for `n ≤ 2 ^ 53`; the statements about the selector carry this
  bound on the number of customers, which every map in memory meets.
* A Go map is an association list without duplicate keys (`GoMap.WF`).  The order of
  the list is the order in which `range` visits the map: Go leaves that order
  unspecified, so a statement about a map quantifies over every list order.  The
  values of a revenue map are pointers to records; they are taken to be non-nil, as
  the ones `CalculateCustomerRevenue` stores are, and a pointer is modelled by the
  record it points to (neither selector nor statistics writes through one).
* `sort.Slice` is not stable.  It is modelled by insertion sort (`sortSlice`): every
  descending permutation of the values is the insertion sort of some visiting order
  (namely of itself, `sortSlice_of_sorted`), so quantifying over the visiting order
  covers every result `sort.Slice` may produce on revenues without a NaN.  With a NaN
  among the revenues `less` is no ordering and the result is only some permutation;
  the statements about the order assume there is no NaN, and the examples with a NaN
  have one or two customers, where `sort.Slice` and the insertion sort agree.
* `make([]models.QuantileStats, 0, numQuantiles)` (`makeQuantileStats`) panics with
  `makeslice: cap out of range` for a negative capacity and for one above 2 ^ 43 (32-byte
  elements, at most 2 ^ 48 bytes in one allocation on a 64-bit platform); below that it
  needs a heap that can hold the records, and the program aborts when the heap cannot.
  `CalculateQuantileStats` therefore takes the number `heapCapacity` of bucket records
  the heap can hold at the call.  The allocations whose size is bounded by the size of
  the input (the slice of customers, the maps, `append` within the capacity) are taken
  to succeed.
* Logging, the progress bar and `printRandomEntries` only read their arguments and
  write to the terminal; they are left out.
* A run-time panic or abort is a `RuntimeFault`; a normal return is the pair of the
  returned value and the returned `error` (`none` for `nil`).
-/

/-- A `float64` value: a finite number (the rational it denotes; the two zeros are not
told apart), an infinity or a NaN. -/
inductive Float64 where
  | fin (x : ℚ)
  | posInf
  | negInf
  | nan
  deriving DecidableEq

namespace Float64

/-- Round a rational to the nearest integer, ties to the even integer. -/
def roundHalfEven (m : ℚ) : ℤ :=
  if m - ⌊m⌋ < 1 / 2 then ⌊m⌋
  else if 1 / 2 < m - ⌊m⌋ then ⌊m⌋ + 1
  else if ⌊m⌋ % 2 = 0 then ⌊m⌋ else ⌊m⌋ + 1

/-- The binary exponent at which `x` is rounded: that of `x`, and -1022 for every `x`
below 2 ^ (-1022) (the subnormal range). -/
def exponent (x : ℚ) : ℤ := max (Int.log 2 |x|) (-1022)

/-- The nearest number with a 53-bit significand at the exponent of `x` (a multiple of
2 ^ (-1074) in the subnormal range), ties to even; no upper limit yet. -/
def nearest (x : ℚ) : ℚ :=
  if x = 0 then 0
  else (roundHalfEven (x / 2 ^ (exponent x - 52)) : ℚ) * 2 ^ (exponent x - 52)

/-- Round a rational to `float64`, to nearest, ties to even: the result is an infinity
when the nearest number reaches 2 ^ 1024. -/
def round (x : ℚ) : Float64 :=
  if (2 : ℚ) ^ 1024 ≤ |nearest x| then (if 0 < x then posInf else negInf)
  else fin (nearest x)

/-- Go `x + y` on `float64`. -/
def add : Float64 → Float64 → Float64
  | fin x, fin y => round (x + y)
  | nan, _ => nan
  | _, nan => nan
  | posInf, negInf => nan
  | negInf, posInf => nan
  | posInf, _ => posInf
  | _, posInf => posInf
  | negInf, _ => negInf
  | _, negInf => negInf

/-- The infinity or NaN that is the product of an infinity of the given sign with the
finite `x`. -/
def infTimes (positive : Bool) (x : ℚ) : Float64 :=
  if x = 0 then nan
  else if decide (0 < x) = positive then posInf else negInf

/-- Go `x * y` on `float64`. -/
def mul : Float64 → Float64 → Float64
  | fin x, fin y => round (x * y)
  | nan, _ => nan
  | _, nan => nan
  | fin x, posInf => infTimes true x
  | fin x, negInf => infTimes false x
  | posInf, fin y => infTimes true y
  | negInf, fin y => infTimes false y
  | posInf, posInf => posInf
  | negInf, negInf => posInf
  | posInf, negInf => negInf
  | negInf, posInf => negInf

/-- Go `x / y` on `float64`. A finite non-zero number divided by zero is an infinity
(of the sign of the dividend, the zero being taken as positive), zero by zero is NaN. -/
def div : Float64 → Float64 → Float64
  | fin x, fin y =>
      if y = 0 then (if x = 0 then nan else if 0 < x then posInf else negInf)
      else round (x / y)
  | nan, _ => nan
  | _, nan => nan
  | fin _, posInf => fin 0
  | fin _, negInf => fin 0
  | posInf, fin y => if 0 ≤ y then posInf else negInf
  | negInf, fin y => if 0 ≤ y then negInf else posInf
  | posInf, posInf => nan
  | posInf, negInf => nan
  | negInf, posInf => nan
  | negInf, negInf => nan

/-- The fused multiply-add `x * y + z`: the exact product and sum, rounded once. -/
def fma : Float64 → Float64 → Float64 → Float64
  | fin x, fin y, fin z => round (x * y + z)
  | fin _, fin _, z => z
  | x, y, z => add (mul x y) z

/-- Go conversion `float64(n)` of an integer. -/
def ofInt (n : ℤ) : Float64 := round n

/-- The integer part of a rational: the fraction is discarded. -/
def trunc (x : ℚ) : ℤ := if 0 ≤ x then ⌊x⌋ else ⌈x⌉

/-- Go conversion `int(x)`: the fraction of a finite `x` is discarded (truncation
towards zero). When the result does not fit `int64`, and for an infinity or a NaN, the
Go specification leaves the value to the implementation: it is the smallest `int64`,
as the gc compiler produces on amd64. -/
def toInt : Float64 → ℤ
  | fin x => if -2 ^ 63 ≤ trunc x ∧ trunc x < 2 ^ 63 then trunc x else -2 ^ 63
  | _ => -2 ^ 63

/-- Go `x < y` on `float64`: false whenever an operand is NaN. -/
def lt : Float64 → Float64 → Prop
  | fin x, fin y => x < y
  | negInf, fin _ => True
  | negInf, posInf => True
  | fin _, posInf => True
  | _, _ => False

/-- Go `x <= y` on `float64`: false whenever an operand is NaN. -/
def le : Float64 → Float64 → Prop
  | fin x, fin y => x ≤ y
  | negInf, fin _ => True
  | negInf, posInf => True
  | negInf, negInf => True
  | fin _, posInf => True
  | posInf, posInf => True
  | _, _ => False

instance : LT Float64 := ⟨lt⟩

instance : LE Float64 := ⟨le⟩

instance decLt : (a b : Float64) → Decidable (a < b)
  | fin x, fin y => inferInstanceAs (Decidable (x < y))
  | negInf, fin _ => isTrue trivial
  | negInf, posInf => isTrue trivial
  | fin _, posInf => isTrue trivial
  | fin _, negInf => isFalse not_false
  | fin _, nan => isFalse not_false
  | posInf, _ => isFalse not_false
  | negInf, negInf => isFalse not_false
  | negInf, nan => isFalse not_false
  | nan, _ => isFalse not_false

instance decLe : (a b : Float64) → Decidable (a ≤ b)
  | fin x, fin y => inferInstanceAs (Decidable (x ≤ y))
  | negInf, fin _ => isTrue trivial
  | negInf, posInf => isTrue trivial
  | negInf, negInf => isTrue trivial
  | fin _, posInf => isTrue trivial
  | posInf, posInf => isTrue trivial
  | fin _, negInf => isFalse not_false
  | fin _, nan => isFalse not_false
  | posInf, fin _ => isFalse not_false
  | posInf, negInf => isFalse not_false
  | posInf, nan => isFalse not_false
  | negInf, nan => isFalse not_false
  | nan, _ => isFalse not_false

/-- The rational `x` is a `float64`: rounding leaves it unchanged. -/
def Representable (x : ℚ) : Prop := round x = fin x

end Float64

/-- Go map as an association list; the list order is the `range` order. -/
abbrev GoMap (κ ν : Type) := List (κ × ν)

namespace GoMap

variable {κ ν : Type} [DecidableEq κ]

/-- Go `v, ok := m[k]`. -/
def get? (m : GoMap κ ν) (k : κ) : Option ν :=
  match m with
  | [] => none
  | (k', v) :: t => if k' = k then some v else get? t k

/-- Go `m[k] = v`. -/
def set (m : GoMap κ ν) (k : κ) (v : ν) : GoMap κ ν :=
  match m with
  | [] => [(k, v)]
  | (k', v') :: t => if k' = k then (k, v) :: t else (k', v') :: set t k v

/-- The keys of the map, in `range` order. -/
def keys (m : GoMap κ ν) : List κ := m.map Prod.fst

/-- The values of the map, in `range` order. -/
def values (m : GoMap κ ν) : List ν := m.map Prod.snd

/-- No key occurs twice. -/
def WF (m : GoMap κ ν) : Prop := (keys m).Nodup

end GoMap

/-- Struct `models.CustomerEventData`; a `time.Time` is an integer time stamp. -/
structure CustomerEventData where
  EventDataID : ℤ
  EventID : ℤ
  ContentID : ℤ
  CustomerID : ℤ
  EventTypeID : ℤ
  EventDate : ℤ
  Quantity : ℤ
  InsertDate : ℤ
  deriving DecidableEq

/-- Struct `models.CustomerRevenue`. -/
structure CustomerRevenue where
  CustomerID : ℤ
  Email : String
  Revenue : Float64
  deriving DecidableEq

/-- Struct `models.QuantileStats`. -/
structure QuantileStats where
  QuantileIndex : ℤ
  CustomerCount : ℤ
  MaxRevenue : Float64
  MinRevenue : Float64
  deriving DecidableEq

/-- The ways a call can stop without returning. -/
inductive RuntimeFault where
  /-- Panic: index out of range. -/
  | indexOutOfRange
  /-- Panic: slice bounds out of range. -/
  | sliceBoundsOutOfRange
  /-- Panic: integer divide by zero. -/
  | integerDivideByZero
  /-- Panic: `makeslice: cap out of range`. -/
  | makeSliceCapOutOfRange
  /-- Fatal error: the heap cannot hold the requested slice. -/
  | outOfMemory
  deriving DecidableEq

/-- A Go `error` value. -/
abbrev GoError := String

/-- The map `map[int64]*models.CustomerRevenue`. -/
abbrev RevenueMap := GoMap ℤ CustomerRevenue

/-- Struct `Processor`. -/
structure Processor where
  quantile : Float64

/-- Constructor `NewProcessor`. -/
def NewProcessor (quantile : Float64) : Processor := { quantile := quantile }

namespace Processor

/-- Lines 36-39: the unit price of the event's content, 0 when the price table has no
entry for it. -/
def priceOf (prices : GoMap ℤ Float64) (event : CustomerEventData) : Float64 :=
  match prices.get? event.ContentID with
  | some price => price
  | none => .fin 0

/-- Line 41: `eventRevenue := float64(event.Quantity) * price`. -/
def eventRevenue (prices : GoMap ℤ Float64) (event : CustomerEventData) : Float64 :=
  Float64.mul (Float64.ofInt event.Quantity) (priceOf prices event)

/-- Lines 41 and 44: `rev.Revenue += eventRevenue`. The Go specification lets the
compiler fuse the product of line 41 and this sum into one operation with a single
rounding (the gc compiler does on arm64 and on amd64 at GOAMD64=v3); `fused` tells
whether it did. -/
def accumulate (fused : Bool) (prices : GoMap ℤ Float64) (revenue : Float64)
    (event : CustomerEventData) : Float64 :=
  if fused then Float64.fma (Float64.ofInt event.Quantity) (priceOf prices event) revenue
  else Float64.add revenue (eventRevenue prices event)

/-- Lines 46-49: `emails[id]` (the empty string when the key is absent), replaced by
the sentinel when it is the empty string. -/
def resolveEmail (emails : GoMap ℤ String) (id : ℤ) : String :=
  let email := match emails.get? id with
    | some email => email
    | none => ""
  if email = "" then "no-email@unknown.com" else email

/-- Lines 36-55: the body of the loop over the events. -/
def revenueStep (fused : Bool) (prices : GoMap ℤ Float64) (emails : GoMap ℤ String)
    (revenueMap : RevenueMap) (event : CustomerEventData) : RevenueMap :=
  match revenueMap.get? event.CustomerID with
  | some rev =>
      revenueMap.set event.CustomerID
        { rev with Revenue := accumulate fused prices rev.Revenue event }
  | none =>
      revenueMap.set event.CustomerID
        { CustomerID := event.CustomerID
          Email := resolveEmail emails event.CustomerID
          Revenue := eventRevenue prices event }

/-- Method `CalculateCustomerRevenue`, compiled with or without fused multiply-add. -/
def CalculateCustomerRevenue (_p : Processor) (fused : Bool) (events : List CustomerEventData)
    (prices : GoMap ℤ Float64) (emails : GoMap ℤ String) : RevenueMap × Option GoError :=
  (events.foldl (revenueStep fused prices emails) [], none)

/-- The revenue the loop leaves for a customer whose events are `events`, in that
order: none without an event, else the first event's revenue and `+=` for each
following one. -/
def totalOf (fused : Bool) (prices : GoMap ℤ Float64) :
    List CustomerEventData → Option Float64
  | [] => none
  | e :: es => some (es.foldl (accumulate fused prices) (eventRevenue prices e))

/-- The order `sort.Slice` establishes with `less(i, j) = customers[i].Revenue >
customers[j].Revenue`: `less(b, a)` is false for an element `a` placed before an
element `b`. -/
def revenueGe (a b : CustomerRevenue) : Prop := ¬ a.Revenue < b.Revenue

instance : DecidableRel revenueGe := fun a b => inferInstanceAs (Decidable (¬ a.Revenue < b.Revenue))

/-- Library call `sort.Slice(customers, less)` with the revenue-descending `less`. -/
def sortSlice (customers : List CustomerRevenue) : List CustomerRevenue :=
  customers.insertionSort revenueGe

/-- Lines 115-117: `for i := 0; i < topCount; i++ { topCustomers[customers[i].CustomerID]
= customers[i] }`, with `remaining = topCount - i` iterations left. -/
def topLoop (customers : List CustomerRevenue) :
    (remaining : ℕ) → (i : ℕ) → RevenueMap → Except RuntimeFault RevenueMap
  | 0, _, topCustomers => .ok topCustomers
  | remaining + 1, i, topCustomers =>
      match customers[i]? with
      | none => .error .indexOutOfRange
      | some c => topLoop customers remaining (i + 1) (topCustomers.set c.CustomerID c)

/-- Lines 109-112: the number of customers to select. -/
def topCount (p : Processor) (n : ℕ) : ℤ :=
  let topCount := Float64.toInt (Float64.mul (Float64.ofInt n) p.quantile)
  if topCount = 0 ∧ 0 < n then 1 else topCount

/-- Method `GetTopQuantileCustomers`. -/
def GetTopQuantileCustomers (p : Processor) (revenueMap : RevenueMap) :
    Except RuntimeFault (RevenueMap × Option GoError) :=
  let customers := sortSlice revenueMap.values
  let topCount := p.topCount customers.length
  match topLoop customers topCount.toNat 0 [] with
  | .error f => .error f
  | .ok topCustomers => .ok (topCustomers, none)

/-- Go slice expression `s[lo:hi]` on a slice whose capacity is its length (as
`customers` is: it is made with capacity `len(revenueMap)` and filled). -/
def goSlice {α : Type} (s : List α) (lo hi : ℤ) : Except RuntimeFault (List α) :=
  if 0 ≤ lo ∧ lo ≤ hi ∧ hi ≤ s.length then .ok ((s.drop lo.toNat).take (hi - lo).toNat)
  else .error .sliceBoundsOutOfRange

/-- Lines 146-170: the loop `for q := 0; q < numQuantiles; q++`, with
`remaining = numQuantiles - q` iterations left. -/
def statsLoop (customers : List CustomerRevenue) (numQuantiles customersPerQuantile : ℤ) :
    (remaining : ℕ) → List QuantileStats → Except RuntimeFault (List QuantileStats)
  | 0, stats => .ok stats
  | remaining + 1, stats =>
      let q : ℤ := numQuantiles - (remaining + 1 : ℕ)
      let startIdx := q * customersPerQuantile
      let endIdx := if q = numQuantiles - 1 then (customers.length : ℤ)
        else (q + 1) * customersPerQuantile
      if startIdx ≥ customers.length then .ok stats
      else
        match goSlice customers startIdx endIdx with
        | .error f => .error f
        | .ok quantileCustomers =>
            match quantileCustomers with
            | [] => statsLoop customers numQuantiles customersPerQuantile remaining stats
            | first :: rest =>
                statsLoop customers numQuantiles customersPerQuantile remaining
                  (stats ++ [{ QuantileIndex := q
                               CustomerCount := (first :: rest).length
                               MaxRevenue := first.Revenue
                               MinRevenue := ((first :: rest).getLast
                                 (List.cons_ne_nil first rest)).Revenue }])

/-- Line 141: `numQuantiles := int(1.0 / p.quantile)`. -/
def numQuantiles (p : Processor) : ℤ := Float64.toInt (Float64.div (.fin 1) p.quantile)

/-- Line 144: `make([]models.QuantileStats, 0, numQuantiles)`. The runtime panics for a
negative capacity and for one whose 32-byte elements exceed the largest allocation
(2 ^ 48 bytes on a 64-bit platform, that is 2 ^ 43 elements); otherwise the allocation
succeeds when the heap can hold it, `heapCapacity` being the number of elements it can
hold at the call. -/
def makeQuantileStats (heapCapacity : ℕ) (cap : ℤ) : Except RuntimeFault Unit :=
  if cap < 0 ∨ 2 ^ 43 < cap then .error .makeSliceCapOutOfRange
  else if (heapCapacity : ℤ) < cap then .error .outOfMemory
  else .ok ()

/-- Method `CalculateQuantileStats`, run with a heap that can hold `heapCapacity`
bucket records. -/
def CalculateQuantileStats (p : Processor) (heapCapacity : ℕ) (revenueMap : RevenueMap) :
    Except RuntimeFault (List QuantileStats × Option GoError) :=
  let customers := sortSlice revenueMap.values
  let numQuantiles := p.numQuantiles
  if numQuantiles = 0 then .error .integerDivideByZero
  else
    let customersPerQuantile := Int.tdiv customers.length numQuantiles
    match makeQuantileStats heapCapacity numQuantiles with
    | .error f => .error f
    | .ok _ =>
        match statsLoop customers numQuantiles customersPerQuantile numQuantiles.toNat [] with
        | .error f => .error f
        | .ok stats => .ok (stats, none)

end Processor

/-! ## The claims' own notions -/

/-- The elements of `sorted` at the positions `lo ≤ i < hi`. -/
def sliceSpec (sorted : List CustomerRevenue) (lo hi : ℕ) : List CustomerRevenue :=
  (sorted.take hi).drop lo

/-- The slice of bucket `q`: `[q * bucketSize, (q + 1) * bucketSize)`, and for the last
bucket `[q * bucketSize, n)`. -/
def bucketSliceSpec (sorted : List CustomerRevenue) (numBuckets bucketSize q : ℕ) :
    List CustomerRevenue :=
  if q + 1 = numBuckets then sliceSpec sorted (q * bucketSize) sorted.length
  else sliceSpec sorted (q * bucketSize) ((q + 1) * bucketSize)

/-- The bucket of a non-empty slice: its index, its length, the revenue of its first
element and the revenue of its last element; no bucket for an empty slice. -/
def bucketSpec (q : ℕ) (slice : List CustomerRevenue) : Option QuantileStats :=
  match slice with
  | [] => none
  | first :: rest =>
      some { QuantileIndex := q
             CustomerCount := (first :: rest).length
             MaxRevenue := first.Revenue
             MinRevenue := ((first :: rest).getLast (List.cons_ne_nil first rest)).Revenue }

/-- The buckets of the non-empty slices, in increasing index order. -/
def bucketLayoutSpec (sorted : List CustomerRevenue) (numBuckets bucketSize : ℕ) :
    List QuantileStats :=
  (List.range numBuckets).filterMap
    (fun q => bucketSpec q (bucketSliceSpec sorted numBuckets bucketSize q))

/-- Every record of the map is stored under its own `CustomerID`. -/
def KeyedByCustomerID (m : RevenueMap) : Prop := ∀ e ∈ m, e.2.CustomerID = e.1

/-- No revenue of the list is NaN. -/
def NoNaN (customers : List CustomerRevenue) : Prop :=
  ∀ c ∈ customers, c.Revenue ≠ Float64.nan

/-- The events of customer `k`, in the order of the event list. -/
def eventsOf (events : List CustomerEventData) (k : ℤ) : List CustomerEventData :=
  events.filter (fun e => e.CustomerID = k)

/-- The exact value, a rational, of `Quantity * price` for an event with a finite
price (0 for a missing price). -/
def exactRevenue (prices : GoMap ℤ Float64) (event : CustomerEventData) : ℚ :=
  match Processor.priceOf prices event with
  | .fin price => (event.Quantity : ℚ) * price
  | _ => 0

/-- The event has an `int16` quantity and a finite price. -/
def FiniteEvent (prices : GoMap ℤ Float64) (event : CustomerEventData) : Prop :=
  (-2 ^ 15 ≤ event.Quantity ∧ event.Quantity < 2 ^ 15) ∧
    ∃ price, Processor.priceOf prices event = .fin price

/-! ## Example inputs -/

/-- An event with the given content, customer and quantity. -/
def mkEvent (content customer quantity : ℤ) : CustomerEventData :=
  { EventDataID := 0, EventID := 0, ContentID := content, CustomerID := customer,
    EventTypeID := 6, EventDate := 0, Quantity := quantity, InsertDate := 0 }

/-- The events of the example scenario. -/
def exampleEvents : List CustomerEventData :=
  [mkEvent 1 100 2, mkEvent 1 100 1, mkEvent 2 200 5]

/-- The events of the example scenario in another order. -/
def exampleEventsPermuted : List CustomerEventData :=
  [mkEvent 2 200 5, mkEvent 1 100 2, mkEvent 1 100 1]

/-- The price table of the example scenario. -/
def examplePrices : GoMap ℤ Float64 := [(1, .fin 10), (2, .fin 3)]

/-- The identity table of the example scenario. -/
def exampleEmails : GoMap ℤ String := [(100, "a@x.com")]

/-- A price table with one very large price: 2 ^ 53 and 1. -/
def largePrices : GoMap ℤ Float64 := [(1, .fin 9007199254740992), (2, .fin 1)]

/-- Three events of customer 100, the expensive one first. -/
def largeFirst : List CustomerEventData :=
  [mkEvent 1 100 1, mkEvent 2 100 1, mkEvent 2 100 1]

/-- The same three events, the expensive one last. -/
def largeLast : List CustomerEventData :=
  [mkEvent 2 100 1, mkEvent 2 100 1, mkEvent 1 100 1]

/-- An identity table whose entry for customer 100 is the empty string. -/
def emptyEmails : GoMap ℤ String := [(100, "")]

/-- A map whose only record is stored under a key that is not its `CustomerID`. -/
def keyMismatch : RevenueMap := [(1, ⟨2, "", .fin 5⟩)]

/-- The revenue map of three customers with distinct revenues. -/
def threeCustomers : RevenueMap :=
  [(100, ⟨100, "a@x.com", .fin 30⟩), (200, ⟨200, "no-email@unknown.com", .fin 15⟩),
   (300, ⟨300, "c@x.com", .fin 45⟩)]

/-- The revenue map of the example scenario: customer 100 with revenue 30 and customer
200 with revenue 15. -/
def exampleRevenue : RevenueMap :=
  [(100, ⟨100, "a@x.com", .fin 30⟩), (200, ⟨200, "no-email@unknown.com", .fin 15⟩)]

/-- A map with two records that carry the same `CustomerID` under different keys. -/
def sharedCustomerID : RevenueMap := [(1, ⟨7, "", .fin 5⟩), (2, ⟨7, "", .fin 3⟩)]

/-- A map with one customer whose revenue is NaN. -/
def nanCustomer : RevenueMap := [(1, ⟨1, "", .nan⟩)]

/-- A map of two customers, the first with a NaN revenue. -/
def nanFirst : RevenueMap := [(1, ⟨1, "", .nan⟩), (2, ⟨2, "", .fin 5⟩)]

/-- The same map visited in the other order. -/
def nanLast : RevenueMap := [(2, ⟨2, "", .fin 5⟩), (1, ⟨1, "", .nan⟩)]

/-- The `float64` nearest to 0.025, the quantile that `config.go` sets:
3602879701896397 / 2 ^ 57. -/
def quantileDefault : Float64 := .fin (3602879701896397 / 144115188075855872)

/-- The `float64` 2 ^ (-44). -/
def quantileTiny : Float64 := .fin (1 / 17592186044416)

/-! ## Rounding -/

namespace Float64

theorem roundHalfEven_intCast (z : ℤ) : roundHalfEven (z : ℚ) = z := by
  simp [roundHalfEven]

theorem floor_le_roundHalfEven (m : ℚ) : ⌊m⌋ ≤ roundHalfEven m := by
  unfold roundHalfEven
  split_ifs <;> omega

theorem roundHalfEven_le_floor_add_one (m : ℚ) : roundHalfEven m ≤ ⌊m⌋ + 1 := by
  unfold roundHalfEven
  split_ifs <;> omega

theorem roundHalfEven_mono {a b : ℚ} (h : a ≤ b) : roundHalfEven a ≤ roundHalfEven b := by
  rcases (Int.floor_mono h).lt_or_eq with hlt | heq
  · calc roundHalfEven a ≤ ⌊a⌋ + 1 := roundHalfEven_le_floor_add_one a
      _ ≤ ⌊b⌋ := hlt
      _ ≤ roundHalfEven b := floor_le_roundHalfEven b
  · unfold roundHalfEven
    rw [heq]
    have hab : a - ⌊b⌋ ≤ b - ⌊b⌋ := by linarith
    split_ifs <;> first | omega | (exfalso; linarith)

theorem le_roundHalfEven {z : ℤ} {m : ℚ} (h : (z : ℚ) ≤ m) : z ≤ roundHalfEven m := by
  simpa [roundHalfEven_intCast] using roundHalfEven_mono h

theorem roundHalfEven_le {z : ℤ} {m : ℚ} (h : m ≤ (z : ℚ)) : roundHalfEven m ≤ z := by
  simpa [roundHalfEven_intCast] using roundHalfEven_mono h

theorem nearest_zero : nearest 0 = 0 := by simp [nearest]

theorem two_zpow_pos (e : ℤ) : (0 : ℚ) < 2 ^ e := zpow_pos (by norm_num) e

theorem nearest_of_ne_zero {x : ℚ} (hx : x ≠ 0) :
    nearest x = (roundHalfEven (x / 2 ^ (exponent x - 52)) : ℚ) * 2 ^ (exponent x - 52) := by
  simp [nearest, hx]

theorem exponent_of_pos {x : ℚ} (hx : 0 < x) : exponent x = max (Int.log 2 x) (-1022) := by
  simp [exponent, abs_of_pos hx]

theorem zpow_log_le {x : ℚ} (hx : 0 < x) : (2 : ℚ) ^ Int.log 2 x ≤ x := by
  simpa using Int.zpow_log_le_self (b := 2) (by norm_num) hx

theorem lt_zpow_log_succ (x : ℚ) : x < (2 : ℚ) ^ (Int.log 2 x + 1) := by
  simpa using Int.lt_zpow_succ_log_self (b := 2) (by norm_num) x

theorem scale52 (e : ℤ) : ((2 ^ 52 : ℤ) : ℚ) * 2 ^ (e - 52) = 2 ^ e := by
  have h : ((2 ^ 52 : ℤ) : ℚ) = (2 : ℚ) ^ (52 : ℤ) := by norm_num
  rw [h, ← zpow_add₀ (by norm_num)]
  congr 1
  ring

theorem scale53 (e : ℤ) : ((2 ^ 53 : ℤ) : ℚ) * 2 ^ (e - 52) = 2 ^ (e + 1) := by
  have h : ((2 ^ 53 : ℤ) : ℚ) = (2 : ℚ) ^ (53 : ℤ) := by norm_num
  rw [h, ← zpow_add₀ (by norm_num)]
  congr 1
  ring

theorem lt_zpow_exponent_succ {x : ℚ} (hx : 0 < x) : x < (2 : ℚ) ^ (exponent x + 1) := by
  have h1 := lt_zpow_log_succ x
  have h2 : (2 : ℚ) ^ (Int.log 2 x + 1) ≤ 2 ^ (exponent x + 1) := by
    apply zpow_le_zpow_right₀ (by norm_num)
    rw [exponent_of_pos hx]
    have := le_max_left (Int.log 2 x) (-1022)
    omega
  exact lt_of_lt_of_le h1 h2

theorem nearest_le_zpow {x : ℚ} (hx : 0 < x) : nearest x ≤ (2 : ℚ) ^ (exponent x + 1) := by
  rw [nearest_of_ne_zero hx.ne']
  have hu := two_zpow_pos (exponent x - 52)
  have h1 : x / 2 ^ (exponent x - 52) ≤ ((2 ^ 53 : ℤ) : ℚ) := by
    rw [div_le_iff₀ hu, scale53]
    exact (lt_zpow_exponent_succ hx).le
  have h3 : (roundHalfEven (x / 2 ^ (exponent x - 52)) : ℚ) ≤ ((2 ^ 53 : ℤ) : ℚ) :=
    Int.cast_le.2 (roundHalfEven_le h1)
  calc _ ≤ ((2 ^ 53 : ℤ) : ℚ) * 2 ^ (exponent x - 52) := mul_le_mul_of_nonneg_right h3 hu.le
    _ = _ := scale53 _

theorem zpow_le_nearest {x : ℚ} (hx : 0 < x) (hlog : exponent x = Int.log 2 x) :
    (2 : ℚ) ^ exponent x ≤ nearest x := by
  rw [nearest_of_ne_zero hx.ne']
  have hu := two_zpow_pos (exponent x - 52)
  have h1 : ((2 ^ 52 : ℤ) : ℚ) ≤ x / 2 ^ (exponent x - 52) := by
    rw [le_div_iff₀ hu, scale52, hlog]
    exact zpow_log_le hx
  have h3 : ((2 ^ 52 : ℤ) : ℚ) ≤ (roundHalfEven (x / 2 ^ (exponent x - 52)) : ℚ) :=
    Int.cast_le.2 (le_roundHalfEven h1)
  calc (2 : ℚ) ^ exponent x = ((2 ^ 52 : ℤ) : ℚ) * 2 ^ (exponent x - 52) := (scale52 _).symm
    _ ≤ _ := mul_le_mul_of_nonneg_right h3 hu.le

theorem nearest_nonneg {x : ℚ} (hx : 0 ≤ x) : 0 ≤ nearest x := by
  rcases hx.lt_or_eq with h | h
  · rw [nearest_of_ne_zero h.ne']
    have hu := two_zpow_pos (exponent x - 52)
    have h1 : ((0 : ℤ) : ℚ) ≤ x / 2 ^ (exponent x - 52) := by
      rw [Int.cast_zero]
      exact div_nonneg hx hu.le
    have h2 : (0 : ℚ) ≤ (roundHalfEven (x / 2 ^ (exponent x - 52)) : ℚ) := by
      exact_mod_cast le_roundHalfEven h1
    exact mul_nonneg h2 hu.le
  · rw [← h, nearest_zero]

theorem nearest_nonpos {x : ℚ} (hx : x ≤ 0) : nearest x ≤ 0 := by
  rcases hx.lt_or_eq with h | h
  · rw [nearest_of_ne_zero h.ne]
    have hu := two_zpow_pos (exponent x - 52)
    have h1 : x / 2 ^ (exponent x - 52) ≤ ((0 : ℤ) : ℚ) := by
      rw [Int.cast_zero]
      exact div_nonpos_of_nonpos_of_nonneg hx hu.le
    have h2 : (roundHalfEven (x / 2 ^ (exponent x - 52)) : ℚ) ≤ 0 := by
      exact_mod_cast roundHalfEven_le h1
    exact mul_nonpos_of_nonpos_of_nonneg h2 hu.le
  · rw [h, nearest_zero]

theorem exponent_mono {x y : ℚ} (hx : 0 < x) (hxy : x ≤ y) : exponent x ≤ exponent y := by
  rw [exponent_of_pos hx, exponent_of_pos (lt_of_lt_of_le hx hxy)]
  exact max_le_max (Int.log_mono_right hx hxy) (le_refl _)

theorem nearest_mono_of_pos {x y : ℚ} (hx : 0 < x) (hxy : x ≤ y) : nearest x ≤ nearest y := by
  have hy : 0 < y := lt_of_lt_of_le hx hxy
  rcases (exponent_mono hx hxy).lt_or_eq with hlt | heq
  · have hlog : exponent y = Int.log 2 y := by
      rw [exponent_of_pos hy]
      apply max_eq_left
      have h1 : exponent x < max (Int.log 2 y) (-1022) := by
        rw [← exponent_of_pos hy]
        exact hlt
      have h2 : -1022 ≤ exponent x := by
        rw [exponent_of_pos hx]
        exact le_max_right _ _
      by_contra hcon
      rw [max_eq_right (by omega)] at h1
      omega
    calc nearest x ≤ (2 : ℚ) ^ (exponent x + 1) := nearest_le_zpow hx
      _ ≤ (2 : ℚ) ^ exponent y := zpow_le_zpow_right₀ (by norm_num) hlt
      _ ≤ nearest y := zpow_le_nearest hy hlog
  · rw [nearest_of_ne_zero hx.ne', nearest_of_ne_zero hy.ne', heq]
    have hu := two_zpow_pos (exponent y - 52)
    apply mul_le_mul_of_nonneg_right _ hu.le
    have := roundHalfEven_mono (div_le_div_of_nonneg_right hxy hu.le)
    exact_mod_cast this

theorem nearest_mono_of_nonneg {x y : ℚ} (hx : 0 ≤ x) (hxy : x ≤ y) :
    nearest x ≤ nearest y := by
  rcases hx.lt_or_eq with h | h
  · exact nearest_mono_of_pos h hxy
  · rw [← h, nearest_zero]
    exact nearest_nonneg (le_trans hx hxy)

theorem log_eq_of_bounds {x : ℚ} (hx : 0 < x) (e : ℤ) (h1 : (2 : ℚ) ^ e ≤ x)
    (h2 : x < (2 : ℚ) ^ (e + 1)) : Int.log 2 x = e := by
  have a : e ≤ Int.log 2 x := (Int.zpow_le_iff_le_log (b := 2) (by norm_num) hx).1 (by simpa using h1)
  have b : Int.log 2 x < e + 1 := (Int.lt_zpow_iff_log_lt (b := 2) (by norm_num) hx).1 (by simpa using h2)
  omega

theorem exponent_eq_of_bounds {x : ℚ} (hx : 0 < x) (e : ℤ) (he : -1022 ≤ e)
    (h1 : (2 : ℚ) ^ e ≤ x) (h2 : x < (2 : ℚ) ^ (e + 1)) : exponent x = e := by
  rw [exponent_of_pos hx, log_eq_of_bounds hx e h1 h2]
  exact max_eq_left he

theorem nearest_of_int_mantissa {x : ℚ} (hx : x ≠ 0) (z : ℤ)
    (h : x / 2 ^ (exponent x - 52) = z) : nearest x = x := by
  rw [nearest_of_ne_zero hx, h, roundHalfEven_intCast, ← h]
  exact div_mul_cancel₀ x (two_zpow_pos _).ne'

theorem nearest_natCast (n : ℕ) (h : n ≤ 2 ^ 53) : nearest (n : ℚ) = n := by
  rcases Nat.eq_zero_or_pos n with h0 | hpos
  · simp [h0, nearest_zero]
  have hx : (0 : ℚ) < n := by exact_mod_cast hpos
  have hlog : Int.log 2 (n : ℚ) = (Nat.log 2 n : ℤ) := Int.log_natCast 2 n
  have hexp : exponent (n : ℚ) = (Nat.log 2 n : ℤ) := by
    rw [exponent_of_pos hx, hlog]
    apply max_eq_left
    omega
  have hL : Nat.log 2 n ≤ 53 := by
    calc Nat.log 2 n ≤ Nat.log 2 (2 ^ 53) := Nat.log_mono_right h
      _ = 53 := Nat.log_pow (by norm_num) 53
  rcases Nat.lt_or_ge (Nat.log 2 n) 53 with hlt | hge
  · apply nearest_of_int_mantissa hx.ne' ((n * 2 ^ (52 - Nat.log 2 n) : ℕ) : ℤ)
    rw [hexp]
    have he : ((Nat.log 2 n : ℤ) - 52) = -((52 - Nat.log 2 n : ℕ) : ℤ) := by omega
    rw [he, zpow_neg, zpow_natCast, div_inv_eq_mul]
    push_cast
    ring
  · have hn : n = 2 ^ 53 := by
      have h53 : Nat.log 2 n = 53 := le_antisymm hL hge
      have := Nat.pow_log_le_self 2 hpos.ne'
      rw [h53] at this
      exact le_antisymm h this
    subst hn
    apply nearest_of_int_mantissa hx.ne' ((2 ^ 52 : ℕ) : ℤ)
    rw [hexp, Nat.log_pow (by norm_num) 53]
    norm_num

theorem round_of_lt {x : ℚ} (h : |nearest x| < (2 : ℚ) ^ 1024) : round x = fin (nearest x) := by
  unfold round
  rw [if_neg (not_le.2 h)]

theorem round_zero : round 0 = fin 0 := by
  rw [round_of_lt (by rw [nearest_zero]; norm_num), nearest_zero]

/-- A number between 0 and a natural number below 2 ^ 53 rounds to a finite number in
the same range. -/
theorem round_of_le_natCast {x : ℚ} (n : ℕ) (hn : n ≤ 2 ^ 53) (hx0 : 0 ≤ x) (hxn : x ≤ n) :
    round x = fin (nearest x) ∧ 0 ≤ nearest x ∧ nearest x ≤ n := by
  have h0 := nearest_nonneg hx0
  have h1 : nearest x ≤ n := by
    calc nearest x ≤ nearest (n : ℚ) := nearest_mono_of_nonneg hx0 hxn
      _ = n := nearest_natCast n hn
  refine ⟨round_of_lt ?_, h0, h1⟩
  rw [abs_of_nonneg h0]
  have h53 : ((n : ℕ) : ℚ) ≤ 2 ^ 53 := by exact_mod_cast hn
  have : (2 : ℚ) ^ 53 < 2 ^ 1024 := by norm_num
  linarith

theorem round_natCast (n : ℕ) (h : n ≤ 2 ^ 53) : round (n : ℚ) = fin n := by
  have := (round_of_le_natCast n h (Nat.cast_nonneg n) (le_refl _)).1
  rw [this, nearest_natCast n h]

theorem round_one : round 1 = fin 1 := by
  simpa using round_natCast 1 (by norm_num)

theorem ofInt_natCast (n : ℕ) (h : n ≤ 2 ^ 53) : ofInt (n : ℤ) = fin n := by
  unfold ofInt
  rw [Int.cast_natCast]
  exact round_natCast n h

theorem ofInt_zero : ofInt 0 = fin 0 := by
  simpa using ofInt_natCast 0 (by norm_num)

end Float64

/-! ## Comparisons and conversions -/

namespace Float64

theorem fin_lt_fin (x y : ℚ) : fin x < fin y ↔ x < y := Iff.rfl

theorem fin_le_fin (x y : ℚ) : fin x ≤ fin y ↔ x ≤ y := Iff.rfl

/-- A `float64` between two finite numbers is finite. -/
theorem exists_fin_of_bounds {q : Float64} {a b : ℚ} (ha : fin a ≤ q) (hb : q ≤ fin b) :
    ∃ x, q = fin x ∧ a ≤ x ∧ x ≤ b := by
  cases q with
  | fin x => exact ⟨x, rfl, ha, hb⟩
  | posInf => exact absurd hb not_false
  | negInf => exact absurd ha not_false
  | nan => exact absurd hb not_false

theorem exists_fin_of_lt_of_le {q : Float64} {a b : ℚ} (ha : fin a < q) (hb : q ≤ fin b) :
    ∃ x, q = fin x ∧ a < x ∧ x ≤ b := by
  cases q with
  | fin x => exact ⟨x, rfl, ha, hb⟩
  | posInf => exact absurd hb not_false
  | negInf => exact absurd ha not_false
  | nan => exact absurd hb not_false

theorem le_chain {a b c : Float64} (hab : a ≤ b) (hbc : b ≤ c) : a ≤ c := by
  cases a <;> cases b <;> cases c <;>
    first
    | exact absurd hab not_false
    | exact absurd hbc not_false
    | trivial
    | exact (fin_le_fin _ _).2 (le_trans ((fin_le_fin _ _).1 hab) ((fin_le_fin _ _).1 hbc))

theorem le_self {a : Float64} (h : a ≠ nan) : a ≤ a := by
  cases a with
  | fin x => exact le_refl x
  | posInf => trivial
  | negInf => trivial
  | nan => exact absurd rfl h

theorem not_lt_of_lt {a b : Float64} (h : a < b) : ¬ b < a := by
  cases a <;> cases b <;>
    first
    | exact absurd h not_false
    | exact not_false
    | exact fun h2 => absurd ((fin_lt_fin _ _).1 h2) (not_lt.2 (le_of_lt ((fin_lt_fin _ _).1 h)))

/-- For operands that are not NaN, `x <= y` is the negation of `y < x`. -/
theorem le_iff_not_lt {a b : Float64} (ha : a ≠ nan) (hb : b ≠ nan) : a ≤ b ↔ ¬ b < a := by
  cases a <;> cases b <;>
    first
    | exact absurd rfl ha
    | exact absurd rfl hb
    | exact ⟨fun _ => not_false, fun _ => trivial⟩
    | exact ⟨fun h => absurd h not_false, fun h => absurd trivial h⟩
    | exact (fin_le_fin _ _).trans (not_lt.symm.trans (not_congr (fin_lt_fin _ _).symm))

theorem strict_of_le_of_ne {a b : Float64} (h : a ≤ b) (hne : a ≠ b) : a < b := by
  cases a <;> cases b <;>
    first
    | exact absurd h not_false
    | exact absurd rfl hne
    | trivial
    | exact (fin_lt_fin _ _).2 (lt_of_le_of_ne ((fin_le_fin _ _).1 h) (fun heq => hne (congrArg fin heq)))

theorem weak_of_lt {a b : Float64} (h : a < b) : a ≤ b := by
  cases a <;> cases b <;>
    first
    | exact absurd h not_false
    | trivial
    | exact (fin_le_fin _ _).2 (le_of_lt ((fin_lt_fin _ _).1 h))

theorem ne_nan_of_le_left {a b : Float64} (h : a ≤ b) : a ≠ nan := by
  intro ha
  subst ha
  exact absurd h not_false

theorem ne_nan_of_le_right {a b : Float64} (h : a ≤ b) : b ≠ nan := by
  intro hb
  subst hb
  cases a <;> exact absurd h not_false

/-- Rounding a number that is not negative gives a finite number that is not negative,
or the positive infinity. -/
theorem round_of_nonneg {x : ℚ} (hx : 0 ≤ x) :
    round x = posInf ∨ ∃ y, 0 ≤ y ∧ round x = fin y := by
  unfold round
  split_ifs with h1 h2
  · exact Or.inl rfl
  · exfalso
    have hx0 : x = 0 := le_antisymm (not_lt.1 h2) hx
    rw [hx0, nearest_zero] at h1
    norm_num at h1
  · exact Or.inr ⟨_, nearest_nonneg hx, rfl⟩

/-- Rounding a number that is not positive gives a finite number that is not positive,
or the negative infinity. -/
theorem round_of_nonpos {x : ℚ} (hx : x ≤ 0) :
    round x = negInf ∨ ∃ y, y ≤ 0 ∧ round x = fin y := by
  unfold round
  split_ifs with h1 h2
  · exact absurd h2 (not_lt.2 hx)
  · exact Or.inl rfl
  · exact Or.inr ⟨_, nearest_nonpos hx, rfl⟩

theorem toInt_fin (x : ℚ) :
    toInt (fin x) = if -2 ^ 63 ≤ trunc x ∧ trunc x < 2 ^ 63 then trunc x else -2 ^ 63 := rfl

theorem toInt_fin_zero : toInt (fin 0) = 0 := by
  simp [toInt_fin, trunc]

theorem toInt_posInf : toInt posInf = -2 ^ 63 := rfl

theorem toInt_negInf : toInt negInf = -2 ^ 63 := rfl

theorem toInt_nan : toInt nan = -2 ^ 63 := rfl

/-- Within the `int64` range the conversion of a finite number that is not negative is
its floor. -/
theorem toInt_fin_of_nonneg {x : ℚ} (hx : 0 ≤ x) (h : x < 2 ^ 63) : toInt (fin x) = ⌊x⌋ := by
  have h0 : (0 : ℤ) ≤ ⌊x⌋ := Int.floor_nonneg.2 hx
  have h1 : ⌊x⌋ < 2 ^ 63 := by
    have hh : x < ((2 ^ 63 : ℤ) : ℚ) := by
      push_cast
      exact h
    exact Int.floor_lt.2 hh
  have ht : trunc x = ⌊x⌋ := by
    unfold trunc
    rw [if_pos hx]
  rw [toInt_fin, ht, if_pos ⟨by omega, h1⟩]

theorem toInt_fin_nonpos {x : ℚ} (hx : x ≤ 0) : toInt (fin x) ≤ 0 := by
  have ht : trunc x ≤ 0 := by
    unfold trunc
    split_ifs with h1
    · have hx0 : x = 0 := le_antisymm hx h1
      simp [hx0]
    · exact Int.ceil_le.2 (by simpa using hx)
  rw [toInt_fin]
  split_ifs
  · exact ht
  · norm_num

theorem toInt_round_of_nonpos {x : ℚ} (hx : x ≤ 0) : toInt (round x) ≤ 0 := by
  rcases round_of_nonpos hx with h | ⟨y, hy, h⟩
  · rw [h, toInt_negInf]
    norm_num
  · rw [h]
    exact toInt_fin_nonpos hy

theorem toInt_infTimes (b : Bool) (x : ℚ) : toInt (infTimes b x) ≤ 0 := by
  unfold infTimes
  split_ifs
  · rw [toInt_nan]
    norm_num
  · rw [toInt_posInf]
    norm_num
  · rw [toInt_negInf]
    norm_num

/-- For a quantile in (0,1] and a length below 2 ^ 53, `int(float64(n) * quantile)` lies
between 0 and `n`: it is the floor of the rounded product. -/
theorem toInt_mul_bounds (x : ℚ) (n : ℕ) (hq0 : 0 < x) (hq1 : x ≤ 1) (hn : n ≤ 2 ^ 53) :
    toInt (mul (ofInt (n : ℤ)) (fin x)) = ⌊nearest ((n : ℚ) * x)⌋ ∧
    0 ≤ toInt (mul (ofInt (n : ℤ)) (fin x)) ∧ toInt (mul (ofInt (n : ℤ)) (fin x)) ≤ n := by
  rw [ofInt_natCast n hn]
  have hn0 : (0 : ℚ) ≤ n := Nat.cast_nonneg n
  have hprod0 : 0 ≤ (n : ℚ) * x := mul_nonneg hn0 hq0.le
  have hprod1 : (n : ℚ) * x ≤ n := by
    calc (n : ℚ) * x ≤ n * 1 := mul_le_mul_of_nonneg_left hq1 hn0
      _ = n := mul_one _
  obtain ⟨hr, h0, h1⟩ := round_of_le_natCast n hn hprod0 hprod1
  have h53 : ((n : ℕ) : ℚ) ≤ 2 ^ 53 := by exact_mod_cast hn
  have hlt : nearest ((n : ℚ) * x) < 2 ^ 63 := by
    have : (2 : ℚ) ^ 53 < 2 ^ 63 := by norm_num
    linarith
  have hmul : mul (fin (n : ℚ)) (fin x) = fin (nearest ((n : ℚ) * x)) := hr
  rw [hmul, toInt_fin_of_nonneg h0 hlt]
  refine ⟨rfl, Int.floor_nonneg.2 h0, ?_⟩
  have h1' : nearest ((n : ℚ) * x) ≤ ((n : ℤ) : ℚ) := by
    rw [Int.cast_natCast]
    exact h1
  exact le_trans (Int.floor_mono h1') (le_of_eq (Int.floor_intCast _))

/-- For a quantile that is not positive, `int(float64(n) * quantile)` is not positive,
whatever the length. -/
theorem toInt_mul_nonpos (q : Float64) (n : ℕ) (hq : q ≤ fin 0) :
    toInt (mul (ofInt (n : ℤ)) q) ≤ 0 := by
  have hn0 : (0 : ℚ) ≤ ((n : ℤ) : ℚ) := by
    rw [Int.cast_natCast]
    exact Nat.cast_nonneg n
  unfold ofInt
  rcases round_of_nonneg hn0 with hinf | ⟨y, hy, hfin⟩
  · rw [hinf]
    cases q with
    | fin x => exact toInt_infTimes true x
    | posInf => exact absurd hq not_false
    | negInf =>
      show toInt negInf ≤ 0
      rw [toInt_negInf]
      norm_num
    | nan => exact absurd hq not_false
  · rw [hfin]
    cases q with
    | fin x =>
      have hx : x ≤ 0 := hq
      exact toInt_round_of_nonpos (mul_nonpos_of_nonneg_of_nonpos hy hx)
    | posInf => exact absurd hq not_false
    | negInf => exact toInt_infTimes false y
    | nan => exact absurd hq not_false

theorem mul_ofInt_zero (q : ℚ) : mul (ofInt 0) (fin q) = fin 0 := by
  rw [ofInt_zero]
  show round (0 * q) = fin 0
  rw [zero_mul, round_zero]

end Float64

namespace Float64

theorem roundHalfEven_neg (m : ℚ) : roundHalfEven (-m) = -roundHalfEven m := by
  by_cases hint : (⌊m⌋ : ℚ) = m
  · rw [← hint, ← Int.cast_neg, roundHalfEven_intCast, roundHalfEven_intCast]
  · have hlt : (⌊m⌋ : ℚ) < m := lt_of_le_of_ne (Int.floor_le m) hint
    have hlt2 : m < (⌊m⌋ : ℚ) + 1 := Int.lt_floor_add_one m
    have hfl : ⌊-m⌋ = -⌊m⌋ - 1 := by
      rw [Int.floor_eq_iff]
      push_cast
      constructor <;> linarith
    unfold roundHalfEven
    rw [hfl]
    push_cast
    by_cases h1 : m - ⌊m⌋ < 1 / 2
    · have h2 : ¬ (-m - (-(⌊m⌋ : ℚ) - 1) < 1 / 2) := by linarith
      have h3 : (1 : ℚ) / 2 < -m - (-(⌊m⌋ : ℚ) - 1) := by linarith
      rw [if_pos h1, if_neg h2, if_pos h3]
      ring
    · by_cases h2 : 1 / 2 < m - ⌊m⌋
      · have h3 : -m - (-(⌊m⌋ : ℚ) - 1) < 1 / 2 := by linarith
        rw [if_neg h1, if_pos h2, if_pos h3]
        ring
      · have h3 : ¬ (-m - (-(⌊m⌋ : ℚ) - 1) < 1 / 2) := by linarith
        have h4 : ¬ ((1 : ℚ) / 2 < -m - (-(⌊m⌋ : ℚ) - 1)) := by linarith
        rw [if_neg h1, if_neg h2, if_neg h3, if_neg h4]
        by_cases h5 : ⌊m⌋ % 2 = 0
        · have h6 : ¬ ((-⌊m⌋ - 1) % 2 = 0) := by omega
          rw [if_pos h5, if_neg h6]
          ring
        · have h6 : (-⌊m⌋ - 1) % 2 = 0 := by omega
          rw [if_neg h5, if_pos h6]
          ring

theorem exponent_neg (x : ℚ) : exponent (-x) = exponent x := by
  unfold exponent
  rw [abs_neg]

theorem nearest_neg (x : ℚ) : nearest (-x) = -nearest x := by
  by_cases hx : x = 0
  · subst hx
    simp [nearest_zero]
  · rw [nearest_of_ne_zero hx, nearest_of_ne_zero (neg_ne_zero.2 hx), exponent_neg, neg_div,
      roundHalfEven_neg]
    push_cast
    ring

theorem nearest_intCast (z : ℤ) (h : |z| ≤ 2 ^ 53) : nearest (z : ℚ) = z := by
  rcases le_total 0 z with hz | hz
  · obtain ⟨n, rfl⟩ := Int.eq_ofNat_of_zero_le hz
    have hn : n ≤ 2 ^ 53 := by
      rw [abs_of_nonneg hz] at h
      exact_mod_cast h
    exact_mod_cast nearest_natCast n hn
  · obtain ⟨n, hn⟩ := Int.eq_ofNat_of_zero_le (neg_nonneg.2 hz)
    have hz' : z = -(n : ℤ) := by omega
    subst hz'
    have hn' : n ≤ 2 ^ 53 := by
      rw [abs_neg, abs_of_nonneg (Int.natCast_nonneg n)] at h
      exact_mod_cast h
    push_cast
    rw [nearest_neg, nearest_natCast n hn']

theorem round_intCast (z : ℤ) (h : |z| ≤ 2 ^ 53) : round (z : ℚ) = fin z := by
  have hn := nearest_intCast z h
  have hlt : |nearest (z : ℚ)| < (2 : ℚ) ^ 1024 := by
    rw [hn]
    have h1 : |(z : ℚ)| ≤ 2 ^ 53 := by exact_mod_cast h
    have h2 : (2 : ℚ) ^ 53 < 2 ^ 1024 := by norm_num
    exact lt_of_le_of_lt h1 h2
  rw [round_of_lt hlt, hn]

theorem ofInt_of_abs_le (z : ℤ) (h : |z| ≤ 2 ^ 53) : ofInt z = fin z :=
  round_intCast z h

theorem ofInt_int16 (z : ℤ) (h : -2 ^ 15 ≤ z ∧ z < 2 ^ 15) : ofInt z = fin z := by
  apply ofInt_of_abs_le
  rw [abs_le]
  constructor <;> omega

end Float64

namespace Float64

theorem roundHalfEven_eq_of_abs_lt {m : ℚ} (z : ℤ) (h : |m - z| < 1 / 2) :
    roundHalfEven m = z := by
  rw [abs_lt] at h
  rcases le_or_lt (z : ℚ) m with hz | hz
  · have hfl : ⌊m⌋ = z := by
      rw [Int.floor_eq_iff]
      constructor <;> linarith
    unfold roundHalfEven
    rw [hfl, if_pos (by linarith)]
  · have hfl : ⌊m⌋ = z - 1 := by
      rw [Int.floor_eq_iff]
      push_cast
      constructor <;> linarith
    unfold roundHalfEven
    rw [hfl]
    push_cast
    rw [if_neg (by linarith), if_pos (by linarith)]
    ring

theorem roundHalfEven_tie {m : ℚ} (z : ℤ) (h : m = z + 1 / 2) :
    roundHalfEven m = if z % 2 = 0 then z else z + 1 := by
  have hfl : ⌊m⌋ = z := by
    rw [Int.floor_eq_iff]
    constructor <;> linarith
  unfold roundHalfEven
  rw [hfl, if_neg (by linarith), if_neg (by linarith)]

theorem round_eval {x : ℚ} (hx : 0 < x) (e : ℤ) (he : -1022 ≤ e) (h1 : (2 : ℚ) ^ e ≤ x)
    (h2 : x < (2 : ℚ) ^ (e + 1)) (z : ℤ) (hz : roundHalfEven (x / 2 ^ (e - 52)) = z)
    (r : ℚ) (hr : (z : ℚ) * 2 ^ (e - 52) = r) (hlt : |r| < (2 : ℚ) ^ 1024) :
    round x = fin r := by
  have hn : nearest x = r := by
    rw [nearest_of_ne_zero hx.ne', exponent_eq_of_bounds hx e he h1 h2, hz, hr]
  rw [round_of_lt (by rw [hn]; exact hlt), hn]

theorem round_two_pow_53 : round 9007199254740992 = fin 9007199254740992 := by
  have h := round_natCast (2 ^ 53) le_rfl
  norm_num at h
  exact h

theorem round_two_pow_53_add_one : round 9007199254740993 = fin 9007199254740992 := by
  refine round_eval (by norm_num) 53 (by norm_num) (by norm_num) (by norm_num)
    4503599627370496 ?_ _ (by norm_num) (by norm_num)
  rw [roundHalfEven_tie 4503599627370496 (by norm_num)]
  rfl

theorem round_two_pow_53_add_two : round 9007199254740994 = fin 9007199254740994 := by
  refine round_eval (by norm_num) 53 (by norm_num) (by norm_num) (by norm_num)
    4503599627370497 ?_ _ (by norm_num) (by norm_num)
  apply roundHalfEven_eq_of_abs_lt
  norm_num

end Float64

/-! ## Go maps -/

namespace GoMap

variable {κ ν : Type} [DecidableEq κ]

theorem get?_set (m : GoMap κ ν) (k k' : κ) (v : ν) :
    (m.set k v).get? k' = if k = k' then some v else m.get? k' := by
  induction m with
  | nil => simp [set, get?]
  | cons p t ih =>
    obtain ⟨a, b⟩ := p
    by_cases h : a = k
    · subst h
      by_cases h' : a = k' <;> simp [set, get?, h']
    · by_cases h' : k = k'
      · subst h'
        simp [set, get?, h, ih]
      · by_cases h'' : a = k'
        · subst h''
          simp [set, get?, h, h']
        · simp [set, get?, h, h', h'', ih]

theorem mem_keys_iff (m : GoMap κ ν) (k : κ) : k ∈ m.keys ↔ (m.get? k).isSome = true := by
  induction m with
  | nil => simp [keys, get?]
  | cons p t ih =>
    obtain ⟨a, b⟩ := p
    by_cases h : a = k
    · simp [keys, get?, h]
    · have ih' : k ∈ List.map Prod.fst t ↔ (get? t k).isSome = true := ih
      simp [keys, get?, h, ih', Ne.symm h]

theorem keys_set (m : GoMap κ ν) (k : κ) (v : ν) :
    (m.set k v).keys = if k ∈ m.keys then m.keys else m.keys ++ [k] := by
  induction m with
  | nil => simp [set, keys]
  | cons p t ih =>
    obtain ⟨a, b⟩ := p
    have ih' : List.map Prod.fst (set t k v)
        = if k ∈ List.map Prod.fst t then List.map Prod.fst t else List.map Prod.fst t ++ [k] := ih
    by_cases h : a = k
    · simp [set, keys, h]
    · by_cases hk : k ∈ List.map Prod.fst t
      · simp [set, keys, h, Ne.symm h, ih', hk]
      · simp [set, keys, h, Ne.symm h, ih', hk]

theorem WF_set (m : GoMap κ ν) (k : κ) (v : ν) (h : m.WF) : (m.set k v).WF := by
  unfold WF at *
  rw [keys_set]
  split
  · exact h
  · rename_i hk
    exact List.Nodup.append h (List.nodup_singleton k) (by simpa using hk)

theorem get?_eq_some_of_mem (m : GoMap κ ν) (h : m.WF) (k : κ) (v : ν) (hm : (k, v) ∈ m) :
    m.get? k = some v := by
  induction m with
  | nil => simp at hm
  | cons p t ih =>
    obtain ⟨a, b⟩ := p
    have hnd : a ∉ List.map Prod.fst t ∧ (List.map Prod.fst t).Nodup := by
      simpa [WF, keys] using h
    rcases List.mem_cons.1 hm with heq | hmem
    · cases heq
      simp [get?]
    · have hne : a ≠ k := by
        rintro rfl
        exact hnd.1 (List.mem_map.2 ⟨(a, v), hmem, rfl⟩)
      simp [get?, hne, ih hnd.2 hmem]

theorem mem_of_get?_eq_some (m : GoMap κ ν) (k : κ) (v : ν) (h : m.get? k = some v) :
    (k, v) ∈ m := by
  induction m with
  | nil => simp [get?] at h
  | cons p t ih =>
    obtain ⟨a, b⟩ := p
    by_cases hak : a = k
    · subst hak
      simp [get?] at h
      simp [h]
    · simp [get?, hak] at h
      exact List.mem_cons_of_mem _ (ih h)

end GoMap

/-! ## Aggregation -/

namespace Processor

theorem get?_revenueStep (fused : Bool) (prices : GoMap ℤ Float64) (emails : GoMap ℤ String)
    (m : RevenueMap) (e : CustomerEventData) (k : ℤ) :
    (revenueStep fused prices emails m e).get? k =
      if e.CustomerID = k then
        match m.get? k with
        | some rev => some { rev with Revenue := accumulate fused prices rev.Revenue e }
        | none => some ⟨k, resolveEmail emails k, eventRevenue prices e⟩
      else m.get? k := by
  unfold revenueStep
  by_cases h : e.CustomerID = k
  · subst h
    cases hm : GoMap.get? m e.CustomerID <;> simp [GoMap.get?_set]
  · cases hm : GoMap.get? m e.CustomerID <;> simp [GoMap.get?_set, h]

theorem get?_foldl_revenueStep (fused : Bool) (prices : GoMap ℤ Float64)
    (emails : GoMap ℤ String) (events : List CustomerEventData) (m : RevenueMap) (k : ℤ) :
    (events.foldl (revenueStep fused prices emails) m).get? k =
      match m.get? k with
      | some rev =>
          some { rev with
            Revenue := (eventsOf events k).foldl (accumulate fused prices) rev.Revenue }
      | none =>
          (totalOf fused prices (eventsOf events k)).map
            (fun t => ⟨k, resolveEmail emails k, t⟩) := by
  induction events generalizing m with
  | nil => cases hm : GoMap.get? m k <;> simp [eventsOf, totalOf, hm]
  | cons e es ih =>
    rw [List.foldl_cons, ih, get?_revenueStep]
    by_cases h : e.CustomerID = k
    · cases hm : GoMap.get? m k <;> simp [eventsOf, totalOf, List.filter_cons, h]
    · cases hm : GoMap.get? m k <;> simp [eventsOf, totalOf, List.filter_cons, h]

theorem get?_CalculateCustomerRevenue (p : Processor) (fused : Bool)
    (events : List CustomerEventData) (prices : GoMap ℤ Float64) (emails : GoMap ℤ String)
    (k : ℤ) :
    (p.CalculateCustomerRevenue fused events prices emails).1.get? k =
      (totalOf fused prices (eventsOf events k)).map
        (fun t => ⟨k, resolveEmail emails k, t⟩) := by
  unfold CalculateCustomerRevenue
  rw [get?_foldl_revenueStep]
  rfl

theorem WF_foldl_revenueStep (fused : Bool) (prices : GoMap ℤ Float64)
    (emails : GoMap ℤ String) (events : List CustomerEventData) (m : RevenueMap) (h : m.WF) :
    (events.foldl (revenueStep fused prices emails) m).WF := by
  induction events generalizing m with
  | nil => exact h
  | cons e es ih =>
    rw [List.foldl_cons]
    apply ih
    unfold revenueStep
    cases hm : GoMap.get? m e.CustomerID <;> exact GoMap.WF_set _ _ _ h

theorem eventsOf_eq_nil_iff (events : List CustomerEventData) (k : ℤ) :
    eventsOf events k = [] ↔ ∀ e ∈ events, e.CustomerID ≠ k := by
  simp [eventsOf, List.filter_eq_nil_iff]

theorem totalOf_eq_none_iff (fused : Bool) (prices : GoMap ℤ Float64)
    (es : List CustomerEventData) : totalOf fused prices es = none ↔ es = [] := by
  cases es <;> simp [totalOf]

theorem mem_keys_CalculateCustomerRevenue (p : Processor) (fused : Bool)
    (events : List CustomerEventData) (prices : GoMap ℤ Float64) (emails : GoMap ℤ String)
    (k : ℤ) :
    k ∈ (p.CalculateCustomerRevenue fused events prices emails).1.keys ↔
      ∃ e ∈ events, e.CustomerID = k := by
  rw [GoMap.mem_keys_iff, get?_CalculateCustomerRevenue]
  cases ht : totalOf fused prices (eventsOf events k) with
  | none =>
    have h := (eventsOf_eq_nil_iff events k).1 ((totalOf_eq_none_iff fused prices _).1 ht)
    simp only [Option.map_none', Option.isSome_none, Bool.false_eq_true, false_iff]
    rintro ⟨e, he, hk⟩
    exact h e he hk
  | some t =>
    simp only [Option.map_some', Option.isSome_some, true_iff]
    by_contra hne
    have hnil := (eventsOf_eq_nil_iff events k).2 (fun e he hk => hne ⟨e, he, hk⟩)
    rw [hnil] at ht
    simp [totalOf] at ht

theorem mem_eventsOf {events : List CustomerEventData} {k : ℤ} {e : CustomerEventData} :
    e ∈ eventsOf events k ↔ e ∈ events ∧ e.CustomerID = k := by
  simp [eventsOf]

/-! ### Exact accumulation -/

theorem eventRevenue_of_finite (prices : GoMap ℤ Float64) (e : CustomerEventData)
    (he : FiniteEvent prices e) :
    eventRevenue prices e = Float64.round (exactRevenue prices e) := by
  obtain ⟨hq, price, hp⟩ := he
  unfold eventRevenue exactRevenue
  rw [hp, Float64.ofInt_int16 _ hq]
  rfl

theorem accumulate_of_finite (fused : Bool) (prices : GoMap ℤ Float64) (a : ℚ)
    (e : CustomerEventData) (he : FiniteEvent prices e) :
    accumulate fused prices (.fin a) e =
      if fused then Float64.round (exactRevenue prices e + a)
      else Float64.add (.fin a) (Float64.round (exactRevenue prices e)) := by
  unfold accumulate
  rw [eventRevenue_of_finite prices e he]
  obtain ⟨hq, price, hp⟩ := he
  unfold exactRevenue
  rw [hp, Float64.ofInt_int16 _ hq]
  rfl

theorem accumulate_exact (fused : Bool) (prices : GoMap ℤ Float64) (a : ℚ)
    (e : CustomerEventData) (he : FiniteEvent prices e)
    (hprod : Float64.Representable (exactRevenue prices e))
    (hsum : Float64.Representable (a + exactRevenue prices e)) :
    accumulate fused prices (.fin a) e = .fin (a + exactRevenue prices e) := by
  rw [accumulate_of_finite fused prices a e he]
  cases fused
  · rw [if_neg (by decide), hprod]
    exact hsum
  · rw [if_pos rfl, add_comm]
    exact hsum

theorem foldl_accumulate_exact (fused : Bool) (prices : GoMap ℤ Float64)
    (es : List CustomerEventData) (a : ℚ)
    (hfin : ∀ e ∈ es, FiniteEvent prices e)
    (hprod : ∀ e ∈ es, Float64.Representable (exactRevenue prices e))
    (hsum : ∀ j, j ≤ es.length →
      Float64.Representable (a + ((es.take j).map (exactRevenue prices)).sum)) :
    es.foldl (accumulate fused prices) (.fin a) =
      .fin (a + (es.map (exactRevenue prices)).sum) := by
  induction es generalizing a with
  | nil => simp
  | cons e es ih =>
    have h1 := hsum 1 (by simp)
    simp only [List.take_succ_cons, List.take_zero, List.map_cons, List.map_nil,
      List.sum_cons, List.sum_nil, add_zero] at h1
    rw [List.foldl_cons,
      accumulate_exact fused prices a e (hfin e (List.mem_cons_self _ _))
        (hprod e (List.mem_cons_self _ _)) h1,
      ih _ (fun x hx => hfin x (List.mem_cons_of_mem _ hx))
        (fun x hx => hprod x (List.mem_cons_of_mem _ hx))]
    · simp only [List.map_cons, List.sum_cons, add_assoc]
    · intro j hj
      have h2 := hsum (j + 1) (by simpa using hj)
      simpa only [List.take_succ_cons, List.map_cons, List.sum_cons, add_assoc] using h2

theorem totalOf_exact (fused : Bool) (prices : GoMap ℤ Float64)
    (es : List CustomerEventData) (hne : es ≠ [])
    (hfin : ∀ e ∈ es, FiniteEvent prices e)
    (hprod : ∀ e ∈ es, Float64.Representable (exactRevenue prices e))
    (hsum : ∀ j, j ≤ es.length →
      Float64.Representable (((es.take j).map (exactRevenue prices)).sum)) :
    totalOf fused prices es = some (.fin ((es.map (exactRevenue prices)).sum)) := by
  cases es with
  | nil => exact absurd rfl hne
  | cons e es =>
    show some (List.foldl (accumulate fused prices) (eventRevenue prices e) es) = _
    rw [eventRevenue_of_finite prices e (hfin e (List.mem_cons_self _ _)),
      hprod e (List.mem_cons_self _ _),
      foldl_accumulate_exact fused prices es _
        (fun x hx => hfin x (List.mem_cons_of_mem _ hx))
        (fun x hx => hprod x (List.mem_cons_of_mem _ hx))]
    · simp only [List.map_cons, List.sum_cons]
    · intro j hj
      have h2 := hsum (j + 1) (by simpa using hj)
      simpa only [List.take_succ_cons, List.map_cons, List.sum_cons] using h2

end Processor

namespace Float64

end Float64

namespace Processor

end Processor

namespace Float64

theorem representable_natCast (n : ℕ) (h : n ≤ 2 ^ 53) : Representable (n : ℚ) :=
  round_natCast n h

theorem representable_intCast (z : ℤ) (h : |z| ≤ 2 ^ 53) : Representable (z : ℚ) :=
  round_intCast z h

end Float64

namespace Processor

theorem totalOf_three (fused : Bool) (prices : GoMap ℤ Float64) (e1 e2 e3 : CustomerEventData)
    (h1 : FiniteEvent prices e1) (h2 : FiniteEvent prices e2) (h3 : FiniteEvent prices e3)
    (s1 p2 s2 p3 s3 : ℚ)
    (r1 : Float64.round (exactRevenue prices e1) = .fin s1)
    (r2 : Float64.round (exactRevenue prices e2) = .fin p2)
    (r3 : Float64.round (exactRevenue prices e3) = .fin p3)
    (u2 : Float64.round (s1 + p2) = .fin s2) (f2 : Float64.round (exactRevenue prices e2 + s1) = .fin s2)
    (u3 : Float64.round (s2 + p3) = .fin s3) (f3 : Float64.round (exactRevenue prices e3 + s2) = .fin s3) :
    totalOf fused prices [e1, e2, e3] = some (.fin s3) := by
  show some (List.foldl (accumulate fused prices) (eventRevenue prices e1) [e2, e3]) = _
  rw [eventRevenue_of_finite prices e1 h1, r1, List.foldl_cons, List.foldl_cons, List.foldl_nil,
    accumulate_of_finite fused prices s1 e2 h2]
  cases fused
  · rw [if_neg (by decide), r2]
    show some (accumulate false prices (Float64.round (s1 + p2)) e3) = _
    rw [u2, accumulate_of_finite false prices s2 e3 h3, if_neg (by decide), r3]
    show some (Float64.round (s2 + p3)) = _
    rw [u3]
  · rw [if_pos rfl, f2, accumulate_of_finite true prices s2 e3 h3, if_pos rfl, f3]

theorem finiteEvent_large (content : ℤ) (price : ℚ)
    (h : priceOf largePrices (mkEvent content 100 1) = .fin price) :
    FiniteEvent largePrices (mkEvent content 100 1) :=
  ⟨⟨by show (-2 ^ 15 : ℤ) ≤ 1; decide, by show (1 : ℤ) < 2 ^ 15; decide⟩, price, h⟩

theorem exactRevenue_large_one :
    exactRevenue largePrices (mkEvent 1 100 1) = 9007199254740992 := by
  have h : priceOf largePrices (mkEvent 1 100 1) = .fin 9007199254740992 := rfl
  unfold exactRevenue
  rw [h]
  show ((1 : ℤ) : ℚ) * 9007199254740992 = 9007199254740992
  norm_num

theorem exactRevenue_large_two : exactRevenue largePrices (mkEvent 2 100 1) = 1 := by
  have h : priceOf largePrices (mkEvent 2 100 1) = .fin 1 := rfl
  unfold exactRevenue
  rw [h]
  show ((1 : ℤ) : ℚ) * 1 = 1
  norm_num

theorem totalOf_largeFirst (fused : Bool) :
    totalOf fused largePrices (eventsOf largeFirst 100) = some (.fin 9007199254740992) := by
  have he : eventsOf largeFirst 100 = [mkEvent 1 100 1, mkEvent 2 100 1, mkEvent 2 100 1] := rfl
  have hsum : (9007199254740992 : ℚ) + 1 = 9007199254740993 := by norm_num
  have hsum' : (1 : ℚ) + 9007199254740992 = 9007199254740993 := by norm_num
  rw [he]
  apply totalOf_three fused largePrices _ _ _ (finiteEvent_large 1 _ rfl)
    (finiteEvent_large 2 _ rfl) (finiteEvent_large 2 _ rfl) 9007199254740992 1
    9007199254740992 1 9007199254740992
  · rw [exactRevenue_large_one, Float64.round_two_pow_53]
  · rw [exactRevenue_large_two, Float64.round_one]
  · rw [exactRevenue_large_two, Float64.round_one]
  · rw [hsum, Float64.round_two_pow_53_add_one]
  · rw [exactRevenue_large_two, hsum', Float64.round_two_pow_53_add_one]
  · rw [hsum, Float64.round_two_pow_53_add_one]
  · rw [exactRevenue_large_two, hsum', Float64.round_two_pow_53_add_one]

theorem totalOf_largeLast (fused : Bool) :
    totalOf fused largePrices (eventsOf largeLast 100) = some (.fin 9007199254740994) := by
  have he : eventsOf largeLast 100 = [mkEvent 2 100 1, mkEvent 2 100 1, mkEvent 1 100 1] := rfl
  have h11 : (1 : ℚ) + 1 = ((2 : ℕ) : ℚ) := by norm_num
  have h2 : Float64.round ((2 : ℕ) : ℚ) = .fin 2 := by
    rw [Float64.round_natCast 2 (by norm_num)]
    norm_num
  have hsum : (2 : ℚ) + 9007199254740992 = 9007199254740994 := by norm_num
  have hsum' : (9007199254740992 : ℚ) + 2 = 9007199254740994 := by norm_num
  rw [he]
  apply totalOf_three fused largePrices _ _ _ (finiteEvent_large 2 _ rfl)
    (finiteEvent_large 2 _ rfl) (finiteEvent_large 1 _ rfl) 1 1 2 9007199254740992
    9007199254740994
  · rw [exactRevenue_large_two, Float64.round_one]
  · rw [exactRevenue_large_two, Float64.round_one]
  · rw [exactRevenue_large_one, Float64.round_two_pow_53]
  · rw [h11, h2]
  · rw [exactRevenue_large_two, h11, h2]
  · rw [hsum, Float64.round_two_pow_53_add_two]
  · rw [exactRevenue_large_one, hsum', Float64.round_two_pow_53_add_two]

end Processor

namespace Processor

theorem finiteEvent_example (content customer quantity : ℤ) (price : ℚ)
    (hq : -2 ^ 15 ≤ quantity ∧ quantity < 2 ^ 15)
    (h : priceOf examplePrices (mkEvent content customer quantity) = .fin price) :
    FiniteEvent examplePrices (mkEvent content customer quantity) :=
  ⟨hq, price, h⟩

theorem exactRevenue_example_two : exactRevenue examplePrices (mkEvent 1 100 2) = 20 := by
  have h : priceOf examplePrices (mkEvent 1 100 2) = .fin 10 := rfl
  unfold exactRevenue
  rw [h]
  show ((2 : ℤ) : ℚ) * 10 = 20
  norm_num

theorem exactRevenue_example_one : exactRevenue examplePrices (mkEvent 1 100 1) = 10 := by
  have h : priceOf examplePrices (mkEvent 1 100 1) = .fin 10 := rfl
  unfold exactRevenue
  rw [h]
  show ((1 : ℤ) : ℚ) * 10 = 10
  norm_num

theorem exactRevenue_example_five : exactRevenue examplePrices (mkEvent 2 200 5) = 15 := by
  have h : priceOf examplePrices (mkEvent 2 200 5) = .fin 3 := rfl
  unfold exactRevenue
  rw [h]
  show ((5 : ℤ) : ℚ) * 3 = 15
  norm_num

theorem representable_small (x : ℚ) (n : ℕ) (hx : x = n) (hn : n ≤ 2 ^ 53) :
    Float64.Representable x := by
  rw [hx]
  exact Float64.representable_natCast n hn

/-- C2 as stated fails: the three events of `largeFirst` and `largeLast` are the same
up to order, yet customer 100 totals 2 ^ 53 in one order and 2 ^ 53 + 2 in the other,
because 2 ^ 53 + 1 is not a `float64` and rounds back to 2 ^ 53; this is so with and
without fused multiply-add. -/
theorem C2_counterexample :
    largeFirst.Perm largeLast ∧
    ∀ fused : Bool,
      ((NewProcessor quantileDefault).CalculateCustomerRevenue fused largeFirst largePrices
          []).1.get? 100
        = some ⟨100, "no-email@unknown.com", .fin 9007199254740992⟩ ∧
      ((NewProcessor quantileDefault).CalculateCustomerRevenue fused largeLast largePrices
          []).1.get? 100
        = some ⟨100, "no-email@unknown.com", .fin 9007199254740994⟩ := by
  refine ⟨(List.perm_append_comm :
    ([mkEvent 1 100 1] ++ [mkEvent 2 100 1, mkEvent 2 100 1]).Perm _), fun fused => ⟨?_, ?_⟩⟩
  · rw [get?_CalculateCustomerRevenue, totalOf_largeFirst]
    rfl
  · rw [get?_CalculateCustomerRevenue, totalOf_largeLast]
    rfl

/-- C2, amended. For every event list and every permutation of it, with the same price
and identity tables, `CalculateCustomerRevenue` returns the same keys and, for each key,
the same `Email`; the whole record of a key, `Revenue` included, is the same whenever
the two lists hold that customer's events in the same relative order. -/
theorem C2_order_independence (p : Processor) (fused : Bool)
    (events events' : List CustomerEventData)
    (prices : GoMap ℤ Float64) (emails : GoMap ℤ String) (h : events.Perm events') :
    (∀ k, k ∈ (p.CalculateCustomerRevenue fused events prices emails).1.keys ↔
      k ∈ (p.CalculateCustomerRevenue fused events' prices emails).1.keys) ∧
    (∀ k, ((p.CalculateCustomerRevenue fused events prices emails).1.get? k).map
        (fun r => r.Email)
      = ((p.CalculateCustomerRevenue fused events' prices emails).1.get? k).map
        (fun r => r.Email)) ∧
    (∀ k, events.filter (fun e => e.CustomerID = k)
        = events'.filter (fun e => e.CustomerID = k) →
      (p.CalculateCustomerRevenue fused events prices emails).1.get? k
        = (p.CalculateCustomerRevenue fused events' prices emails).1.get? k) := by
  have hkeys : ∀ k, k ∈ (p.CalculateCustomerRevenue fused events prices emails).1.keys ↔
      k ∈ (p.CalculateCustomerRevenue fused events' prices emails).1.keys := by
    intro k
    rw [mem_keys_CalculateCustomerRevenue, mem_keys_CalculateCustomerRevenue]
    constructor
    · rintro ⟨e, he, hk⟩
      exact ⟨e, h.mem_iff.1 he, hk⟩
    · rintro ⟨e, he, hk⟩
      exact ⟨e, h.mem_iff.2 he, hk⟩
  refine ⟨hkeys, ?_, ?_⟩
  · intro k
    have hk := hkeys k
    rw [GoMap.mem_keys_iff, GoMap.mem_keys_iff, get?_CalculateCustomerRevenue,
      get?_CalculateCustomerRevenue] at hk
    rw [get?_CalculateCustomerRevenue, get?_CalculateCustomerRevenue]
    cases h1 : totalOf fused prices (eventsOf events k) <;>
      cases h2 : totalOf fused prices (eventsOf events' k) <;> simp [h1, h2] at hk ⊢
  · intro k hk
    rw [get?_CalculateCustomerRevenue, get?_CalculateCustomerRevenue]
    unfold eventsOf
    rw [hk]

/-- C2, amended, at the example scenario and a reordering of it. -/
theorem C2_order_independence_witness :
    exampleEvents.Perm exampleEventsPermuted ∧
    ((∀ k, k ∈ ((NewProcessor quantileDefault).CalculateCustomerRevenue false exampleEvents
        examplePrices exampleEmails).1.keys ↔
      k ∈ ((NewProcessor quantileDefault).CalculateCustomerRevenue false
        exampleEventsPermuted examplePrices exampleEmails).1.keys) ∧
    (∀ k, (((NewProcessor quantileDefault).CalculateCustomerRevenue false exampleEvents
        examplePrices exampleEmails).1.get? k).map (fun r => r.Email)
      = (((NewProcessor quantileDefault).CalculateCustomerRevenue false exampleEventsPermuted
        examplePrices exampleEmails).1.get? k).map (fun r => r.Email)) ∧
    (∀ k, exampleEvents.filter (fun e => e.CustomerID = k)
        = exampleEventsPermuted.filter (fun e => e.CustomerID = k) →
      ((NewProcessor quantileDefault).CalculateCustomerRevenue false exampleEvents
        examplePrices exampleEmails).1.get? k
        = ((NewProcessor quantileDefault).CalculateCustomerRevenue false
        exampleEventsPermuted examplePrices exampleEmails).1.get? k)) :=
  ⟨(List.perm_append_comm :
      ([mkEvent 1 100 2, mkEvent 1 100 1] ++ [mkEvent 2 200 5]).Perm _),
    C2_order_independence _ _ _ _ _ _
      (List.perm_append_comm :
        ([mkEvent 1 100 2, mkEvent 1 100 1] ++ [mkEvent 2 200 5]).Perm _)⟩

/-- C6. Missing-identity fallback: a customer of the output of
`CalculateCustomerRevenue` whose `CustomerID` is not a key of the identity table has
the sentinel `no-email@unknown.com` as `Email`, and the returned error is nil. -/
theorem C6_missing_identity (p : Processor) (fused : Bool) (events : List CustomerEventData)
    (prices : GoMap ℤ Float64) (emails : GoMap ℤ String) (k : ℤ) (rev : CustomerRevenue)
    (hrev : (p.CalculateCustomerRevenue fused events prices emails).1.get? k = some rev)
    (habsent : rev.CustomerID ∉ emails.keys) :
    rev.Email = "no-email@unknown.com" ∧
      (p.CalculateCustomerRevenue fused events prices emails).2 = none := by
  refine ⟨?_, rfl⟩
  rw [get?_CalculateCustomerRevenue] at hrev
  cases ht : totalOf fused prices (eventsOf events k) with
  | none => simp [ht] at hrev
  | some t =>
    rw [ht] at hrev
    cases hrev
    have hnone : GoMap.get? emails k = none := by
      rw [GoMap.mem_keys_iff] at habsent
      simpa using habsent
    simp [resolveEmail, hnone]

/-- C6 at the example scenario: customer 200 has no identity. -/
theorem C6_missing_identity_witness :
    ((NewProcessor quantileDefault).CalculateCustomerRevenue false exampleEvents examplePrices
        exampleEmails).1.get? 200
      = some ⟨200, "no-email@unknown.com", eventRevenue examplePrices (mkEvent 2 200 5)⟩ ∧
    ((200 : ℤ) ∉ GoMap.keys exampleEmails) ∧
    (("no-email@unknown.com" : String) = "no-email@unknown.com" ∧
      ((NewProcessor quantileDefault).CalculateCustomerRevenue false exampleEvents
        examplePrices exampleEmails).2 = none) := by
  have hget : ((NewProcessor quantileDefault).CalculateCustomerRevenue false exampleEvents
        examplePrices exampleEmails).1.get? 200
      = some ⟨200, "no-email@unknown.com",
          eventRevenue examplePrices (mkEvent 2 200 5)⟩ := by
    rw [get?_CalculateCustomerRevenue]
    rfl
  have habsent : (200 : ℤ) ∉ GoMap.keys exampleEmails := by decide
  exact ⟨hget, habsent, C6_missing_identity _ _ _ _ _ 200 _ hget habsent⟩

/-- C7 as stated fails: customer 100 is a key of the identity table `emptyEmails`, its
value there is the empty string, and the output record carries the sentinel instead. -/
theorem C7_counterexample :
    emptyEmails.get? 100 = some "" ∧
    ∀ fused : Bool, ∃ rev,
      ((NewProcessor quantileDefault).CalculateCustomerRevenue fused exampleEvents
        examplePrices emptyEmails).1.get? 100 = some rev ∧
      emptyEmails.get? rev.CustomerID = some "" ∧ rev.Email = "no-email@unknown.com" ∧
      rev.Email ≠ "" := by
  refine ⟨rfl, fun fused => ?_⟩
  refine ⟨⟨100, "no-email@unknown.com",
    accumulate fused examplePrices (eventRevenue examplePrices (mkEvent 1 100 2))
      (mkEvent 1 100 1)⟩, ?_, rfl, rfl, ?_⟩
  · rw [get?_CalculateCustomerRevenue]
    rfl
  · show ("no-email@unknown.com" : String) ≠ ""
    decide

/-- C7, amended. Identity resolution: a customer of the output of
`CalculateCustomerRevenue` whose `CustomerID` is a key of the identity table has the
table's value for that key as `Email` when that value is not the empty string, and the
sentinel when it is the empty string. -/
theorem C7_identity_resolution (p : Processor) (fused : Bool)
    (events : List CustomerEventData)
    (prices : GoMap ℤ Float64) (emails : GoMap ℤ String) (k : ℤ) (rev : CustomerRevenue)
    (email : String)
    (hrev : (p.CalculateCustomerRevenue fused events prices emails).1.get? k = some rev)
    (hpresent : emails.get? rev.CustomerID = some email) :
    rev.Email = if email = "" then "no-email@unknown.com" else email := by
  rw [get?_CalculateCustomerRevenue] at hrev
  cases ht : totalOf fused prices (eventsOf events k) with
  | none => simp [ht] at hrev
  | some t =>
    rw [ht] at hrev
    cases hrev
    simp only [resolveEmail]
    rw [show GoMap.get? emails k = some email from hpresent]

/-- C7, amended, at the example scenario: customer 100 has the identity `a@x.com`. -/
theorem C7_identity_resolution_witness :
    ((NewProcessor quantileDefault).CalculateCustomerRevenue false exampleEvents examplePrices
        exampleEmails).1.get? 100
      = some ⟨100, "a@x.com",
          accumulate false examplePrices (eventRevenue examplePrices (mkEvent 1 100 2))
            (mkEvent 1 100 1)⟩ ∧
    exampleEmails.get? 100 = some "a@x.com" ∧
    ("a@x.com" : String)
      = if ("a@x.com" : String) = "" then "no-email@unknown.com" else "a@x.com" := by
  have hget : ((NewProcessor quantileDefault).CalculateCustomerRevenue false exampleEvents
        examplePrices exampleEmails).1.get? 100
      = some ⟨100, "a@x.com",
          accumulate false examplePrices (eventRevenue examplePrices (mkEvent 1 100 2))
            (mkEvent 1 100 1)⟩ := by
    rw [get?_CalculateCustomerRevenue]
    rfl
  exact ⟨hget, rfl, C7_identity_resolution _ _ _ _ _ 100 _ "a@x.com" hget rfl⟩

end Processor

/-! ## Selection of the top customers -/

namespace GoMap

variable {κ ν : Type} [DecidableEq κ]

theorem set_of_not_mem (m : GoMap κ ν) (k : κ) (v : ν) (h : k ∉ m.keys) :
    m.set k v = m ++ [(k, v)] := by
  induction m with
  | nil => rfl
  | cons p t ih =>
    obtain ⟨a, b⟩ := p
    have h' : ¬ a = k ∧ k ∉ keys t := by
      simpa [keys, eq_comm] using h
    simp [set, h'.1, ih h'.2]

end GoMap

namespace Processor

theorem topLoop_ok (customers : List CustomerRevenue) (r i : ℕ) (top : RevenueMap)
    (h : i + r ≤ customers.length) :
    topLoop customers r i top
      = .ok (((customers.drop i).take r).foldl (fun t c => GoMap.set t c.CustomerID c) top) := by
  induction r generalizing i top with
  | zero => simp [topLoop]
  | succ r ih =>
    have hi : i < customers.length := by omega
    rw [topLoop, List.getElem?_eq_getElem hi]
    simp only
    rw [ih (i + 1) _ (by omega), List.drop_eq_getElem_cons hi, List.take_succ_cons,
      List.foldl_cons]

theorem foldl_set_eq (l : List CustomerRevenue) (top : RevenueMap)
    (h : (top.keys ++ l.map (fun c => c.CustomerID)).Nodup) :
    l.foldl (fun t c => GoMap.set t c.CustomerID c) top
      = top ++ l.map (fun c => (c.CustomerID, c)) := by
  induction l generalizing top with
  | nil => simp
  | cons c t ih =>
    have hc : c.CustomerID ∉ GoMap.keys top := by
      intro hmem
      have := List.disjoint_of_nodup_append h hmem
      simp at this
    rw [List.foldl_cons, GoMap.set_of_not_mem top _ _ hc, ih]
    · simp
    · simpa [GoMap.keys] using h

/-- The value `GetTopQuantileCustomers` returns when the loop stays within the slice. -/
theorem GetTopQuantileCustomers_ok (p : Processor) (m : RevenueMap)
    (hle : (p.topCount (sortSlice m.values).length).toNat ≤ (sortSlice m.values).length)
    (hnd : (((sortSlice m.values).take (p.topCount (sortSlice m.values).length).toNat).map
      (fun c => c.CustomerID)).Nodup) :
    p.GetTopQuantileCustomers m
      = .ok ((((sortSlice m.values).take (p.topCount (sortSlice m.values).length).toNat).map
          (fun c => (c.CustomerID, c))), none) := by
  unfold GetTopQuantileCustomers
  simp only
  rw [topLoop_ok _ _ _ _ (by omega), List.drop_zero, foldl_set_eq]
  · simp
  · simp only [GoMap.keys, List.map_nil, List.nil_append]
    exact hnd

theorem length_sortSlice (l : List CustomerRevenue) : (sortSlice l).length = l.length :=
  (List.perm_insertionSort revenueGe l).length_eq

theorem sortSlice_perm (l : List CustomerRevenue) : (sortSlice l).Perm l :=
  List.perm_insertionSort revenueGe l

theorem revenueGe_iff {a b : CustomerRevenue} (ha : a.Revenue ≠ Float64.nan)
    (hb : b.Revenue ≠ Float64.nan) : revenueGe a b ↔ b.Revenue ≤ a.Revenue :=
  (Float64.le_iff_not_lt hb ha).symm

theorem revenueGe_total (a b : CustomerRevenue) : revenueGe a b ∨ revenueGe b a := by
  by_cases h : a.Revenue < b.Revenue
  · exact Or.inr (Float64.not_lt_of_lt h)
  · exact Or.inl h

theorem revenueGe_chain {a b c : CustomerRevenue} (ha : a.Revenue ≠ Float64.nan)
    (hb : b.Revenue ≠ Float64.nan) (hc : c.Revenue ≠ Float64.nan)
    (hab : revenueGe a b) (hbc : revenueGe b c) : revenueGe a c :=
  (revenueGe_iff ha hc).2
    (Float64.le_chain ((revenueGe_iff hb hc).1 hbc) ((revenueGe_iff ha hb).1 hab))

theorem NoNaN_cons {a : CustomerRevenue} {l : List CustomerRevenue} :
    NoNaN (a :: l) ↔ a.Revenue ≠ Float64.nan ∧ NoNaN l := by
  simp [NoNaN]

theorem NoNaN_of_perm {l l' : List CustomerRevenue} (h : l.Perm l') (hn : NoNaN l) :
    NoNaN l' := fun c hc => hn c (h.mem_iff.2 hc)

theorem NoNaN_of_sublist {l l' : List CustomerRevenue} (h : l'.Sublist l) (hn : NoNaN l) :
    NoNaN l' := fun c hc => hn c (h.subset hc)

theorem orderedInsert_sorted (a : CustomerRevenue) (l : List CustomerRevenue)
    (ha : a.Revenue ≠ Float64.nan) (hl : NoNaN l) (hs : l.Sorted revenueGe) :
    (l.orderedInsert revenueGe a).Sorted revenueGe := by
  induction l with
  | nil => simp
  | cons b t ih =>
    obtain ⟨hb, ht⟩ := NoNaN_cons.1 hl
    rw [List.orderedInsert]
    split_ifs with hab
    · refine List.sorted_cons.2 ⟨?_, hs⟩
      intro x hx
      rcases List.mem_cons.1 hx with rfl | hxt
      · exact hab
      · exact revenueGe_chain ha hb (ht x hxt) hab (List.rel_of_sorted_cons hs x hxt)
    · have hba : revenueGe b a := (revenueGe_total a b).resolve_left hab
      refine List.sorted_cons.2 ⟨?_, ih ht hs.of_cons⟩
      intro x hx
      rcases (List.mem_orderedInsert revenueGe).1 hx with rfl | hxt
      · exact hba
      · exact List.rel_of_sorted_cons hs x hxt

/-- On revenues without a NaN the result of `sort.Slice` is in descending order. -/
theorem sortSlice_sorted (l : List CustomerRevenue) (hl : NoNaN l) :
    (sortSlice l).Sorted revenueGe := by
  unfold sortSlice
  induction l with
  | nil => simp
  | cons a t ih =>
    obtain ⟨ha, ht⟩ := NoNaN_cons.1 hl
    rw [List.insertionSort_cons_eq_take_drop]
    have := orderedInsert_sorted a (List.insertionSort revenueGe t) ha
      (NoNaN_of_perm (List.perm_insertionSort revenueGe t).symm ht) (ih ht)
    rwa [List.orderedInsert_eq_take_drop] at this

/-- Every descending list is a possible result of sorting itself: the model of
`sort.Slice` reaches every descending permutation of the values. -/
theorem sortSlice_of_sorted (l : List CustomerRevenue) (h : l.Sorted revenueGe) :
    sortSlice l = l :=
  List.Sorted.insertionSort_eq h

theorem sortSlice_pairwise_le (l : List CustomerRevenue) (hl : NoNaN l) :
    (sortSlice l).Pairwise (fun a b => b.Revenue ≤ a.Revenue) := by
  have hn := NoNaN_of_perm (sortSlice_perm l).symm hl
  have hs : (sortSlice l).Pairwise revenueGe := sortSlice_sorted l hl
  exact (List.Pairwise.and_mem.1 hs).imp
    (fun ⟨ha, hb, hab⟩ => (revenueGe_iff (hn _ ha) (hn _ hb)).1 hab)

end Processor

namespace Processor

theorem topCount_eq (p : Processor) (n : ℕ) (hq0 : Float64.fin 0 < p.quantile)
    (hq1 : p.quantile ≤ Float64.fin 1) (hn : n ≤ 2 ^ 53) :
    p.topCount n = if n = 0 then 0
      else max 1 (Float64.toInt (Float64.mul (Float64.ofInt (n : ℤ)) p.quantile)) := by
  obtain ⟨x, hx, hx0, hx1⟩ := Float64.exists_fin_of_lt_of_le hq0 hq1
  obtain ⟨_, h0, _⟩ := Float64.toInt_mul_bounds x n hx0 hx1 hn
  rw [← hx] at h0
  unfold topCount
  simp only
  by_cases hn0 : n = 0
  · subst hn0
    rw [hx]
    simp [Float64.mul_ofInt_zero, Float64.toInt_fin_zero]
  · have hpos : 0 < n := Nat.pos_of_ne_zero hn0
    by_cases ht : Float64.toInt (Float64.mul (Float64.ofInt (n : ℤ)) p.quantile) = 0
    · simp [ht, hpos, hn0]
    · rw [if_neg (fun h => ht h.1), if_neg hn0]
      omega

theorem topCount_bounds (p : Processor) (n : ℕ) (hq0 : Float64.fin 0 < p.quantile)
    (hq1 : p.quantile ≤ Float64.fin 1) (hn : n ≤ 2 ^ 53) :
    0 ≤ p.topCount n ∧ p.topCount n ≤ n := by
  obtain ⟨x, hx, hx0, hx1⟩ := Float64.exists_fin_of_lt_of_le hq0 hq1
  obtain ⟨_, h0, h1⟩ := Float64.toInt_mul_bounds x n hx0 hx1 hn
  rw [← hx] at h0 h1
  rw [topCount_eq p n hq0 hq1 hn]
  by_cases hn0 : n = 0
  · simp [hn0]
  · have hpos : 0 < n := Nat.pos_of_ne_zero hn0
    rw [if_neg hn0]
    omega

theorem map_CustomerID_values (m : RevenueMap) (hkey : KeyedByCustomerID m) :
    m.values.map (fun c => c.CustomerID) = m.keys := by
  unfold GoMap.values GoMap.keys
  rw [List.map_map]
  exact List.map_congr_left (fun e he => hkey e he)

theorem nodup_CustomerID_sortSlice (m : RevenueMap) (hwf : m.WF) (hkey : KeyedByCustomerID m) :
    ((sortSlice m.values).map (fun c => c.CustomerID)).Nodup := by
  have hperm : ((sortSlice m.values).map (fun c => c.CustomerID)).Perm m.keys := by
    rw [← map_CustomerID_values m hkey]
    exact (sortSlice_perm m.values).map _
  exact hperm.nodup_iff.2 hwf

theorem mem_values_of_get? (m : RevenueMap) (k : ℤ) (rev : CustomerRevenue)
    (h : m.get? k = some rev) : rev ∈ m.values :=
  List.mem_map.2 ⟨(k, rev), GoMap.mem_of_get?_eq_some m k rev h, rfl⟩

theorem topCount_pos (p : Processor) (n : ℕ) (hq0 : Float64.fin 0 < p.quantile)
    (hq1 : p.quantile ≤ Float64.fin 1) (hn : n ≤ 2 ^ 53) (hpos : 0 < n) :
    1 ≤ p.topCount n := by
  rw [topCount_eq p n hq0 hq1 hn, if_neg (Nat.pos_iff_ne_zero.1 hpos)]
  exact le_max_left _ _

/-- When the exact product `n * quantile` is below 1, the float product truncates to 0
or to 1, and the count is 1 either way. -/
theorem topCount_of_floor_zero (p : Processor) (n : ℕ) (x : ℚ) (hx : p.quantile = .fin x)
    (hq0 : 0 < x) (hq1 : x ≤ 1) (hn : n ≤ 2 ^ 53) (hpos : 0 < n)
    (hfloor : ⌊(n : ℚ) * x⌋ = 0) : p.topCount n = 1 := by
  have hlt : (n : ℚ) * x < 1 := (Int.floor_eq_zero_iff.1 hfloor).2
  have hprod0 : 0 ≤ (n : ℚ) * x := mul_nonneg (Nat.cast_nonneg n) hq0.le
  have hr1 : Float64.nearest ((n : ℚ) * x) ≤ ((1 : ℤ) : ℚ) := by
    calc Float64.nearest ((n : ℚ) * x) ≤ Float64.nearest 1 :=
          Float64.nearest_mono_of_nonneg hprod0 hlt.le
      _ = ((1 : ℤ) : ℚ) := by
          have := Float64.nearest_natCast 1 (by norm_num)
          simpa using this
  obtain ⟨he, h0, _⟩ := Float64.toInt_mul_bounds x n hq0 hq1 hn
  have h1 : Float64.toInt (Float64.mul (Float64.ofInt (n : ℤ)) (.fin x)) ≤ 1 := by
    rw [he]
    exact le_trans (Int.floor_mono hr1) (le_of_eq (Int.floor_intCast 1))
  have hq0' : Float64.fin 0 < p.quantile := by
    rw [hx]
    exact (Float64.fin_lt_fin 0 x).2 hq0
  have hq1' : p.quantile ≤ Float64.fin 1 := by
    rw [hx]
    exact (Float64.fin_le_fin x 1).2 hq1
  rw [topCount_eq p n hq0' hq1' hn, if_neg (Nat.pos_iff_ne_zero.1 hpos), hx]
  omega

/-- The shape of the result of `GetTopQuantileCustomers` on a well-formed map keyed by
`CustomerID`, for a quantile in (0,1]. -/
theorem GetTopQuantileCustomers_eq (p : Processor) (m : RevenueMap) (hwf : m.WF)
    (hkey : KeyedByCustomerID m) (hq0 : Float64.fin 0 < p.quantile)
    (hq1 : p.quantile ≤ Float64.fin 1) (hlen : m.length ≤ 2 ^ 53) :
    p.GetTopQuantileCustomers m
      = .ok ((((sortSlice m.values).take (p.topCount m.length).toNat).map
          (fun c => (c.CustomerID, c))), none) ∧
    (p.topCount m.length).toNat ≤ (sortSlice m.values).length := by
  have hl : (sortSlice m.values).length = m.length := by
    rw [length_sortSlice]
    exact List.length_map _ _
  have hb := topCount_bounds p m.length hq0 hq1 hlen
  have hle : (p.topCount (sortSlice m.values).length).toNat ≤ (sortSlice m.values).length := by
    rw [hl]
    omega
  have h := GetTopQuantileCustomers_ok p m hle
    (List.Nodup.sublist (List.Sublist.map _ (List.take_sublist _ _))
      (nodup_CustomerID_sortSlice m hwf hkey))
  rw [hl] at h hle
  exact ⟨h, by rw [hl]; exact hle⟩

theorem quantile_one_pos : Float64.fin 0 < (NewProcessor (.fin 1)).quantile :=
  (Float64.fin_lt_fin 0 1).2 (by norm_num)

theorem quantile_one_le : (NewProcessor (.fin 1)).quantile ≤ Float64.fin 1 :=
  (Float64.fin_le_fin 1 1).2 le_rfl

theorem quantile_half_pos : Float64.fin 0 < (NewProcessor (.fin (1 / 2))).quantile :=
  (Float64.fin_lt_fin 0 (1 / 2)).2 (by norm_num)

theorem quantile_half_le : (NewProcessor (.fin (1 / 2))).quantile ≤ Float64.fin 1 :=
  (Float64.fin_le_fin (1 / 2) 1).2 (by norm_num)

theorem sortSlice_singleton (c : CustomerRevenue) : sortSlice [c] = [c] := rfl

/-- C4 as stated fails: the well-formed map `keyMismatch` stores a record with
`CustomerID` 2 under key 1; the output stores it under key 2, which is not an input key. -/
theorem C4_counterexample :
    GoMap.WF keyMismatch ∧
    (NewProcessor (.fin 1)).GetTopQuantileCustomers keyMismatch
      = .ok ([(2, ⟨2, "", .fin 5⟩)], none) ∧
    (2 : ℤ) ∉ GoMap.keys keyMismatch ∧ GoMap.get? keyMismatch 2 = none := by
  have hs : sortSlice (GoMap.values keyMismatch) = [⟨2, "", .fin 5⟩] := rfl
  have ht : (NewProcessor (.fin 1)).topCount 1 = 1 := by
    have h1 := topCount_bounds (NewProcessor (.fin 1)) 1 quantile_one_pos quantile_one_le
      (by norm_num)
    have h2 := topCount_pos (NewProcessor (.fin 1)) 1 quantile_one_pos quantile_one_le
      (by norm_num) (by norm_num)
    omega
  refine ⟨by unfold GoMap.WF; decide, ?_, by decide, rfl⟩
  rw [GetTopQuantileCustomers_ok]
  · rw [hs]
    simp only [List.length_singleton, ht]
    rfl
  · rw [hs]
    simp only [List.length_singleton, ht]
    decide
  · rw [hs]
    simp only [List.length_singleton, ht]
    decide

/-- C4, amended. For a revenue mapping whose records are stored under their own
`CustomerID` (fewer than 2 ^ 53 entries) and a quantile in (0,1],
`GetTopQuantileCustomers` returns a mapping and a nil error; the keys of the output are
keys of the input, each output key maps to the record the input has under that key, and
the output has `max(1, int(float64(n) * quantile))` entries when `n > 0` and none when
`n = 0`, so it is non-empty whenever the input is. -/
theorem C4_selector_subset_size (p : Processor) (m : RevenueMap) (hwf : m.WF)
    (hkey : KeyedByCustomerID m) (hq0 : Float64.fin 0 < p.quantile)
    (hq1 : p.quantile ≤ Float64.fin 1) (hlen : m.length ≤ 2 ^ 53) :
    ∃ out, p.GetTopQuantileCustomers m = .ok (out, none) ∧ GoMap.WF out ∧
      (∀ k, k ∈ GoMap.keys out → k ∈ GoMap.keys m) ∧
      (∀ k rev, GoMap.get? out k = some rev → GoMap.get? m k = some rev) ∧
      (out.length : ℤ) = (if m.length = 0 then 0
        else max 1 (Float64.toInt (Float64.mul (Float64.ofInt (m.length : ℤ)) p.quantile))) ∧
      (m ≠ [] → out ≠ []) := by
  obtain ⟨hget, hle⟩ := GetTopQuantileCustomers_eq p m hwf hkey hq0 hq1 hlen
  have hl : (sortSlice m.values).length = m.length := by
    rw [length_sortSlice]
    exact List.length_map _ _
  have hb := topCount_bounds p m.length hq0 hq1 hlen
  have hnd := nodup_CustomerID_sortSlice m hwf hkey
  have hrec : ∀ k rev, GoMap.get? (((sortSlice m.values).take (p.topCount m.length).toNat).map
      (fun c => (c.CustomerID, c))) k = some rev → GoMap.get? m k = some rev := by
    intro k rev hout
    have hmem := GoMap.mem_of_get?_eq_some _ k rev hout
    obtain ⟨c, hc, hceq⟩ := List.mem_map.1 hmem
    have hck : c.CustomerID = k := congrArg Prod.fst hceq
    have hcr : c = rev := congrArg Prod.snd hceq
    subst hcr
    subst hck
    have hcs : c ∈ m.values := (sortSlice_perm m.values).mem_iff.1 (List.mem_of_mem_take hc)
    obtain ⟨e, he, hec⟩ := List.mem_map.1 hcs
    have hk := hkey e he
    apply GoMap.get?_eq_some_of_mem m hwf
    rw [← hec, hk]
    exact he
  have hlenout : ((((sortSlice m.values).take (p.topCount m.length).toNat).map
      (fun c => (c.CustomerID, c))).length : ℤ) = p.topCount m.length := by
    rw [List.length_map, List.length_take, min_eq_left hle]
    exact Int.toNat_of_nonneg hb.1
  refine ⟨_, hget, ?_, ?_, hrec, ?_, ?_⟩
  · unfold GoMap.WF GoMap.keys
    rw [List.map_map]
    exact List.Nodup.sublist (List.Sublist.map _ (List.take_sublist _ _)) hnd
  · intro k hk
    rw [GoMap.mem_keys_iff] at hk ⊢
    cases hg : GoMap.get? (((sortSlice m.values).take (p.topCount m.length).toNat).map
      (fun c => (c.CustomerID, c))) k with
    | none =>
      rw [hg] at hk
      simp at hk
    | some rev => simp [hrec k rev hg]
  · rw [hlenout]
    exact topCount_eq p m.length hq0 hq1 hlen
  · intro hne hout
    have hpos : 0 < m.length := List.length_pos.2 hne
    have h1 := topCount_pos p m.length hq0 hq1 hlen hpos
    have h0 : ((((sortSlice m.values).take (p.topCount m.length).toNat).map
      (fun c => (c.CustomerID, c))).length : ℤ) = 0 := by
      rw [hout]
      rfl
    omega

/-- C4, amended, at three customers and the quantile 1/2. -/
theorem C4_selector_subset_size_witness :
    GoMap.WF threeCustomers ∧ KeyedByCustomerID threeCustomers ∧
    Float64.fin 0 < (NewProcessor (.fin (1 / 2))).quantile ∧
    (NewProcessor (.fin (1 / 2))).quantile ≤ Float64.fin 1 ∧
    threeCustomers.length ≤ 2 ^ 53 ∧
    ∃ out, (NewProcessor (.fin (1 / 2))).GetTopQuantileCustomers threeCustomers
        = .ok (out, none) ∧
      GoMap.WF out ∧
      (∀ k, k ∈ GoMap.keys out → k ∈ GoMap.keys threeCustomers) ∧
      (∀ k rev, GoMap.get? out k = some rev → GoMap.get? threeCustomers k = some rev) ∧
      (out.length : ℤ) = (if threeCustomers.length = 0 then 0
        else max 1 (Float64.toInt (Float64.mul (Float64.ofInt (threeCustomers.length : ℤ))
          (NewProcessor (.fin (1 / 2))).quantile))) ∧
      (threeCustomers ≠ [] → out ≠ []) :=
  ⟨by unfold GoMap.WF; decide, by unfold KeyedByCustomerID; decide,
    quantile_half_pos, quantile_half_le, by decide,
    C4_selector_subset_size (NewProcessor (.fin (1 / 2))) threeCustomers
      (by unfold GoMap.WF; decide) (by unfold KeyedByCustomerID; decide)
      quantile_half_pos quantile_half_le (by decide)⟩

end Processor

namespace Float64

theorem mul_fin_fin (x y : ℚ) : mul (fin x) (fin y) = round (x * y) := rfl

theorem div_fin_fin (x y : ℚ) (hy : y ≠ 0) : div (fin x) (fin y) = round (x / y) := by
  simp [div, hy]

theorem not_lt_self (a : Float64) : ¬ a < a := fun h => not_lt_of_lt h h

theorem toInt_fin_natCast (n : ℕ) (h : n < 2 ^ 63) : toInt (fin (n : ℚ)) = n := by
  have h' : ((n : ℚ)) < 2 ^ 63 := by exact_mod_cast h
  rw [toInt_fin_of_nonneg (Nat.cast_nonneg n) h']
  exact Int.floor_natCast n

end Float64

namespace Processor

/-- Two descending arrangements of the same records are equal when no revenue is NaN
and no two records have the same revenue. -/
theorem sorted_unique (l l' : List CustomerRevenue) (hperm : l.Perm l')
    (hs : l.Pairwise (fun a b => b.Revenue ≤ a.Revenue))
    (hs' : l'.Pairwise (fun a b => b.Revenue ≤ a.Revenue))
    (hnd : (l.map (fun c => c.Revenue)).Nodup) : l = l' := by
  have hnd' : (l'.map (fun c => c.Revenue)).Nodup := (hperm.map _).nodup_iff.1 hnd
  have strict : ∀ t : List CustomerRevenue, t.Pairwise (fun a b => b.Revenue ≤ a.Revenue) →
      (t.map (fun c => c.Revenue)).Nodup → t.Pairwise (fun a b => b.Revenue < a.Revenue) := by
    intro t ht hn
    have hne : t.Pairwise (fun a b => a.Revenue ≠ b.Revenue) := List.pairwise_map.1 hn
    exact (List.Pairwise.and ht hne).imp
      (fun h => Float64.strict_of_le_of_ne h.1 (Ne.symm h.2))
  haveI : IsAntisymm CustomerRevenue (fun a b => b.Revenue < a.Revenue) :=
    ⟨fun _ _ hab hba => absurd hab (Float64.not_lt_of_lt hba)⟩
  exact List.eq_of_perm_of_sorted hperm (strict l hs hnd) (strict l' hs' hnd')

theorem sortSlice_congr (l l' : List CustomerRevenue) (hperm : l.Perm l') (hn : NoNaN l)
    (hnd : (l.map (fun c => c.Revenue)).Nodup) : sortSlice l = sortSlice l' := by
  apply sorted_unique _ _ _ (sortSlice_pairwise_le l hn)
    (sortSlice_pairwise_le l' (NoNaN_of_perm hperm hn))
  · exact ((sortSlice_perm l).map _).nodup_iff.2 hnd
  · exact (sortSlice_perm l).trans (hperm.trans (sortSlice_perm l').symm)

theorem sortSlice_strict (l : List CustomerRevenue) (hn : NoNaN l)
    (hnd : (l.map (fun c => c.Revenue)).Nodup) :
    (sortSlice l).Pairwise (fun a b => b.Revenue < a.Revenue) := by
  have hnd' : ((sortSlice l).map (fun c => c.Revenue)).Nodup :=
    ((sortSlice_perm l).map _).nodup_iff.2 hnd
  have hne : (sortSlice l).Pairwise (fun a b => a.Revenue ≠ b.Revenue) :=
    List.pairwise_map.1 hnd'
  exact (List.Pairwise.and (sortSlice_pairwise_le l hn) hne).imp
    (fun h => Float64.strict_of_le_of_ne h.1 (Ne.symm h.2))

theorem revenue_le_of_take_drop (s : List CustomerRevenue)
    (hs : s.Pairwise (fun a b => b.Revenue ≤ a.Revenue)) (t : ℕ)
    (a b : CustomerRevenue) (ha : a ∈ s.take t) (hb : b ∈ s.drop t) :
    b.Revenue ≤ a.Revenue := by
  have h : (s.take t ++ s.drop t).Pairwise (fun a b => b.Revenue ≤ a.Revenue) := by
    rw [List.take_append_drop]
    exact hs
  exact (List.pairwise_append.1 h).2.2 a ha b hb

/-- In a strictly descending list a record is among the first `t` exactly when fewer
than `t` records have a larger revenue. -/
theorem mem_take_iff_countP (s : List CustomerRevenue)
    (hs : s.Pairwise (fun a b => b.Revenue < a.Revenue)) (t : ℕ) (c : CustomerRevenue)
    (hc : c ∈ s) :
    c ∈ s.take t ↔ s.countP (fun d => decide (c.Revenue < d.Revenue)) < t := by
  induction s generalizing t with
  | nil => simp at hc
  | cons a rest ih =>
    obtain ⟨ha, hrest⟩ := List.pairwise_cons.1 hs
    cases t with
    | zero => simp
    | succ t =>
      rw [List.take_succ_cons, List.countP_cons]
      rcases List.mem_cons.1 hc with rfl | hcr
      · have hzero : rest.countP (fun d => decide (c.Revenue < d.Revenue)) = 0 := by
          rw [List.countP_eq_zero]
          intro d hd
          simpa using Float64.not_lt_of_lt (ha d hd)
        have hself : ¬ c.Revenue < c.Revenue := Float64.not_lt_self _
        simp [hzero, hself]
      · have hlt : c.Revenue < a.Revenue := ha c hcr
        have hne : c ≠ a := by
          rintro rfl
          exact Float64.not_lt_self _ hlt
        have := ih hrest t hcr
        simp only [List.mem_cons, hne, false_or, hlt, decide_True, if_true]
        rw [this]
        omega

end Processor

namespace Processor

theorem topCount_half_two : (NewProcessor (.fin (1 / 2))).topCount 2 = 1 := by
  have h2 : Float64.ofInt ((2 : ℕ) : ℤ) = .fin 2 := by
    rw [Float64.ofInt_natCast 2 (by norm_num)]
    norm_num
  have hm : (2 : ℚ) * (1 / 2) = 1 := by norm_num
  have h1 : Float64.toInt (.fin 1) = 1 := by
    have := Float64.toInt_fin_natCast 1 (by norm_num)
    simpa using this
  have ht : Float64.toInt (Float64.mul (Float64.ofInt ((2 : ℕ) : ℤ))
      (NewProcessor (.fin (1 / 2))).quantile) = 1 := by
    show Float64.toInt (Float64.mul (Float64.ofInt ((2 : ℕ) : ℤ)) (.fin (1 / 2))) = 1
    rw [h2, Float64.mul_fin_fin, hm, Float64.round_one, h1]
  unfold topCount
  simp only [ht]
  decide

theorem GetTopQuantileCustomers_two (p : Processor) (m : RevenueMap) (a b : CustomerRevenue)
    (hs : sortSlice m.values = [a, b]) (ht : p.topCount 2 = 1) :
    p.GetTopQuantileCustomers m = .ok ([(a.CustomerID, a)], none) := by
  unfold GetTopQuantileCustomers
  simp only
  rw [hs]
  have hl : [a, b].length = 2 := rfl
  rw [hl, ht]
  rfl

theorem sortSlice_nanFirst :
    sortSlice (GoMap.values nanFirst) = [⟨1, "", .nan⟩, ⟨2, "", .fin 5⟩] := by
  decide

theorem sortSlice_nanLast :
    sortSlice (GoMap.values nanLast) = [⟨2, "", .fin 5⟩, ⟨1, "", .nan⟩] := by
  decide

/-- C5 as stated fails: a revenue can be NaN (the aggregator returns one for a quantity
0 at an infinite price, or when a total overflows to +Inf and a negative product to
-Inf), and NaN is neither at least nor at most any revenue. With the two customers of
`nanFirst`, one with revenue NaN and one with revenue 5, and the quantile 1/2, one of
them is selected and the other left out, whichever way the map is visited, and
`selected >= left out` is false. -/
theorem C5_counterexample :
    nanFirst ≠ [] ∧ GoMap.WF nanFirst ∧ KeyedByCustomerID nanFirst ∧
    Float64.fin 0 < (NewProcessor (.fin (1 / 2))).quantile ∧
    (NewProcessor (.fin (1 / 2))).quantile ≤ Float64.fin 1 ∧
    nanLast.Perm nanFirst ∧
    (NewProcessor (.fin (1 / 2))).GetTopQuantileCustomers nanFirst
      = .ok ([(1, ⟨1, "", .nan⟩)], none) ∧
    (NewProcessor (.fin (1 / 2))).GetTopQuantileCustomers nanLast
      = .ok ([(2, ⟨2, "", .fin 5⟩)], none) ∧
    ¬ (Float64.fin 5 ≤ Float64.nan) ∧ ¬ (Float64.nan ≤ Float64.fin 5) := by
  have hperm : nanLast.Perm nanFirst := by
    unfold nanLast nanFirst
    exact List.Perm.swap _ _ _
  exact ⟨by decide, by unfold GoMap.WF; decide, by unfold KeyedByCustomerID; decide,
    quantile_half_pos, quantile_half_le, hperm,
    GetTopQuantileCustomers_two _ _ _ _ sortSlice_nanFirst topCount_half_two,
    GetTopQuantileCustomers_two _ _ _ _ sortSlice_nanLast topCount_half_two,
    by decide, by decide⟩

/-- C5, amended. For a non-empty revenue mapping whose records are stored under their own
`CustomerID` (fewer than 2 ^ 53 entries), with no revenue NaN, and a quantile in (0,1],
`GetTopQuantileCustomers` returns, with a nil error, a mapping without repeated key of
`max(1, int(float64(n) * quantile))` records of the input in which every customer has a
revenue at least that of every input customer left out. When the revenues are pairwise
distinct a customer is selected exactly when fewer than that many customers have a
larger revenue, and every visiting order of the same map yields this same output. When
`int(float64(n) * quantile)` is 0 (also when the exact product `n * quantile` has floor
0) the output is a single customer whose revenue is the maximum. -/
theorem C5_selector_top (p : Processor) (m : RevenueMap) (hwf : m.WF)
    (hkey : KeyedByCustomerID m) (hq0 : Float64.fin 0 < p.quantile)
    (hq1 : p.quantile ≤ Float64.fin 1) (hlen : m.length ≤ 2 ^ 53) (hne : m ≠ [])
    (hnan : NoNaN m.values) :
    ∃ out, p.GetTopQuantileCustomers m = .ok (out, none) ∧ GoMap.WF out ∧
      (out.length : ℤ)
        = max 1 (Float64.toInt (Float64.mul (Float64.ofInt (m.length : ℤ)) p.quantile)) ∧
      (∀ k rev, GoMap.get? out k = some rev → GoMap.get? m k = some rev) ∧
      (∀ k rev k' rev', GoMap.get? out k = some rev → GoMap.get? m k' = some rev' →
        GoMap.get? out k' = none → rev'.Revenue ≤ rev.Revenue) ∧
      ((m.values.map (fun c => c.Revenue)).Nodup →
        (∀ k rev, GoMap.get? m k = some rev →
          (GoMap.get? out k = some rev ↔
            m.values.countP (fun c => decide (rev.Revenue < c.Revenue)) < out.length)) ∧
        ∀ m' : RevenueMap, m'.Perm m → p.GetTopQuantileCustomers m' = .ok (out, none)) ∧
      (Float64.toInt (Float64.mul (Float64.ofInt (m.length : ℤ)) p.quantile) = 0 ∨
          (∃ x, p.quantile = .fin x ∧ ⌊(m.length : ℚ) * x⌋ = 0) →
        ∃ c, out = [(c.CustomerID, c)] ∧ GoMap.get? m c.CustomerID = some c ∧
          ∀ k' rev', GoMap.get? m k' = some rev' → rev'.Revenue ≤ c.Revenue) := by
  obtain ⟨hget, hle⟩ := GetTopQuantileCustomers_eq p m hwf hkey hq0 hq1 hlen
  have hnd := nodup_CustomerID_sortSlice m hwf hkey
  have hsorted := sortSlice_pairwise_le m.values hnan
  have hpos : 0 < m.length := List.length_pos.2 hne
  have hb := topCount_bounds p m.length hq0 hq1 hlen
  have hkeyof : ∀ k rev, GoMap.get? m k = some rev → rev.CustomerID = k :=
    fun k rev h => hkey (k, rev) (GoMap.mem_of_get?_eq_some m k rev h)
  have houtwf : GoMap.WF (((sortSlice m.values).take (p.topCount m.length).toNat).map
      (fun c => (c.CustomerID, c))) := by
    unfold GoMap.WF GoMap.keys
    rw [List.map_map]
    exact List.Nodup.sublist (List.Sublist.map _ (List.take_sublist _ _)) hnd
  have hlenout : (((sortSlice m.values).take (p.topCount m.length).toNat).map
      (fun c => (c.CustomerID, c))).length = (p.topCount m.length).toNat := by
    rw [List.length_map, List.length_take, min_eq_left hle]
  have hrec : ∀ k rev, GoMap.get? (((sortSlice m.values).take (p.topCount m.length).toNat).map
      (fun c => (c.CustomerID, c))) k = some rev →
      rev ∈ (sortSlice m.values).take (p.topCount m.length).toNat ∧ rev.CustomerID = k := by
    intro k rev hout
    have hmem := GoMap.mem_of_get?_eq_some _ k rev hout
    obtain ⟨c, hc, hceq⟩ := List.mem_map.1 hmem
    have hck : c.CustomerID = k := congrArg Prod.fst hceq
    have hcr : c = rev := congrArg Prod.snd hceq
    subst hcr
    exact ⟨hc, hck⟩
  have hin : ∀ c, c ∈ m.values → GoMap.get? m c.CustomerID = some c := by
    intro c hc
    obtain ⟨e, he, hec⟩ := List.mem_map.1 hc
    apply GoMap.get?_eq_some_of_mem m hwf
    rw [← hec, hkey e he]
    exact he
  refine ⟨_, hget, houtwf, ?_, ?_, ?_, ?_, ?_⟩
  · rw [hlenout, Int.toNat_of_nonneg hb.1, topCount_eq p m.length hq0 hq1 hlen,
      if_neg (Nat.pos_iff_ne_zero.1 hpos)]
  · intro k rev hout
    obtain ⟨hc, hck⟩ := hrec k rev hout
    have := hin rev ((sortSlice_perm m.values).mem_iff.1 (List.mem_of_mem_take hc))
    rwa [hck] at this
  · intro k rev k' rev' hout hinm hnot
    obtain ⟨hc, -⟩ := hrec k rev hout
    have hin_s : rev' ∈ sortSlice m.values :=
      (sortSlice_perm m.values).mem_iff.2 (mem_values_of_get? m k' rev' hinm)
    rw [← List.take_append_drop (p.topCount m.length).toNat (sortSlice m.values)] at hin_s
    rcases List.mem_append.1 hin_s with htake | hdrop
    · exfalso
      have hmem' : (k', rev') ∈ ((sortSlice m.values).take (p.topCount m.length).toNat).map
          (fun c => (c.CustomerID, c)) :=
        List.mem_map.2 ⟨rev', htake, by rw [hkeyof k' rev' hinm]⟩
      have := GoMap.get?_eq_some_of_mem _ houtwf k' rev' hmem'
      rw [hnot] at this
      cases this
    · exact revenue_le_of_take_drop _ hsorted _ rev rev' hc hdrop
  · intro hdist
    constructor
    · intro k rev hinm
      have hstrict := sortSlice_strict m.values hnan hdist
      have hmem_s : rev ∈ sortSlice m.values :=
        (sortSlice_perm m.values).mem_iff.2 (mem_values_of_get? m k rev hinm)
      have hcount := mem_take_iff_countP _ hstrict (p.topCount m.length).toNat rev hmem_s
      rw [(sortSlice_perm m.values).countP_eq] at hcount
      rw [hlenout, ← hcount]
      constructor
      · intro hout
        exact (hrec k rev hout).1
      · intro htake
        apply GoMap.get?_eq_some_of_mem _ houtwf
        exact List.mem_map.2 ⟨rev, htake, by rw [hkeyof k rev hinm]⟩
    · intro m' hperm
      have hvals : (GoMap.values m').Perm (GoMap.values m) := hperm.map _
      have hsame : sortSlice (GoMap.values m') = sortSlice (GoMap.values m) :=
        sortSlice_congr _ _ hvals (NoNaN_of_perm hvals.symm hnan)
          ((hvals.map _).nodup_iff.2 hdist)
      have hwf' : GoMap.WF m' := ((hperm.map _).nodup_iff).2 hwf
      have hkey' : KeyedByCustomerID m' := fun e he => hkey e (hperm.mem_iff.1 he)
      have hlen' : m'.length = m.length := hperm.length_eq
      obtain ⟨hget', _⟩ := GetTopQuantileCustomers_eq p m' hwf' hkey' hq0 hq1 (by omega)
      rw [hget', hsame, hlen']
  · intro hzero
    have ht : p.topCount m.length = 1 := by
      rcases hzero with hz | ⟨x, hx, hz⟩
      · rw [topCount_eq p m.length hq0 hq1 hlen, if_neg (Nat.pos_iff_ne_zero.1 hpos), hz]
        rfl
      · have hx0 : 0 < x := by
          rw [hx] at hq0
          exact (Float64.fin_lt_fin 0 x).1 hq0
        have hx1 : x ≤ 1 := by
          rw [hx] at hq1
          exact (Float64.fin_le_fin x 1).1 hq1
        exact topCount_of_floor_zero p m.length x hx hx0 hx1 hlen hpos hz
    have hl : (sortSlice m.values).length = m.length := by
      rw [length_sortSlice]
      exact List.length_map _ _
    rw [ht]
    cases hs : sortSlice m.values with
    | nil =>
      rw [hs] at hl
      simp at hl
      omega
    | cons c rest =>
      have hcn : c.Revenue ≠ Float64.nan :=
        hnan c ((sortSlice_perm m.values).mem_iff.1 (by simp [hs]))
      refine ⟨c, by simp, ?_, ?_⟩
      · exact hin c ((sortSlice_perm m.values).mem_iff.1 (by simp [hs]))
      · intro k' rev' hinm
        have hin_s : rev' ∈ sortSlice m.values :=
          (sortSlice_perm m.values).mem_iff.2 (mem_values_of_get? m k' rev' hinm)
        rw [hs] at hin_s hsorted
        rcases List.mem_cons.1 hin_s with heq | hrest
        · rw [heq]
          exact Float64.le_self hcn
        · exact List.rel_of_pairwise_cons hsorted hrest

theorem exampleRevenue_noNaN : NoNaN (GoMap.values exampleRevenue) := by
  intro c hc
  simp only [exampleRevenue, GoMap.values, List.map_cons, List.map_nil, List.mem_cons,
    List.mem_singleton, List.mem_nil_iff, or_false] at hc
  rcases hc with rfl | rfl <;> simp

/-- C5, amended, at the example scenario: of the customers 100 (revenue 30) and 200
(revenue 15), the quantile 1/2 selects one record. -/
theorem C5_selector_top_witness :
    GoMap.WF exampleRevenue ∧ KeyedByCustomerID exampleRevenue ∧
    Float64.fin 0 < (NewProcessor (.fin (1 / 2))).quantile ∧
    (NewProcessor (.fin (1 / 2))).quantile ≤ Float64.fin 1 ∧
    exampleRevenue.length ≤ 2 ^ 53 ∧ exampleRevenue ≠ [] ∧
    NoNaN (GoMap.values exampleRevenue) ∧
    ∃ out, (NewProcessor (.fin (1 / 2))).GetTopQuantileCustomers exampleRevenue
        = .ok (out, none) ∧ GoMap.WF out ∧ (out.length : ℤ) = 1 ∧
      (∀ k rev, GoMap.get? out k = some rev → GoMap.get? exampleRevenue k = some rev) ∧
      (∀ k rev k' rev', GoMap.get? out k = some rev →
        GoMap.get? exampleRevenue k' = some rev' →
        GoMap.get? out k' = none → rev'.Revenue ≤ rev.Revenue) := by
  have hwf : GoMap.WF exampleRevenue := by unfold GoMap.WF; decide
  have hkey : KeyedByCustomerID exampleRevenue := by unfold KeyedByCustomerID; decide
  have hlen : exampleRevenue.length ≤ 2 ^ 53 := by decide
  have hne : exampleRevenue ≠ [] := by decide
  obtain ⟨out, hget, hwfo, hsize, hrec, hge, -, -⟩ :=
    C5_selector_top (NewProcessor (.fin (1 / 2))) exampleRevenue hwf hkey quantile_half_pos
      quantile_half_le hlen hne exampleRevenue_noNaN
  refine ⟨hwf, hkey, quantile_half_pos, quantile_half_le, hlen, hne, exampleRevenue_noNaN,
    out, hget, hwfo, ?_, hrec, hge⟩
  have ht := topCount_half_two
  rw [topCount_eq _ 2 quantile_half_pos quantile_half_le (by norm_num),
    if_neg (by norm_num)] at ht
  rw [hsize]
  exact ht

/-- The worked example of the selector: with the quantile 1/2 the selection from
customers 100 (revenue 30) and 200 (revenue 15) is customer 100 alone. -/
theorem GetTopQuantileCustomers_exampleRevenue :
    (NewProcessor (.fin (1 / 2))).GetTopQuantileCustomers exampleRevenue
      = .ok ([(100, ⟨100, "a@x.com", .fin 30⟩)], none) := by
  have hs : sortSlice (GoMap.values exampleRevenue)
      = [⟨100, "a@x.com", .fin 30⟩, ⟨200, "no-email@unknown.com", .fin 15⟩] := by
    apply sortSlice_of_sorted
    simp only [exampleRevenue, GoMap.values, List.map_cons, List.map_nil, List.Sorted,
      List.pairwise_cons, List.mem_singleton, forall_eq, List.not_mem_nil, false_implies,
      implies_true, List.Pairwise.nil, and_true, revenueGe, Float64.fin_lt_fin]
    norm_num
  exact GetTopQuantileCustomers_two _ _ _ _ hs topCount_half_two

end Processor

/-! ## Quantile statistics -/

namespace Processor

theorem goSlice_natCast (s : List CustomerRevenue) (a b : ℕ) (hab : a ≤ b)
    (hb : b ≤ s.length) : goSlice s (a : ℤ) (b : ℤ) = .ok (sliceSpec s a b) := by
  unfold goSlice sliceSpec
  have hcond : (0 : ℤ) ≤ (a : ℤ) ∧ (a : ℤ) ≤ (b : ℤ) ∧ (b : ℤ) ≤ (s.length : ℤ) := by
    omega
  rw [if_pos hcond, List.drop_take]
  have h1 : ((a : ℤ)).toNat = a := Int.toNat_natCast a
  have h2 : ((b : ℤ) - (a : ℤ)).toNat = b - a := by omega
  rw [h1, h2]

theorem sliceSpec_eq_nil (s : List CustomerRevenue) (lo hi : ℕ) (h : s.length ≤ lo) :
    sliceSpec s lo hi = [] := by
  unfold sliceSpec
  apply List.drop_eq_nil_of_le
  rw [List.length_take]
  omega

theorem bucketSliceSpec_eq_nil (s : List CustomerRevenue) (N c q : ℕ)
    (h : s.length ≤ q * c) : bucketSliceSpec s N c q = [] := by
  unfold bucketSliceSpec
  split_ifs <;> exact sliceSpec_eq_nil s _ _ h

/-- The loop of `CalculateQuantileStats` appends the buckets of the remaining indices. -/
theorem statsLoop_eq (customers : List CustomerRevenue) (N c : ℕ)
    (hNc : N * c ≤ customers.length) (r : ℕ) (hr : r ≤ N) (stats : List QuantileStats) :
    statsLoop customers (N : ℤ) (c : ℤ) r stats
      = .ok (stats ++ (List.range' (N - r) r).filterMap
          (fun q => bucketSpec q (bucketSliceSpec customers N c q))) := by
  induction r generalizing stats with
  | zero => simp [statsLoop]
  | succ r ih =>
    have hq : ((N : ℤ) - ((r + 1 : ℕ) : ℤ)) = ((N - (r + 1) : ℕ) : ℤ) := by omega
    have hnext : N - r = (N - (r + 1)) + 1 := by omega
    rw [statsLoop]
    rw [hq, List.range'_succ, List.filterMap_cons, ← hnext]
    by_cases hstart : customers.length ≤ (N - (r + 1)) * c
    · have hcond : ((N - (r + 1) : ℕ) : ℤ) * (c : ℤ) ≥ (customers.length : ℤ) := by
        have : ((customers.length : ℕ) : ℤ) ≤ (((N - (r + 1)) * c : ℕ) : ℤ) :=
          Int.ofNat_le.2 hstart
        simpa using this
      rw [if_pos hcond, bucketSliceSpec_eq_nil customers N c _ hstart]
      have hnil : (List.range' (N - r) r).filterMap
          (fun q => bucketSpec q (bucketSliceSpec customers N c q)) = [] := by
        rw [List.filterMap_eq_nil_iff]
        intro q hqmem
        have hge : N - r ≤ q := (List.mem_range'_1.1 hqmem).1
        have hle : (N - (r + 1)) * c ≤ q * c := Nat.mul_le_mul_right c (by omega)
        rw [bucketSliceSpec_eq_nil customers N c q (le_trans hstart hle)]
        rfl
      rw [hnil]
      simp [bucketSpec]
    · have hcond : ¬ ((N - (r + 1) : ℕ) : ℤ) * (c : ℤ) ≥ (customers.length : ℤ) := by
        intro hge
        apply hstart
        have : ((customers.length : ℕ) : ℤ) ≤ (((N - (r + 1)) * c : ℕ) : ℤ) := by
          simpa using hge
        exact Int.ofNat_le.1 this
      rw [if_neg hcond]
      have hslice : goSlice customers (((N - (r + 1) : ℕ) : ℤ) * (c : ℤ))
          (if ((N - (r + 1) : ℕ) : ℤ) = (N : ℤ) - 1 then (customers.length : ℤ)
            else (((N - (r + 1) : ℕ) : ℤ) + 1) * (c : ℤ))
          = .ok (bucketSliceSpec customers N c (N - (r + 1))) := by
        unfold bucketSliceSpec
        by_cases hlast : N - (r + 1) + 1 = N
        · have hl : ((N - (r + 1) : ℕ) : ℤ) = (N : ℤ) - 1 := by omega
          rw [if_pos hl, if_pos hlast]
          have := goSlice_natCast customers ((N - (r + 1)) * c) customers.length
            (by omega) (le_refl _)
          simpa using this
        · have hl : ¬ ((N - (r + 1) : ℕ) : ℤ) = (N : ℤ) - 1 := by omega
          rw [if_neg hl, if_neg hlast]
          have hle : (N - (r + 1) + 1) * c ≤ customers.length :=
            le_trans (Nat.mul_le_mul_right c (by omega)) hNc
          have := goSlice_natCast customers ((N - (r + 1)) * c) ((N - (r + 1) + 1) * c)
            (Nat.mul_le_mul_right c (by omega)) hle
          simpa using this
      rw [hslice]
      simp only
      cases hsl : bucketSliceSpec customers N c (N - (r + 1)) with
      | nil =>
        simp only [bucketSpec]
        exact ih (by omega) stats
      | cons first rest =>
        simp only [bucketSpec]
        rw [ih (by omega), List.append_assoc]
        rfl

theorem bucketSpec_eq_some (q : ℕ) (sl : List CustomerRevenue) (b : QuantileStats)
    (h : bucketSpec q sl = some b) :
    ∃ first rest, sl = first :: rest ∧ b.QuantileIndex = q ∧
      b.CustomerCount = (sl.length : ℤ) ∧ b.MaxRevenue = first.Revenue ∧
      b.MinRevenue = ((first :: rest).getLast (List.cons_ne_nil first rest)).Revenue := by
  cases sl with
  | nil => simp [bucketSpec] at h
  | cons first rest =>
    simp only [bucketSpec, Option.some.injEq] at h
    subst h
    exact ⟨first, rest, rfl, rfl, rfl, rfl, rfl⟩

theorem sliceSpec_sublist (s : List CustomerRevenue) (lo hi : ℕ) :
    (sliceSpec s lo hi).Sublist s :=
  (List.drop_sublist _ _).trans (List.take_sublist _ _)

theorem bucketSliceSpec_sublist (s : List CustomerRevenue) (N c q : ℕ) :
    (bucketSliceSpec s N c q).Sublist s := by
  unfold bucketSliceSpec
  split_ifs <;> exact sliceSpec_sublist s _ _

theorem mem_take_of_mem_sliceSpec (s : List CustomerRevenue) (lo hi : ℕ) (x : CustomerRevenue)
    (h : x ∈ sliceSpec s lo hi) : x ∈ s.take hi :=
  List.mem_of_mem_drop h

theorem mem_drop_of_mem_sliceSpec (s : List CustomerRevenue) (lo hi : ℕ) (x : CustomerRevenue)
    (h : x ∈ sliceSpec s lo hi) : x ∈ s.drop lo := by
  unfold sliceSpec at h
  rw [List.drop_take] at h
  exact List.mem_of_mem_take h

theorem mem_drop_of_le (s : List CustomerRevenue) (a b : ℕ) (hab : a ≤ b) (x : CustomerRevenue)
    (h : x ∈ s.drop b) : x ∈ s.drop a := by
  have hb : b = a + (b - a) := by omega
  rw [hb, ← List.drop_drop] at h
  exact List.mem_of_mem_drop h

theorem bucket_bounds_mem (q : ℕ) (sl : List CustomerRevenue) (b : QuantileStats)
    (h : bucketSpec q sl = some b) :
    (∃ x ∈ sl, b.MaxRevenue = x.Revenue) ∧ (∃ y ∈ sl, b.MinRevenue = y.Revenue) := by
  obtain ⟨first, rest, hsl, _, _, hmax, hmin⟩ := bucketSpec_eq_some q sl b h
  constructor
  · exact ⟨first, by rw [hsl]; exact List.mem_cons_self _ _, hmax⟩
  · exact ⟨_, by rw [hsl]; exact List.getLast_mem _, hmin⟩

theorem sum_counts_filterMap (l : List ℕ) (g : ℕ → List CustomerRevenue) :
    ((l.filterMap (fun q => bucketSpec q (g q))).map (fun b => b.CustomerCount)).sum
      = (l.map (fun q => ((g q).length : ℤ))).sum := by
  induction l with
  | nil => rfl
  | cons a t ih =>
    rw [List.map_cons, List.sum_cons]
    cases hg : g a with
    | nil =>
      have hb : (fun q => bucketSpec q (g q)) a = none := by
        simp only [hg, bucketSpec]
      rw [List.filterMap_cons_none (f := fun q => bucketSpec q (g q)) hb, ih]
      simp
    | cons first rest =>
      have hb : (fun q => bucketSpec q (g q)) a = some
          { QuantileIndex := a
            CustomerCount := (first :: rest).length
            MaxRevenue := first.Revenue
            MinRevenue := ((first :: rest).getLast (List.cons_ne_nil first rest)).Revenue } := by
        simp only [hg, bucketSpec]
      rw [List.filterMap_cons_some (f := fun q => bucketSpec q (g q)) hb, List.map_cons,
        List.sum_cons, ih]

theorem length_sliceSpec (s : List CustomerRevenue) (lo hi : ℕ) (h : hi ≤ s.length) :
    (sliceSpec s lo hi).length = hi - lo := by
  unfold sliceSpec
  rw [List.length_drop, List.length_take, min_eq_left h]

/-- The slices of all buckets together hold every customer exactly once. -/
theorem sum_length_buckets (s : List CustomerRevenue) (N c : ℕ) (hN : 1 ≤ N)
    (hNc : N * c ≤ s.length) :
    ((List.range N).map (fun q => ((bucketSliceSpec s N c q).length : ℤ))).sum
      = (s.length : ℤ) := by
  obtain ⟨K, rfl⟩ : ∃ K, N = K + 1 := ⟨N - 1, by omega⟩
  rw [List.range_succ, List.map_append, List.sum_append]
  have hfirst : (List.range K).map (fun q => ((bucketSliceSpec s (K + 1) c q).length : ℤ))
      = (List.range K).map (fun _ => (c : ℤ)) := by
    apply List.map_congr_left
    intro q hq
    have hqK : q < K := List.mem_range.1 hq
    unfold bucketSliceSpec
    rw [if_neg (by omega), length_sliceSpec]
    · congr 1
      rw [Nat.add_mul, Nat.one_mul, Nat.add_sub_cancel_left]
    · exact le_trans (Nat.mul_le_mul_right c (by omega)) hNc
  have hKc : K * c ≤ s.length := le_trans (Nat.mul_le_mul_right c (by omega)) hNc
  rw [hfirst, List.map_const', List.sum_replicate, List.length_range]
  simp only [List.map_cons, List.map_nil, List.sum_cons, List.sum_nil, add_zero, nsmul_eq_mul]
  unfold bucketSliceSpec
  rw [if_pos rfl, length_sliceSpec _ _ _ (le_refl _)]
  push_cast [Nat.cast_sub hKc]
  ring

theorem bucketLayoutSpec_sum (s : List CustomerRevenue) (N c : ℕ) (hN : 1 ≤ N)
    (hNc : N * c ≤ s.length) :
    ((bucketLayoutSpec s N c).map (fun b => b.CustomerCount)).sum = (s.length : ℤ) := by
  unfold bucketLayoutSpec
  rw [sum_counts_filterMap (List.range N) (bucketSliceSpec s N c),
    sum_length_buckets s N c hN hNc]

/-- Every element of a later bucket's slice has a revenue at most that of every element
of an earlier bucket's slice. -/
theorem revenue_le_of_buckets (s : List CustomerRevenue)
    (hs : s.Pairwise (fun a b => b.Revenue ≤ a.Revenue))
    (N c q q' : ℕ) (hq : q < q') (hq' : q' < N) (x y : CustomerRevenue)
    (hx : x ∈ bucketSliceSpec s N c q) (hy : y ∈ bucketSliceSpec s N c q') :
    y.Revenue ≤ x.Revenue := by
  have hxt : x ∈ s.take ((q + 1) * c) := by
    unfold bucketSliceSpec at hx
    rw [if_neg (by omega)] at hx
    exact mem_take_of_mem_sliceSpec s _ _ x hx
  have hyd : y ∈ s.drop (q' * c) := by
    unfold bucketSliceSpec at hy
    split_ifs at hy <;> exact mem_drop_of_mem_sliceSpec s _ _ y hy
  exact revenue_le_of_take_drop s hs ((q + 1) * c) x y hxt
    (mem_drop_of_le s _ _ (Nat.mul_le_mul_right c (by omega)) y hyd)

/-- Within one bucket the maximum is at least the minimum. -/
theorem min_le_max_of_bucketSpec (q : ℕ) (sl : List CustomerRevenue)
    (hs : sl.Pairwise (fun a b => b.Revenue ≤ a.Revenue)) (hn : NoNaN sl)
    (b : QuantileStats) (h : bucketSpec q sl = some b) :
    b.MinRevenue ≤ b.MaxRevenue := by
  obtain ⟨first, rest, hsl, _, _, hmax, hmin⟩ := bucketSpec_eq_some q sl b h
  rw [hmax, hmin]
  have hmem := List.getLast_mem (List.cons_ne_nil first rest)
  rw [hsl] at hs hn
  rcases List.mem_cons.1 hmem with heq | hrest
  · rw [heq]
    exact Float64.le_self (hn first (List.mem_cons_self _ _))
  · exact List.rel_of_pairwise_cons hs hrest

theorem bucketLayoutSpec_min_le_max (s : List CustomerRevenue)
    (hs : s.Pairwise (fun a b => b.Revenue ≤ a.Revenue)) (hn : NoNaN s)
    (N c : ℕ) (b : QuantileStats) (hb : b ∈ bucketLayoutSpec s N c) :
    b.MinRevenue ≤ b.MaxRevenue := by
  unfold bucketLayoutSpec at hb
  obtain ⟨q, _, hq⟩ := List.mem_filterMap.1 hb
  exact min_le_max_of_bucketSpec q _
    (List.Pairwise.sublist (bucketSliceSpec_sublist s N c q) hs)
    (NoNaN_of_sublist (bucketSliceSpec_sublist s N c q) hn) b hq

theorem bucketLayoutSpec_pairwise (s : List CustomerRevenue)
    (hs : s.Pairwise (fun a b => b.Revenue ≤ a.Revenue)) (N c : ℕ) :
    (bucketLayoutSpec s N c).Pairwise
      (fun a b => b.MaxRevenue ≤ a.MinRevenue ∧ a.QuantileIndex < b.QuantileIndex) := by
  unfold bucketLayoutSpec
  rw [List.pairwise_filterMap]
  refine List.Pairwise.imp_of_mem ?_ (List.pairwise_lt_range N)
  intro q q' _ hq' hlt a ha b hb
  have ha' : bucketSpec q (bucketSliceSpec s N c q) = some a := ha
  have hb' : bucketSpec q' (bucketSliceSpec s N c q') = some b := hb
  obtain ⟨y, hy, hmin⟩ := (bucket_bounds_mem q _ a ha').2
  obtain ⟨x, hx, hmax⟩ := (bucket_bounds_mem q' _ b hb').1
  obtain ⟨_, _, _, hia, _⟩ := bucketSpec_eq_some q _ a ha'
  obtain ⟨_, _, _, hib, _⟩ := bucketSpec_eq_some q' _ b hb'
  refine ⟨?_, ?_⟩
  · rw [hmin, hmax]
    exact revenue_le_of_buckets s hs N c q q' hlt (List.mem_range.1 hq') y x hy hx
  · rw [hia, hib]
    exact_mod_cast hlt

theorem bucketLayoutSpec_nil (N c : ℕ) : bucketLayoutSpec [] N c = [] := by
  unfold bucketLayoutSpec
  rw [List.filterMap_eq_nil_iff]
  intro q _
  rw [bucketSliceSpec_eq_nil [] N c q (Nat.zero_le _)]
  rfl

end Processor

namespace Float64

theorem nearest_one : nearest 1 = 1 := by
  have := nearest_natCast 1 (by norm_num)
  simpa using this

theorem one_le_nearest {y : ℚ} (h : 1 ≤ y) : 1 ≤ nearest y := by
  calc (1 : ℚ) = nearest 1 := nearest_one.symm
    _ ≤ nearest y := nearest_mono_of_nonneg (by norm_num) h

theorem toInt_fin_of_one_le {y : ℚ} (h : 1 ≤ y) :
    1 ≤ toInt (fin y) ∨ toInt (fin y) = -2 ^ 63 := by
  rw [toInt_fin]
  split_ifs with hr
  · left
    unfold trunc
    rw [if_pos (by linarith)]
    exact Int.le_floor.2 (by simpa using h)
  · right
    rfl

/-- The conversion to `int` of a rounded number that is at least 1 is at least 1, unless
the number leaves the `int64` range, where the conversion yields -2 ^ 63. -/
theorem toInt_round_of_one_le {y : ℚ} (h : 1 ≤ y) :
    1 ≤ toInt (round y) ∨ toInt (round y) = -2 ^ 63 := by
  unfold round
  split_ifs with h1 h2
  · right
    rfl
  · right
    rfl
  · exact toInt_fin_of_one_le (one_le_nearest h)

/-- Between 1 and 2 ^ 43 the conversion to `int` of the rounded number is the floor of
the exact number or one more. -/
theorem toInt_round_floor {y : ℚ} (h1 : 1 ≤ y) (h2 : y ≤ 2 ^ 43) :
    ⌊y⌋ ≤ toInt (round y) ∧ toInt (round y) ≤ ⌊y⌋ + 1 ∧ 1 ≤ toInt (round y) ∧
      toInt (round y) ≤ 2 ^ 43 := by
  have hy0 : (0 : ℚ) ≤ y := by linarith
  have h2' : y ≤ ((2 ^ 43 : ℕ) : ℚ) := by
    push_cast
    exact h2
  obtain ⟨hr, hn0, hn1⟩ := round_of_le_natCast (2 ^ 43) (by norm_num) hy0 h2'
  have hlt : nearest y < 2 ^ 63 := by
    have : ((2 ^ 43 : ℕ) : ℚ) < 2 ^ 63 := by norm_num
    linarith
  rw [hr, toInt_fin_of_nonneg hn0 hlt]
  have hk0 : 0 ≤ ⌊y⌋ := Int.floor_nonneg.2 hy0
  obtain ⟨k, hk⟩ := Int.eq_ofNat_of_zero_le hk0
  have hky : (k : ℚ) ≤ y := by
    have := Int.floor_le y
    rw [hk] at this
    exact_mod_cast this
  have hyk : y < (k : ℚ) + 1 := by
    have := Int.lt_floor_add_one y
    rw [hk] at this
    exact_mod_cast this
  have hk43 : k ≤ 2 ^ 43 := by
    have : (k : ℚ) ≤ ((2 ^ 43 : ℕ) : ℚ) := le_trans hky h2'
    exact_mod_cast this
  have hlow : (k : ℚ) ≤ nearest y := by
    calc (k : ℚ) = nearest (k : ℚ) := (nearest_natCast k (by omega)).symm
      _ ≤ nearest y := nearest_mono_of_nonneg (Nat.cast_nonneg k) hky
  have hhigh : nearest y ≤ ((k + 1 : ℕ) : ℚ) := by
    calc nearest y ≤ nearest ((k + 1 : ℕ) : ℚ) :=
          nearest_mono_of_nonneg hy0 (by push_cast; exact hyk.le)
      _ = ((k + 1 : ℕ) : ℚ) := nearest_natCast (k + 1) (by omega)
  have h1' : (1 : ℚ) ≤ nearest y := one_le_nearest h1
  rw [hk]
  refine ⟨?_, ?_, ?_, ?_⟩
  · exact Int.le_floor.2 (by exact_mod_cast hlow)
  · have : ⌊nearest y⌋ ≤ ((k + 1 : ℕ) : ℤ) := by
      calc ⌊nearest y⌋ ≤ ⌊((k + 1 : ℕ) : ℚ)⌋ := Int.floor_mono hhigh
        _ = ((k + 1 : ℕ) : ℤ) := Int.floor_natCast _
    exact_mod_cast this
  · exact Int.le_floor.2 (by exact_mod_cast h1')
  · have : ⌊nearest y⌋ ≤ ((2 ^ 43 : ℕ) : ℤ) := by
      calc ⌊nearest y⌋ ≤ ⌊((2 ^ 43 : ℕ) : ℚ)⌋ := Int.floor_mono hn1
        _ = ((2 ^ 43 : ℕ) : ℤ) := Int.floor_natCast _
    exact_mod_cast this

end Float64

namespace Processor

theorem numQuantiles_of_fin (p : Processor) (x : ℚ) (hx : p.quantile = .fin x) (hx0 : x ≠ 0) :
    p.numQuantiles = Float64.toInt (Float64.round (1 / x)) := by
  unfold numQuantiles
  rw [hx, Float64.div_fin_fin 1 x hx0]

/-- For a quantile in (0,1], `int(1.0 / quantile)` is at least 1, or is -2 ^ 63 when
`1.0 / quantile` is beyond the `int64` range. -/
theorem numQuantiles_ne_zero (p : Processor) (hq0 : Float64.fin 0 < p.quantile)
    (hq1 : p.quantile ≤ Float64.fin 1) :
    1 ≤ p.numQuantiles ∨ p.numQuantiles = -2 ^ 63 := by
  obtain ⟨x, hx, hx0, hx1⟩ := Float64.exists_fin_of_lt_of_le hq0 hq1
  rw [numQuantiles_of_fin p x hx hx0.ne']
  apply Float64.toInt_round_of_one_le
  rw [le_div_iff₀ hx0]
  simpa using hx1

/-- For a quantile between 2 ^ (-43) and 1, `int(1.0 / quantile)` is the floor of the
exact quotient or one more, and lies between 1 and 2 ^ 43. -/
theorem numQuantiles_bounds (p : Processor) (x : ℚ) (hx : p.quantile = .fin x)
    (hlo : 1 / 2 ^ 43 ≤ x) (hhi : x ≤ 1) :
    ⌊1 / x⌋ ≤ p.numQuantiles ∧ p.numQuantiles ≤ ⌊1 / x⌋ + 1 ∧ 1 ≤ p.numQuantiles ∧
      p.numQuantiles ≤ 2 ^ 43 := by
  have hx0 : 0 < x := lt_of_lt_of_le (by norm_num) hlo
  rw [numQuantiles_of_fin p x hx hx0.ne']
  apply Float64.toInt_round_floor
  · rw [le_div_iff₀ hx0]
    simpa using hhi
  · rw [div_le_iff₀ hx0]
    have h := mul_le_mul_of_nonneg_left hlo (by norm_num : (0 : ℚ) ≤ 2 ^ 43)
    have h1 : (2 : ℚ) ^ 43 * (1 / 2 ^ 43) = 1 := by norm_num
    linarith

/-- The value `CalculateQuantileStats` returns when `int(1.0 / quantile)` is between 1
and 2 ^ 43 and the heap can hold that many bucket records. -/
theorem CalculateQuantileStats_ok (p : Processor) (heapCapacity : ℕ) (m : RevenueMap)
    (h1 : 1 ≤ p.numQuantiles) (h2 : p.numQuantiles ≤ 2 ^ 43)
    (h3 : p.numQuantiles ≤ heapCapacity) :
    p.CalculateQuantileStats heapCapacity m
      = .ok (bucketLayoutSpec (sortSlice m.values) p.numQuantiles.toNat
          (m.length / p.numQuantiles.toNat), none) := by
  have hl : (sortSlice m.values).length = m.length := by
    rw [length_sortSlice]
    exact List.length_map _ _
  obtain ⟨N, hN⟩ : ∃ N : ℕ, p.numQuantiles = (N : ℤ) :=
    ⟨_, (Int.toNat_of_nonneg (by omega)).symm⟩
  have hN1 : 1 ≤ N := by omega
  unfold CalculateQuantileStats makeQuantileStats
  simp only
  rw [hN] at h2 h3 ⊢
  rw [if_neg (by omega), if_neg (by omega), if_neg (by omega)]
  simp only
  rw [hl, Int.toNat_natCast, ← Int.ofNat_tdiv]
  have hNc : N * (m.length / N) ≤ (sortSlice m.values).length := by
    rw [hl]
    exact Nat.mul_div_le m.length N
  rw [statsLoop_eq _ N (m.length / N) hNc N (le_refl N) [], Nat.sub_self,
    ← List.range_eq_range']
  rfl

/-- The call panics in `make` when `int(1.0 / quantile)` is negative or above 2 ^ 43. -/
theorem CalculateQuantileStats_capOutOfRange (p : Processor) (heapCapacity : ℕ)
    (m : RevenueMap) (h : p.numQuantiles < 0 ∨ 2 ^ 43 < p.numQuantiles) :
    p.CalculateQuantileStats heapCapacity m = .error .makeSliceCapOutOfRange := by
  unfold CalculateQuantileStats makeQuantileStats
  simp only
  rw [if_neg (by omega), if_pos h]

/-- The call aborts when the heap cannot hold `int(1.0 / quantile)` bucket records. -/
theorem CalculateQuantileStats_outOfMemory (p : Processor) (heapCapacity : ℕ)
    (m : RevenueMap) (h1 : 1 ≤ p.numQuantiles) (h2 : p.numQuantiles ≤ 2 ^ 43)
    (h3 : (heapCapacity : ℤ) < p.numQuantiles) :
    p.CalculateQuantileStats heapCapacity m = .error .outOfMemory := by
  unfold CalculateQuantileStats makeQuantileStats
  simp only
  rw [if_neg (by omega), if_neg (by omega), if_pos h3]

end Processor

namespace Processor

/-- The slices of the first `K` buckets, none of them the last, make up the first
`K * c` customers. -/
theorem flatten_sliceSpec_prefix (s : List CustomerRevenue) (c K : ℕ) :
    ((List.range K).map (fun q => sliceSpec s (q * c) ((q + 1) * c))).flatten
      = s.take (K * c) := by
  induction K with
  | zero => simp
  | succ K ih =>
    rw [List.range_succ, List.map_append, List.flatten_append, ih]
    simp only [List.map_cons, List.map_nil, List.flatten_cons, List.flatten_nil,
      List.append_nil]
    unfold sliceSpec
    have hmin : min (K * c) ((K + 1) * c) = K * c :=
      min_eq_left (Nat.mul_le_mul_right c (Nat.le_succ K))
    have htake : s.take (K * c) = (s.take ((K + 1) * c)).take (K * c) := by
      rw [List.take_take, hmin]
    rw [htake, List.take_append_drop]

/-- The slices of all buckets, in index order, make up the sorted customers: every
customer lies in exactly one slice. -/
theorem flatten_bucketSliceSpec (s : List CustomerRevenue) (N c : ℕ) (hN : 1 ≤ N) :
    ((List.range N).map (fun q => bucketSliceSpec s N c q)).flatten = s := by
  obtain ⟨K, rfl⟩ : ∃ K, N = K + 1 := ⟨N - 1, by omega⟩
  rw [List.range_succ, List.map_append, List.flatten_append]
  have hfirst : (List.range K).map (fun q => bucketSliceSpec s (K + 1) c q)
      = (List.range K).map (fun q => sliceSpec s (q * c) ((q + 1) * c)) := by
    apply List.map_congr_left
    intro q hq
    have hqK : q < K := List.mem_range.1 hq
    unfold bucketSliceSpec
    rw [if_neg (by omega)]
  rw [hfirst, flatten_sliceSpec_prefix]
  simp only [List.map_cons, List.map_nil, List.flatten_cons, List.flatten_nil,
    List.append_nil]
  unfold bucketSliceSpec sliceSpec
  rw [if_pos rfl, List.take_of_length_le (le_refl _), List.take_append_drop]

/-- For a non-empty population the guard `startIdx >= len(customers)` is false at every
index of the loop. -/
theorem startIdx_lt (n numQuantiles q : ℤ) (hn : 0 < n) (hN : 1 ≤ numQuantiles)
    (hq : q < numQuantiles) : q * Int.tdiv n numQuantiles < n := by
  rw [Int.tdiv_eq_ediv hn.le (by omega)]
  have hc0 : 0 ≤ n / numQuantiles := Int.ediv_nonneg hn.le (by omega)
  have hmul : n / numQuantiles * numQuantiles ≤ n := Int.ediv_mul_le n (by omega)
  rcases hc0.lt_or_eq with hpos | hzero
  · have h1 : q * (n / numQuantiles) ≤ (numQuantiles - 1) * (n / numQuantiles) :=
      Int.mul_le_mul_of_nonneg_right (by omega) hc0
    have h2 : (numQuantiles - 1) * (n / numQuantiles)
        = n / numQuantiles * numQuantiles - n / numQuantiles := by ring
    omega
  · rw [← hzero]
    simpa using hn

/-- With fewer customers than buckets only the last bucket is produced, and it holds all
the customers. -/
theorem bucketLayoutSpec_of_lt (s : List CustomerRevenue) (N : ℕ) (hs : s ≠ [])
    (hlt : s.length < N) :
    ∃ first rest, s = first :: rest ∧
      bucketLayoutSpec s N (s.length / N)
        = [{ QuantileIndex := ((N - 1 : ℕ) : ℤ)
             CustomerCount := (s.length : ℤ)
             MaxRevenue := first.Revenue
             MinRevenue := ((first :: rest).getLast (List.cons_ne_nil first rest)).Revenue }] := by
  obtain ⟨K, rfl⟩ : ∃ K, N = K + 1 := ⟨N - 1, by omega⟩
  obtain ⟨first, rest, rfl⟩ : ∃ first rest, s = first :: rest := by
    cases s with
    | nil => exact absurd rfl hs
    | cons a t => exact ⟨a, t, rfl⟩
  refine ⟨first, rest, rfl, ?_⟩
  have hc : (first :: rest).length / (K + 1) = 0 := Nat.div_eq_of_lt hlt
  unfold bucketLayoutSpec
  rw [hc, List.range_succ, List.filterMap_append]
  have hnone : (List.range K).filterMap
      (fun q => bucketSpec q (bucketSliceSpec (first :: rest) (K + 1) 0 q)) = [] := by
    rw [List.filterMap_eq_nil_iff]
    intro q hq
    have hqK : q < K := List.mem_range.1 hq
    unfold bucketSliceSpec sliceSpec
    rw [if_neg (by omega)]
    simp [bucketSpec]
  have hlast : bucketSliceSpec (first :: rest) (K + 1) 0 K = first :: rest := by
    unfold bucketSliceSpec sliceSpec
    rw [if_pos rfl, List.take_of_length_le (le_refl _), Nat.mul_zero, List.drop_zero]
  rw [hnone, List.nil_append]
  have hb : (fun q => bucketSpec q (bucketSliceSpec (first :: rest) (K + 1) 0 q)) K
      = some { QuantileIndex := ((K : ℕ) : ℤ)
               CustomerCount := ((first :: rest).length : ℤ)
               MaxRevenue := first.Revenue
               MinRevenue :=
                 ((first :: rest).getLast (List.cons_ne_nil first rest)).Revenue } := by
    simp only [hlast, bucketSpec]
  rw [List.filterMap_cons_some (f := fun q =>
    bucketSpec q (bucketSliceSpec (first :: rest) (K + 1) 0 q)) hb, List.filterMap_nil]
  rfl

theorem nodup_of_length_le_one {α : Type} (l : List α) (h : l.length ≤ 1) : l.Nodup := by
  match l, h with
  | [], _ => exact List.nodup_nil
  | [a], _ => exact List.nodup_singleton a

theorem toInt_mul_zero_nonpos (q : Float64) :
    Float64.toInt (Float64.mul (Float64.ofInt 0) q) ≤ 0 := by
  rw [Float64.ofInt_zero]
  cases q with
  | fin x => rw [Float64.mul_fin_fin, zero_mul, Float64.round_zero, Float64.toInt_fin_zero]
  | posInf => exact Float64.toInt_infTimes true 0
  | negInf => exact Float64.toInt_infTimes false 0
  | nan => exact le_of_eq_of_le Float64.toInt_nan (by norm_num)

theorem topCount_zero (p : Processor) : (p.topCount 0).toNat = 0 := by
  have h := toInt_mul_zero_nonpos p.quantile
  unfold topCount
  simp only [Nat.cast_zero, lt_irrefl, and_false, if_false]
  exact Int.toNat_eq_zero.2 h

theorem GetTopQuantileCustomers_nil (p : Processor) :
    p.GetTopQuantileCustomers [] = .ok ([], none) := by
  unfold GetTopQuantileCustomers
  have hs : sortSlice (GoMap.values ([] : RevenueMap)) = [] := rfl
  simp only [hs, List.length_nil, topCount_zero]
  rfl

theorem topCount_of_nonpos (p : Processor) (n : ℕ) (hq : p.quantile ≤ Float64.fin 0) :
    (p.topCount n).toNat ≤ 1 ∧ (p.topCount n).toNat ≤ n := by
  have h := Float64.toInt_mul_nonpos p.quantile n hq
  unfold topCount
  simp only
  split_ifs with hc
  · exact ⟨le_refl _, hc.2⟩
  · have h0 : (Float64.toInt (Float64.mul (Float64.ofInt (n : ℤ)) p.quantile)).toNat = 0 :=
      Int.toNat_eq_zero.2 h
    rw [h0]
    exact ⟨Nat.zero_le _, Nat.zero_le _⟩

theorem round_half : Float64.round (1 / 2) = .fin (1 / 2) := by
  refine Float64.round_eval (by norm_num) (-1) (by norm_num) (by norm_num) (by norm_num)
    4503599627370496 ?_ _ (by norm_num) (abs_lt.2 ⟨by norm_num, by norm_num⟩)
  apply Float64.roundHalfEven_eq_of_abs_lt
  norm_num

/-- With the quantile 2, `int(1.0 / quantile)` is 0 and the division by it panics. -/
theorem CalculateQuantileStats_two (heapCapacity : ℕ) (m : RevenueMap) :
    (NewProcessor (.fin 2)).CalculateQuantileStats heapCapacity m
      = .error .integerDivideByZero := by
  have hN : (NewProcessor (.fin 2)).numQuantiles = 0 := by
    rw [numQuantiles_of_fin (NewProcessor (.fin 2)) 2 rfl (by norm_num), round_half,
      Float64.toInt_fin_of_nonneg (by norm_num) (by norm_num)]
    norm_num
  unfold CalculateQuantileStats
  simp only
  rw [if_pos hN]

/-- With the quantile 0, the count `int(float64(n) * 0)` is 0 and is forced to 1. -/
theorem topCount_quantile_zero (n : ℕ) (hn : 0 < n) (hn53 : n ≤ 2 ^ 53) :
    (NewProcessor (.fin 0)).topCount n = 1 := by
  have h : Float64.toInt (Float64.mul (Float64.ofInt (n : ℤ))
      (NewProcessor (.fin 0)).quantile) = 0 := by
    show Float64.toInt (Float64.mul (Float64.ofInt (n : ℤ)) (.fin 0)) = 0
    rw [Float64.ofInt_natCast n hn53, Float64.mul_fin_fin, mul_zero, Float64.round_zero,
      Float64.toInt_fin_zero]
  unfold topCount
  simp only
  rw [if_pos ⟨h, hn⟩]

theorem sortSlice_threeCustomers :
    sortSlice (GoMap.values threeCustomers)
      = [⟨300, "c@x.com", .fin 45⟩, ⟨100, "a@x.com", .fin 30⟩,
          ⟨200, "no-email@unknown.com", .fin 15⟩] := by
  simp only [sortSlice, GoMap.values, threeCustomers, List.map_cons, List.map_nil,
    List.insertionSort, List.orderedInsert, revenueGe, Float64.fin_lt_fin]
  norm_num

end Processor

namespace Processor

theorem representable_default :
    Float64.Representable (3602879701896397 / 144115188075855872) := by
  unfold Float64.Representable
  refine Float64.round_eval (by norm_num) (-6) (by norm_num) (by norm_num) (by norm_num)
    7205759403792794 ?_ _ (by norm_num) (abs_lt.2 ⟨by norm_num, by norm_num⟩)
  apply Float64.roundHalfEven_eq_of_abs_lt
  norm_num

theorem round_inv_default :
    Float64.round (1 / (3602879701896397 / 144115188075855872)) = .fin 40 := by
  refine Float64.round_eval (by norm_num) 5 (by norm_num) (by norm_num) (by norm_num)
    5629499534213120 ?_ _ (by norm_num) (abs_lt.2 ⟨by norm_num, by norm_num⟩)
  apply Float64.roundHalfEven_eq_of_abs_lt
  rw [abs_lt]
  constructor <;> norm_num

theorem toInt_fin_forty : Float64.toInt (.fin 40) = 40 := by
  have := Float64.toInt_fin_natCast 40 (by norm_num)
  simpa using this

theorem numQuantiles_default : (NewProcessor quantileDefault).numQuantiles = 40 := by
  rw [numQuantiles_of_fin (NewProcessor quantileDefault) _ rfl (by norm_num),
    round_inv_default, toInt_fin_forty]

theorem floor_inv_default :
    ⌊(1 : ℚ) / (3602879701896397 / 144115188075855872)⌋ = 39 := by
  rw [Int.floor_eq_iff]
  constructor <;> norm_num

theorem quantileDefault_pos : Float64.fin 0 < (NewProcessor quantileDefault).quantile :=
  (Float64.fin_lt_fin 0 _).2 (by norm_num)

theorem quantileDefault_le : (NewProcessor quantileDefault).quantile ≤ Float64.fin 1 :=
  (Float64.fin_le_fin _ 1).2 (by norm_num)

theorem representable_tiny : Float64.Representable (1 / 17592186044416) := by
  unfold Float64.Representable
  refine Float64.round_eval (by norm_num) (-44) (by norm_num) (by norm_num) (by norm_num)
    4503599627370496 ?_ _ (by norm_num) (abs_lt.2 ⟨by norm_num, by norm_num⟩)
  apply Float64.roundHalfEven_eq_of_abs_lt
  norm_num

theorem numQuantiles_tiny : (NewProcessor quantileTiny).numQuantiles = 17592186044416 := by
  have hinv : (1 : ℚ) / (1 / 17592186044416) = ((17592186044416 : ℕ) : ℚ) := by norm_num
  rw [numQuantiles_of_fin (NewProcessor quantileTiny) _ rfl (by norm_num), hinv,
    Float64.round_natCast _ (by norm_num), Float64.toInt_fin_natCast _ (by norm_num)]
  norm_num

theorem quantileTiny_pos : Float64.fin 0 < (NewProcessor quantileTiny).quantile :=
  (Float64.fin_lt_fin 0 _).2 (by norm_num)

theorem quantileTiny_le : (NewProcessor quantileTiny).quantile ≤ Float64.fin 1 :=
  (Float64.fin_le_fin _ 1).2 (by norm_num)

/-- With the quantile 2 ^ (-44) the call panics in `make`, whatever the map and the
heap. -/
theorem CalculateQuantileStats_tiny (heapCapacity : ℕ) (m : RevenueMap) :
    (NewProcessor quantileTiny).CalculateQuantileStats heapCapacity m
      = .error .makeSliceCapOutOfRange := by
  apply CalculateQuantileStats_capOutOfRange
  rw [numQuantiles_tiny]
  norm_num

theorem numQuantiles_one : (NewProcessor (.fin 1)).numQuantiles = 1 := by
  have hinv : (1 : ℚ) / 1 = 1 := by norm_num
  have h1 : Float64.toInt (.fin 1) = 1 := by
    have := Float64.toInt_fin_natCast 1 (by norm_num)
    simpa using this
  rw [numQuantiles_of_fin (NewProcessor (.fin 1)) 1 rfl (by norm_num), hinv,
    Float64.round_one, h1]

/-- When `1 / quantile` is a whole number up to 2 ^ 43, `int(1.0 / quantile)` is that
number. -/
theorem numQuantiles_of_inv_natCast (p : Processor) (x : ℚ) (hx : p.quantile = .fin x)
    (hx0 : x ≠ 0) (k : ℕ) (hk : 1 / x = k) (hk43 : k ≤ 2 ^ 43) : p.numQuantiles = k := by
  rw [numQuantiles_of_fin p x hx hx0, hk, Float64.round_natCast k (by omega),
    Float64.toInt_fin_natCast k (by omega)]

theorem sortSlice_exampleRevenue :
    sortSlice (GoMap.values exampleRevenue)
      = [⟨100, "a@x.com", .fin 30⟩, ⟨200, "no-email@unknown.com", .fin 15⟩] := by
  simp only [sortSlice, GoMap.values, exampleRevenue, List.map_cons, List.map_nil,
    List.insertionSort, List.orderedInsert, revenueGe, Float64.fin_lt_fin]
  norm_num

/-- At the default quantile (the `float64` nearest to 0.025) and three customers the
only bucket has index 39. -/
theorem CalculateQuantileStats_default_three (heapCapacity : ℕ) (h : 40 ≤ heapCapacity) :
    (NewProcessor quantileDefault).CalculateQuantileStats heapCapacity threeCustomers
      = .ok ([⟨39, 3, .fin 45, .fin 15⟩], none) := by
  rw [CalculateQuantileStats_ok _ _ _ (by rw [numQuantiles_default]; norm_num)
    (by rw [numQuantiles_default]; norm_num)
    (by rw [numQuantiles_default]; exact_mod_cast h), numQuantiles_default,
    sortSlice_threeCustomers]
  rfl

/-- At the default quantile and the two customers of the example scenario the only
bucket has index 39. -/
theorem CalculateQuantileStats_default_two (heapCapacity : ℕ) (h : 40 ≤ heapCapacity) :
    (NewProcessor quantileDefault).CalculateQuantileStats heapCapacity exampleRevenue
      = .ok ([⟨39, 2, .fin 30, .fin 15⟩], none) := by
  rw [CalculateQuantileStats_ok _ _ _ (by rw [numQuantiles_default]; norm_num)
    (by rw [numQuantiles_default]; norm_num)
    (by rw [numQuantiles_default]; exact_mod_cast h), numQuantiles_default,
    sortSlice_exampleRevenue]
  rfl

end Processor

namespace Processor

/-- C8 as stated fails. At the quantile that `config.go` sets, the `float64` nearest to
0.025, the floor of `1 / quantile` is 39 while the code's `int(1.0 / quantile)` is 40:
for three customers the call returns one bucket of index 39, where the layout of
`floor(1 / quantile)` = 39 buckets has its only bucket at index 38. And at the quantile
2 ^ (-44), also in (0,1], the call does not return: `make` panics with `cap out of
range`, whatever the map. -/
theorem C8_counterexample :
    Float64.Representable (3602879701896397 / 144115188075855872) ∧
    Float64.fin 0 < (NewProcessor quantileDefault).quantile ∧
    (NewProcessor quantileDefault).quantile ≤ Float64.fin 1 ∧
    ⌊(1 : ℚ) / (3602879701896397 / 144115188075855872)⌋ = 39 ∧
    (∀ heapCapacity : ℕ, 40 ≤ heapCapacity →
      (NewProcessor quantileDefault).CalculateQuantileStats heapCapacity threeCustomers
        = .ok ([⟨39, 3, .fin 45, .fin 15⟩], none)) ∧
    bucketLayoutSpec (sortSlice (GoMap.values threeCustomers)) 39 (threeCustomers.length / 39)
      = [⟨38, 3, .fin 45, .fin 15⟩] ∧
    Float64.Representable (1 / 17592186044416) ∧
    Float64.fin 0 < (NewProcessor quantileTiny).quantile ∧
    (NewProcessor quantileTiny).quantile ≤ Float64.fin 1 ∧
    (∀ (heapCapacity : ℕ) (m : RevenueMap),
      (NewProcessor quantileTiny).CalculateQuantileStats heapCapacity m
        = .error .makeSliceCapOutOfRange) := by
  refine ⟨representable_default, quantileDefault_pos, quantileDefault_le, floor_inv_default,
    CalculateQuantileStats_default_three, ?_, representable_tiny, quantileTiny_pos,
    quantileTiny_le, CalculateQuantileStats_tiny⟩
  rw [sortSlice_threeCustomers]
  rfl

/-- C8, amended. Stats bucket layout: for a quantile between 2 ^ (-43) and 1 and a heap
that can hold `numBuckets` bucket records, where `numBuckets = int(1.0 / quantile)` is
the `float64` quotient truncated, which is `floor(1 / quantile)` or one more (and is
`1 / quantile` when that is a whole number), and lies between 1 and 2 ^ 43; with the
customers in the order `sort.Slice` leaves them (a permutation of the map's records,
descending by `Revenue` when no revenue is NaN) and `bucketSize = n / numBuckets`:
`CalculateQuantileStats` returns, with a nil error and in increasing index order, one
bucket for each `q` in `0..numBuckets-1` whose slice `[q*bucketSize, (q+1)*bucketSize)`
(for the last `q`: `[q*bucketSize, n)`) is non-empty, with `QuantileIndex = q`,
`CustomerCount` the slice length, `MaxRevenue` the revenue of the first element of the
slice and `MinRevenue` the revenue of its last element. -/
theorem C8_stats_bucket_layout (p : Processor) (heapCapacity : ℕ) (m : RevenueMap) (x : ℚ)
    (hx : p.quantile = .fin x) (hlo : 1 / 2 ^ 43 ≤ x) (hhi : x ≤ 1)
    (hheap : p.numQuantiles ≤ heapCapacity) :
    ∃ (numBuckets : ℕ) (sorted : List CustomerRevenue),
      (numBuckets : ℤ) = Float64.toInt (Float64.div (.fin 1) p.quantile) ∧
      ⌊1 / x⌋ ≤ (numBuckets : ℤ) ∧ (numBuckets : ℤ) ≤ ⌊1 / x⌋ + 1 ∧
      (∀ k : ℕ, 1 / x = k → numBuckets = k) ∧
      1 ≤ numBuckets ∧ numBuckets ≤ 2 ^ 43 ∧
      sorted.Perm m.values ∧
      (NoNaN m.values → sorted.Pairwise (fun a b => b.Revenue ≤ a.Revenue)) ∧
      p.CalculateQuantileStats heapCapacity m
        = .ok ((List.range numBuckets).filterMap
            (fun q => bucketSpec q
              (bucketSliceSpec sorted numBuckets (m.length / numBuckets) q)), none) := by
  obtain ⟨hfl, hfu, h1, h43⟩ := numQuantiles_bounds p x hx hlo hhi
  have hx0 : 0 < x := lt_of_lt_of_le (by norm_num) hlo
  have hN : ((p.numQuantiles.toNat : ℕ) : ℤ) = p.numQuantiles := Int.toNat_of_nonneg (by omega)
  refine ⟨p.numQuantiles.toNat, sortSlice m.values, hN, by omega, by omega, ?_, by omega,
    by omega, sortSlice_perm _, sortSlice_pairwise_le _,
    CalculateQuantileStats_ok p heapCapacity m h1 h43 hheap⟩
  intro k hk
  have hk43 : k ≤ 2 ^ 43 := by
    have h2 : (k : ℚ) ≤ 2 ^ 43 := by
      rw [← hk, div_le_iff₀ hx0]
      have h := mul_le_mul_of_nonneg_left hlo (by norm_num : (0 : ℚ) ≤ 2 ^ 43)
      have h1 : (2 : ℚ) ^ 43 * (1 / 2 ^ 43) = 1 := by norm_num
      linarith
    exact_mod_cast h2
  rw [numQuantiles_of_inv_natCast p x hx hx0.ne' k hk hk43]
  exact Int.toNat_natCast k

/-- C8, amended, at three customers and the default quantile, with a heap for 40 bucket
records. -/
theorem C8_stats_bucket_layout_witness :
    (NewProcessor quantileDefault).quantile = .fin (3602879701896397 / 144115188075855872) ∧
    (1 : ℚ) / 2 ^ 43 ≤ 3602879701896397 / 144115188075855872 ∧
    (3602879701896397 / 144115188075855872 : ℚ) ≤ 1 ∧
    (NewProcessor quantileDefault).numQuantiles ≤ ((40 : ℕ) : ℤ) ∧
    ∃ (numBuckets : ℕ) (sorted : List CustomerRevenue),
      (numBuckets : ℤ)
        = Float64.toInt (Float64.div (.fin 1) (NewProcessor quantileDefault).quantile) ∧
      ⌊(1 : ℚ) / (3602879701896397 / 144115188075855872)⌋ ≤ (numBuckets : ℤ) ∧
      (numBuckets : ℤ) ≤ ⌊(1 : ℚ) / (3602879701896397 / 144115188075855872)⌋ + 1 ∧
      (∀ k : ℕ, (1 : ℚ) / (3602879701896397 / 144115188075855872) = k → numBuckets = k) ∧
      1 ≤ numBuckets ∧ numBuckets ≤ 2 ^ 43 ∧
      sorted.Perm (GoMap.values threeCustomers) ∧
      (NoNaN (GoMap.values threeCustomers) →
        sorted.Pairwise (fun a b => b.Revenue ≤ a.Revenue)) ∧
      (NewProcessor quantileDefault).CalculateQuantileStats 40 threeCustomers
        = .ok ((List.range numBuckets).filterMap
            (fun q => bucketSpec q
              (bucketSliceSpec sorted numBuckets (threeCustomers.length / numBuckets) q)),
            none) :=
  ⟨rfl, by norm_num, by norm_num, by rw [numQuantiles_default]; norm_num,
    C8_stats_bucket_layout (NewProcessor quantileDefault) 40 threeCustomers _ rfl
      (by norm_num) (by norm_num) (by rw [numQuantiles_default]; norm_num)⟩

/-- C9 as stated fails: a revenue can be NaN, and NaN is not at least NaN. For the map
`nanCustomer`, whose one customer has the revenue NaN, and the quantile 1, the call
returns one bucket whose `MaxRevenue` and `MinRevenue` are both NaN, so that
`MaxRevenue >= MinRevenue` is false. And at the quantile 2 ^ (-44), also in (0,1],
the call does not return a bucket sequence at all: `make` panics. -/
theorem C9_counterexample :
    Float64.fin 0 < (NewProcessor (.fin 1)).quantile ∧
    (NewProcessor (.fin 1)).quantile ≤ Float64.fin 1 ∧
    (∀ heapCapacity : ℕ, 1 ≤ heapCapacity →
      (NewProcessor (.fin 1)).CalculateQuantileStats heapCapacity nanCustomer
        = .ok ([⟨0, 1, .nan, .nan⟩], none)) ∧
    ¬ ((⟨0, 1, .nan, .nan⟩ : QuantileStats).MinRevenue
      ≤ (⟨0, 1, .nan, .nan⟩ : QuantileStats).MaxRevenue) ∧
    (∀ (heapCapacity : ℕ) (m : RevenueMap),
      (NewProcessor quantileTiny).CalculateQuantileStats heapCapacity m
        = .error .makeSliceCapOutOfRange) := by
  refine ⟨quantile_one_pos, quantile_one_le, ?_, by decide, CalculateQuantileStats_tiny⟩
  intro heapCapacity h
  rw [CalculateQuantileStats_ok _ _ _ (by rw [numQuantiles_one])
    (by rw [numQuantiles_one]; norm_num)
    (by rw [numQuantiles_one]; exact_mod_cast h), numQuantiles_one]
  rfl

/-- C9, amended. Stats coverage: for a quantile between 2 ^ (-43) and 1 and a heap that
can hold `int(1.0 / quantile)` bucket records, `CalculateQuantileStats` returns its
buckets with a nil error, and their `CustomerCount`s sum to at most the number of
customers; when no revenue is NaN, every bucket has `MaxRevenue >= MinRevenue`, and of
two buckets the later one (larger `QuantileIndex`) has a `MaxRevenue` that is at most
the earlier one's `MinRevenue`, hence both its `MaxRevenue` and its `MinRevenue` are at
most the earlier one's. -/
theorem C9_stats_coverage (p : Processor) (heapCapacity : ℕ) (m : RevenueMap) (x : ℚ)
    (hx : p.quantile = .fin x) (hlo : 1 / 2 ^ 43 ≤ x) (hhi : x ≤ 1)
    (hheap : p.numQuantiles ≤ heapCapacity) :
    ∃ stats, p.CalculateQuantileStats heapCapacity m = .ok (stats, none) ∧
      (stats.map (fun b => b.CustomerCount)).sum ≤ (m.length : ℤ) ∧
      (NoNaN m.values →
        (∀ b ∈ stats, b.MinRevenue ≤ b.MaxRevenue) ∧
        stats.Pairwise (fun a b => a.QuantileIndex < b.QuantileIndex ∧
          b.MaxRevenue ≤ a.MinRevenue ∧ b.MaxRevenue ≤ a.MaxRevenue ∧
          b.MinRevenue ≤ a.MinRevenue)) := by
  obtain ⟨-, -, h1, h43⟩ := numQuantiles_bounds p x hx hlo hhi
  have hl : (sortSlice m.values).length = m.length := by
    rw [length_sortSlice]
    exact List.length_map _ _
  have hN : 1 ≤ p.numQuantiles.toNat := by omega
  have hNc : p.numQuantiles.toNat * (m.length / p.numQuantiles.toNat)
      ≤ (sortSlice m.values).length := by
    rw [hl]
    exact Nat.mul_div_le _ _
  refine ⟨_, CalculateQuantileStats_ok p heapCapacity m h1 h43 hheap, ?_, ?_⟩
  · rw [bucketLayoutSpec_sum _ _ _ hN hNc, hl]
  · intro hnan
    have hs := sortSlice_pairwise_le m.values hnan
    have hn := NoNaN_of_perm (sortSlice_perm m.values).symm hnan
    refine ⟨bucketLayoutSpec_min_le_max _ hs hn _ _, ?_⟩
    refine List.Pairwise.imp_of_mem ?_ (bucketLayoutSpec_pairwise _ hs _ _)
    intro a b ha hb hab
    have ha' := bucketLayoutSpec_min_le_max _ hs hn _ _ a ha
    have hb' := bucketLayoutSpec_min_le_max _ hs hn _ _ b hb
    exact ⟨hab.2, hab.1, Float64.le_chain hab.1 ha', Float64.le_chain hb' hab.1⟩

theorem threeCustomers_noNaN : NoNaN (GoMap.values threeCustomers) := by
  intro c hc
  simp only [threeCustomers, GoMap.values, List.map_cons, List.map_nil, List.mem_cons,
    List.mem_singleton, List.mem_nil_iff, or_false] at hc
  rcases hc with rfl | rfl | rfl <;> simp

/-- C9, amended, at three customers and the default quantile, with a heap for 40 bucket
records. -/
theorem C9_stats_coverage_witness :
    (NewProcessor quantileDefault).quantile = .fin (3602879701896397 / 144115188075855872) ∧
    (1 : ℚ) / 2 ^ 43 ≤ 3602879701896397 / 144115188075855872 ∧
    (3602879701896397 / 144115188075855872 : ℚ) ≤ 1 ∧
    (NewProcessor quantileDefault).numQuantiles ≤ ((40 : ℕ) : ℤ) ∧
    NoNaN (GoMap.values threeCustomers) ∧
    ∃ stats, (NewProcessor quantileDefault).CalculateQuantileStats 40 threeCustomers
        = .ok (stats, none) ∧
      (stats.map (fun b => b.CustomerCount)).sum ≤ (threeCustomers.length : ℤ) ∧
      (∀ b ∈ stats, b.MinRevenue ≤ b.MaxRevenue) ∧
      stats.Pairwise (fun a b => a.QuantileIndex < b.QuantileIndex ∧
        b.MaxRevenue ≤ a.MinRevenue ∧ b.MaxRevenue ≤ a.MaxRevenue ∧
        b.MinRevenue ≤ a.MinRevenue) := by
  obtain ⟨stats, hget, hsum, himp⟩ :=
    C9_stats_coverage (NewProcessor quantileDefault) 40 threeCustomers _ rfl
      (by norm_num) (by norm_num) (by rw [numQuantiles_default]; norm_num)
  exact ⟨rfl, by norm_num, by norm_num, by rw [numQuantiles_default]; norm_num,
    threeCustomers_noNaN, stats, hget, hsum, (himp threeCustomers_noNaN).1,
    (himp threeCustomers_noNaN).2⟩

/-- C10 as stated fails: with the quantile 2 ^ (-44), which is in (0,1],
`CalculateQuantileStats` on the empty mapping does not return the empty bucket
sequence: `int(1.0 / quantile)` is 2 ^ 44, more than the 2 ^ 43 bucket records an
allocation can hold, and `make` panics with `cap out of range`. -/
theorem C10_counterexample :
    Float64.Representable (1 / 17592186044416) ∧
    Float64.fin 0 < (NewProcessor quantileTiny).quantile ∧
    (NewProcessor quantileTiny).quantile ≤ Float64.fin 1 ∧
    (NewProcessor quantileTiny).numQuantiles = 2 ^ 44 ∧
    ∀ heapCapacity : ℕ,
      (NewProcessor quantileTiny).CalculateQuantileStats heapCapacity []
        = .error .makeSliceCapOutOfRange :=
  ⟨representable_tiny, quantileTiny_pos, quantileTiny_le,
    by rw [numQuantiles_tiny]; norm_num,
    fun heapCapacity => CalculateQuantileStats_tiny heapCapacity []⟩

/-- C10, amended. Empty input: `CalculateCustomerRevenue` on an empty event list
returns the empty mapping, for every price and identity table; `GetTopQuantileCustomers`
on the empty mapping returns the empty mapping, for every quantile; both with a nil
error. For a quantile in (0,1], `CalculateQuantileStats` on the empty mapping returns
no bucket and a nil error exactly when `int(1.0 / quantile)` is between 1 and 2 ^ 43 and
the heap can hold that many bucket records, which is so for every quantile between
2 ^ (-43) and 1 given the heap; otherwise it does not return: `make` panics when
`int(1.0 / quantile)` is negative or above 2 ^ 43, and the program aborts when the heap
cannot hold the records. -/
theorem C10_empty_input (p : Processor) (fused : Bool) (heapCapacity : ℕ)
    (prices : GoMap ℤ Float64) (emails : GoMap ℤ String) :
    p.CalculateCustomerRevenue fused [] prices emails = ([], none) ∧
    p.GetTopQuantileCustomers [] = .ok ([], none) ∧
    (Float64.fin 0 < p.quantile → p.quantile ≤ Float64.fin 1 →
      (p.CalculateQuantileStats heapCapacity [] = .ok ([], none) ↔
        (1 ≤ p.numQuantiles ∧ p.numQuantiles ≤ 2 ^ 43 ∧ p.numQuantiles ≤ heapCapacity)) ∧
      (p.numQuantiles < 0 ∨ 2 ^ 43 < p.numQuantiles →
        p.CalculateQuantileStats heapCapacity [] = .error .makeSliceCapOutOfRange) ∧
      (1 ≤ p.numQuantiles → p.numQuantiles ≤ 2 ^ 43 → (heapCapacity : ℤ) < p.numQuantiles →
        p.CalculateQuantileStats heapCapacity [] = .error .outOfMemory)) ∧
    (∀ x : ℚ, p.quantile = .fin x → 1 / 2 ^ 43 ≤ x → x ≤ 1 →
      p.numQuantiles ≤ heapCapacity →
      p.CalculateQuantileStats heapCapacity [] = .ok ([], none)) := by
  have hs : sortSlice (GoMap.values ([] : RevenueMap)) = [] := rfl
  have hok : 1 ≤ p.numQuantiles → p.numQuantiles ≤ 2 ^ 43 → p.numQuantiles ≤ heapCapacity →
      p.CalculateQuantileStats heapCapacity [] = .ok ([], none) := by
    intro h1 h2 h3
    rw [CalculateQuantileStats_ok p heapCapacity [] h1 h2 h3, hs, bucketLayoutSpec_nil]
  refine ⟨rfl, GetTopQuantileCustomers_nil p, ?_, ?_⟩
  · intro hq0 hq1
    refine ⟨⟨?_, fun h => hok h.1 h.2.1 h.2.2⟩,
      CalculateQuantileStats_capOutOfRange p heapCapacity [],
      CalculateQuantileStats_outOfMemory p heapCapacity []⟩
    intro hret
    rcases numQuantiles_ne_zero p hq0 hq1 with h1 | hneg
    · by_cases h2 : p.numQuantiles ≤ 2 ^ 43
      · by_cases h3 : p.numQuantiles ≤ heapCapacity
        · exact ⟨h1, h2, h3⟩
        · rw [CalculateQuantileStats_outOfMemory p heapCapacity [] h1 h2 (by omega)] at hret
          cases hret
      · rw [CalculateQuantileStats_capOutOfRange p heapCapacity [] (Or.inr (by omega))] at hret
        cases hret
    · rw [CalculateQuantileStats_capOutOfRange p heapCapacity []
        (Or.inl (by rw [hneg]; norm_num))] at hret
      cases hret
  · intro x hx hlo hhi hheap
    obtain ⟨-, -, h1, h43⟩ := numQuantiles_bounds p x hx hlo hhi
    exact hok h1 h43 hheap

/-- C10, amended, at the default quantile, the tables of the example scenario and a
heap for 40 bucket records. -/
theorem C10_empty_input_witness :
    (NewProcessor quantileDefault).CalculateCustomerRevenue false [] examplePrices
      exampleEmails = ([], none) ∧
    (NewProcessor quantileDefault).GetTopQuantileCustomers [] = .ok ([], none) ∧
    (NewProcessor quantileDefault).CalculateQuantileStats 40 [] = .ok ([], none) :=
  ⟨(C10_empty_input (NewProcessor quantileDefault) false 40 examplePrices exampleEmails).1,
    (C10_empty_input (NewProcessor quantileDefault) false 40 examplePrices exampleEmails).2.1,
    (C10_empty_input (NewProcessor quantileDefault) false 40 examplePrices
      exampleEmails).2.2.2 _ rfl (by norm_num) (by norm_num)
      (by rw [numQuantiles_default]; norm_num)⟩

/-- C3 as stated fails: with the quantile 0, `GetTopQuantileCustomers` returns the top
customer and a nil error; with the quantile 2, `CalculateQuantileStats` stops with an
integer division by zero. Neither returns an error value. -/
theorem C3_counterexample :
    (NewProcessor (.fin 0)).quantile ≤ Float64.fin 0 ∧
    Float64.fin 1 < (NewProcessor (.fin 2)).quantile ∧
    (NewProcessor (.fin 0)).GetTopQuantileCustomers threeCustomers
      = .ok ([(300, ⟨300, "c@x.com", .fin 45⟩)], none) ∧
    (∀ heapCapacity : ℕ,
      (NewProcessor (.fin 2)).CalculateQuantileStats heapCapacity threeCustomers
        = .error .integerDivideByZero) := by
  refine ⟨(Float64.fin_le_fin 0 0).2 le_rfl, (Float64.fin_lt_fin 1 2).2 (by norm_num), ?_,
    fun heapCapacity => CalculateQuantileStats_two heapCapacity threeCustomers⟩
  have ht : (NewProcessor (.fin 0)).topCount 3 = 1 :=
    topCount_quantile_zero 3 (by norm_num) (by norm_num)
  unfold GetTopQuantileCustomers
  simp only
  rw [sortSlice_threeCustomers]
  have hl : ([⟨300, "c@x.com", .fin 45⟩, ⟨100, "a@x.com", .fin 30⟩,
      ⟨200, "no-email@unknown.com", .fin 15⟩] : List CustomerRevenue).length = 3 := rfl
  rw [hl, ht]
  rfl

/-- C3, amended. Neither `GetTopQuantileCustomers` nor `CalculateQuantileStats`
validates the quantile: for every quantile and every revenue mapping, a call that
returns does so with a nil error; and for a quantile that is not positive,
`GetTopQuantileCustomers` does return, with a mapping of at most one customer and a nil
error. -/
theorem C3_no_quantile_validation (p : Processor) (heapCapacity : ℕ) (m : RevenueMap) :
    (∀ out err, p.GetTopQuantileCustomers m = .ok (out, err) → err = none) ∧
    (∀ stats err, p.CalculateQuantileStats heapCapacity m = .ok (stats, err) → err = none) ∧
    (p.quantile ≤ Float64.fin 0 →
      ∃ out, p.GetTopQuantileCustomers m = .ok (out, none) ∧ out.length ≤ 1) := by
  refine ⟨?_, ?_, ?_⟩
  · intro out err h
    unfold GetTopQuantileCustomers at h
    simp only at h
    split at h
    · cases h
    · cases h
      rfl
  · intro stats err h
    unfold CalculateQuantileStats at h
    simp only at h
    split_ifs at h
    split at h
    · cases h
    · split at h
      · cases h
      · cases h
        rfl
  · intro hq
    obtain ⟨h1, hn⟩ := topCount_of_nonpos p (sortSlice m.values).length hq
    have hlen : ((sortSlice m.values).take
        (p.topCount (sortSlice m.values).length).toNat).length ≤ 1 := by
      rw [List.length_take]
      exact le_trans (min_le_left _ _) h1
    refine ⟨_, GetTopQuantileCustomers_ok p m hn ?_, ?_⟩
    · exact nodup_of_length_le_one _ (by rw [List.length_map]; exact hlen)
    · rw [List.length_map]
      exact hlen

/-- C3, amended, at the quantile 0 and three customers. -/
theorem C3_no_quantile_validation_witness :
    (NewProcessor (.fin 0)).quantile ≤ Float64.fin 0 ∧
    ∃ out, (NewProcessor (.fin 0)).GetTopQuantileCustomers threeCustomers = .ok (out, none) ∧
      out.length ≤ 1 :=
  ⟨(Float64.fin_le_fin 0 0).2 le_rfl,
    (C3_no_quantile_validation (NewProcessor (.fin 0)) 0 threeCustomers).2.2
      ((Float64.fin_le_fin 0 0).2 le_rfl)⟩

end Processor

/-! ## The buckets partition the population -/

namespace Processor

/-- C11 as stated fails. At the quantile that `config.go` sets, the `float64` nearest
to 0.025, `floor(1 / quantile)` is 39; for the two customers of the example scenario,
fewer than 39, the one bucket returned has `QuantileIndex` 39, not
`floor(1 / quantile) - 1 = 38`. And at the quantile 2 ^ (-44), also in (0,1], the call
on three customers returns no bucket at all: `make` panics. -/
theorem C11_counterexample :
    Float64.fin 0 < (NewProcessor quantileDefault).quantile ∧
    (NewProcessor quantileDefault).quantile ≤ Float64.fin 1 ∧
    exampleRevenue ≠ [] ∧
    ⌊(1 : ℚ) / (3602879701896397 / 144115188075855872)⌋ = 39 ∧
    (exampleRevenue.length : ℤ) < ⌊(1 : ℚ) / (3602879701896397 / 144115188075855872)⌋ ∧
    (∀ heapCapacity : ℕ, 40 ≤ heapCapacity →
      (NewProcessor quantileDefault).CalculateQuantileStats heapCapacity exampleRevenue
        = .ok ([⟨39, 2, .fin 30, .fin 15⟩], none)) ∧
    (⟨39, 2, .fin 30, .fin 15⟩ : QuantileStats).QuantileIndex
      ≠ ⌊(1 : ℚ) / (3602879701896397 / 144115188075855872)⌋ - 1 ∧
    Float64.fin 0 < (NewProcessor quantileTiny).quantile ∧
    (NewProcessor quantileTiny).quantile ≤ Float64.fin 1 ∧
    (∀ heapCapacity : ℕ,
      (NewProcessor quantileTiny).CalculateQuantileStats heapCapacity threeCustomers
        = .error .makeSliceCapOutOfRange) := by
  refine ⟨quantileDefault_pos, quantileDefault_le, by decide, floor_inv_default, ?_,
    CalculateQuantileStats_default_two, ?_, quantileTiny_pos, quantileTiny_le,
    fun heapCapacity => CalculateQuantileStats_tiny heapCapacity threeCustomers⟩
  · rw [floor_inv_default]
    decide
  · rw [floor_inv_default]
    decide

/-- C11, amended. Stats buckets partition the population: for a quantile between
2 ^ (-43) and 1, a heap that can hold `int(1.0 / quantile)` bucket records and a
non-empty revenue mapping with `n` customers, `CalculateQuantileStats` returns, with a
nil error, buckets whose `CustomerCount`s sum to exactly `n`; the guard
`startIdx >= n` is false at every index `q` of the loop; the buckets are those of the
non-empty slices, and the slices together are the customers in the order `sort.Slice`
leaves them, so no customer is left out; and when `n < int(1.0 / quantile)` exactly one
bucket is returned, with `CustomerCount = n` and `QuantileIndex = int(1.0 / quantile)
- 1`, where `int(1.0 / quantile)`, the `float64` quotient truncated, is
`floor(1 / quantile)` or one more (and is `1 / quantile` when that is a whole
number). -/
theorem C11_stats_partition (p : Processor) (heapCapacity : ℕ) (m : RevenueMap) (x : ℚ)
    (hx : p.quantile = .fin x) (hlo : 1 / 2 ^ 43 ≤ x) (hhi : x ≤ 1)
    (hheap : p.numQuantiles ≤ heapCapacity) (hne : m ≠ []) :
    ∃ (numBuckets : ℕ) (sorted : List CustomerRevenue) (stats : List QuantileStats),
      (numBuckets : ℤ) = Float64.toInt (Float64.div (.fin 1) p.quantile) ∧
      ⌊1 / x⌋ ≤ (numBuckets : ℤ) ∧ (numBuckets : ℤ) ≤ ⌊1 / x⌋ + 1 ∧
      (∀ k : ℕ, 1 / x = k → numBuckets = k) ∧
      1 ≤ numBuckets ∧
      sorted.Perm m.values ∧
      p.CalculateQuantileStats heapCapacity m = .ok (stats, none) ∧
      (stats.map (fun b => b.CustomerCount)).sum = (m.length : ℤ) ∧
      (∀ q : ℤ, 0 ≤ q → q < numBuckets →
        ¬ (q * Int.tdiv (m.length : ℤ) (numBuckets : ℤ) ≥ (m.length : ℤ))) ∧
      stats = (List.range numBuckets).filterMap
        (fun q => bucketSpec q (bucketSliceSpec sorted numBuckets
          (m.length / numBuckets) q)) ∧
      ((List.range numBuckets).map
        (fun q => bucketSliceSpec sorted numBuckets (m.length / numBuckets) q)).flatten
        = sorted ∧
      (m.length < numBuckets →
        ∃ b, stats = [b] ∧ b.QuantileIndex = (numBuckets : ℤ) - 1 ∧
          b.CustomerCount = (m.length : ℤ)) := by
  obtain ⟨hfl, hfu, h1, h43⟩ := numQuantiles_bounds p x hx hlo hhi
  have hx0 : 0 < x := lt_of_lt_of_le (by norm_num) hlo
  have hNZ : ((p.numQuantiles.toNat : ℕ) : ℤ) = p.numQuantiles :=
    Int.toNat_of_nonneg (by omega)
  have hl : (sortSlice m.values).length = m.length := by
    rw [length_sortSlice]
    exact List.length_map _ _
  have hmpos : 0 < m.length := List.length_pos.2 hne
  have hN : 1 ≤ p.numQuantiles.toNat := by omega
  have hNc : p.numQuantiles.toNat * (m.length / p.numQuantiles.toNat)
      ≤ (sortSlice m.values).length := by
    rw [hl]
    exact Nat.mul_div_le _ _
  refine ⟨p.numQuantiles.toNat, sortSlice m.values, _, hNZ, by omega, by omega, ?_, hN,
    sortSlice_perm _, CalculateQuantileStats_ok p heapCapacity m h1 h43 hheap, ?_, ?_, rfl,
    flatten_bucketSliceSpec _ _ _ hN, ?_⟩
  · intro k hk
    have hk43 : k ≤ 2 ^ 43 := by
      have h2 : (k : ℚ) ≤ 2 ^ 43 := by
        rw [← hk, div_le_iff₀ hx0]
        have h := mul_le_mul_of_nonneg_left hlo (by norm_num : (0 : ℚ) ≤ 2 ^ 43)
        have h1 : (2 : ℚ) ^ 43 * (1 / 2 ^ 43) = 1 := by norm_num
        linarith
      exact_mod_cast h2
    rw [numQuantiles_of_inv_natCast p x hx hx0.ne' k hk hk43]
    exact Int.toNat_natCast k
  · rw [bucketLayoutSpec_sum _ _ _ hN hNc, hl]
  · intro q _ hq hge
    have := startIdx_lt (m.length : ℤ) _ q (by exact_mod_cast hmpos)
      (by exact_mod_cast hN) hq
    omega
  · intro hlt
    have hs : sortSlice m.values ≠ [] := by
      intro h
      rw [h] at hl
      simp at hl
      omega
    have hlt' : (sortSlice m.values).length < p.numQuantiles.toNat := by
      rw [hl]
      exact hlt
    obtain ⟨first, rest, _, hlayout⟩ := bucketLayoutSpec_of_lt _ _ hs hlt'
    rw [hl] at hlayout
    refine ⟨_, hlayout, ?_, rfl⟩
    show ((p.numQuantiles.toNat - 1 : ℕ) : ℤ) = (p.numQuantiles.toNat : ℤ) - 1
    omega

/-- C11, amended, at three customers and the default quantile, with a heap for 40 bucket
records. -/
theorem C11_stats_partition_witness :
    (NewProcessor quantileDefault).quantile = .fin (3602879701896397 / 144115188075855872) ∧
    (1 : ℚ) / 2 ^ 43 ≤ 3602879701896397 / 144115188075855872 ∧
    (3602879701896397 / 144115188075855872 : ℚ) ≤ 1 ∧
    (NewProcessor quantileDefault).numQuantiles ≤ ((40 : ℕ) : ℤ) ∧
    threeCustomers ≠ [] ∧
    ∃ (numBuckets : ℕ) (stats : List QuantileStats),
      (numBuckets : ℤ)
        = Float64.toInt (Float64.div (.fin 1) (NewProcessor quantileDefault).quantile) ∧
      (NewProcessor quantileDefault).CalculateQuantileStats 40 threeCustomers
        = .ok (stats, none) ∧
      (stats.map (fun b => b.CustomerCount)).sum = (threeCustomers.length : ℤ) ∧
      (threeCustomers.length < numBuckets →
        ∃ b, stats = [b] ∧ b.QuantileIndex = (numBuckets : ℤ) - 1 ∧
          b.CustomerCount = (threeCustomers.length : ℤ)) := by
  obtain ⟨numBuckets, sorted, stats, h1, -, -, -, -, -, h2, h3, -, -, -, h4⟩ :=
    C11_stats_partition (NewProcessor quantileDefault) 40 threeCustomers _ rfl
      (by norm_num) (by norm_num) (by rw [numQuantiles_default]; norm_num)
      (List.cons_ne_nil _ _)
  exact ⟨rfl, by norm_num, by norm_num, by rw [numQuantiles_default]; norm_num,
    List.cons_ne_nil _ _, numBuckets, stats, h1, h2, h3, h4⟩

end Processor

/-! ## Keys and records -/

namespace GoMap

variable {κ ν : Type} [DecidableEq κ]

theorem mem_set (m : GoMap κ ν) (k : κ) (v : ν) (e : κ × ν) (h : e ∈ m.set k v) :
    e = (k, v) ∨ e ∈ m := by
  induction m with
  | nil =>
    left
    simpa [set] using h
  | cons p t ih =>
    obtain ⟨a, b⟩ := p
    by_cases hak : a = k
    · rw [set, if_pos hak] at h
      rcases List.mem_cons.1 h with h1 | h2
      · exact Or.inl h1
      · exact Or.inr (List.mem_cons_of_mem _ h2)
    · rw [set, if_neg hak] at h
      rcases List.mem_cons.1 h with h1 | h2
      · right
        rw [h1]
        exact List.mem_cons_self _ _
      · rcases ih h2 with h3 | h4
        · exact Or.inl h3
        · exact Or.inr (List.mem_cons_of_mem _ h4)

end GoMap

namespace Processor

theorem KeyedByCustomerID_foldl_set (l : List CustomerRevenue) (top : RevenueMap)
    (h : KeyedByCustomerID top) :
    KeyedByCustomerID (l.foldl (fun t c => GoMap.set t c.CustomerID c) top) := by
  induction l generalizing top with
  | nil => exact h
  | cons c t ih =>
    rw [List.foldl_cons]
    apply ih
    intro e he
    rcases GoMap.mem_set top c.CustomerID c e he with heq | hmem
    · rw [heq]
    · exact h e hmem

/-- The value `GetTopQuantileCustomers` returns on any map when the loop stays within
the slice: the selected records, each stored under its own `CustomerID`, a later one
replacing an earlier one with the same `CustomerID`. -/
theorem GetTopQuantileCustomers_ok_foldl (p : Processor) (m : RevenueMap)
    (hle : (p.topCount (sortSlice m.values).length).toNat ≤ (sortSlice m.values).length) :
    p.GetTopQuantileCustomers m
      = .ok (((sortSlice m.values).take (p.topCount (sortSlice m.values).length).toNat).foldl
          (fun t c => GoMap.set t c.CustomerID c) [], none) := by
  unfold GetTopQuantileCustomers
  simp only
  rw [topLoop_ok _ _ _ _ (by omega), List.drop_zero]

theorem KeyedByCustomerID_topLoop (customers : List CustomerRevenue) (r i : ℕ)
    (top out : RevenueMap) (h : KeyedByCustomerID top)
    (hout : topLoop customers r i top = .ok out) : KeyedByCustomerID out := by
  induction r generalizing i top with
  | zero =>
    rw [topLoop] at hout
    cases hout
    exact h
  | succ r ih =>
    rw [topLoop] at hout
    cases hc : customers[i]? with
    | none =>
      rw [hc] at hout
      cases hout
    | some c =>
      rw [hc] at hout
      apply ih (i + 1) (GoMap.set top c.CustomerID c) _ hout
      intro e he
      rcases GoMap.mem_set top c.CustomerID c e he with heq | hmem
      · rw [heq]
      · exact h e hmem

/-- Whatever the quantile, a mapping returned by `GetTopQuantileCustomers` stores every
record under its `CustomerID`. -/
theorem KeyedByCustomerID_GetTopQuantileCustomers (p : Processor) (m out : RevenueMap)
    (err : Option GoError) (h : p.GetTopQuantileCustomers m = .ok (out, err)) :
    KeyedByCustomerID out := by
  unfold GetTopQuantileCustomers at h
  simp only at h
  split at h
  · cases h
  · rename_i top htop
    cases h
    exact KeyedByCustomerID_topLoop _ _ _ [] _
      (fun e he => absurd he (List.not_mem_nil e)) htop

theorem KeyedByCustomerID_CalculateCustomerRevenue (p : Processor) (fused : Bool)
    (events : List CustomerEventData) (prices : GoMap ℤ Float64) (emails : GoMap ℤ String) :
    KeyedByCustomerID (p.CalculateCustomerRevenue fused events prices emails).1 := by
  intro e he
  obtain ⟨k, rev⟩ := e
  have hwf : GoMap.WF (p.CalculateCustomerRevenue fused events prices emails).1 :=
    WF_foldl_revenueStep fused prices emails events [] List.nodup_nil
  have hget := GoMap.get?_eq_some_of_mem _ hwf k rev he
  rw [get?_CalculateCustomerRevenue] at hget
  cases ht : totalOf fused prices (eventsOf events k) with
  | none => simp [ht] at hget
  | some t =>
    rw [ht] at hget
    cases hget
    rfl

/-- On `sharedCustomerID`, with the quantile 1, both records are selected and the second
replaces the first under the key 7. -/
theorem GetTopQuantileCustomers_sharedCustomerID :
    (NewProcessor (.fin 1)).topCount 2 = 2 ∧
    (NewProcessor (.fin 1)).GetTopQuantileCustomers sharedCustomerID
      = .ok ([(7, ⟨7, "", .fin 3⟩)], none) := by
  have hs : sortSlice (GoMap.values sharedCustomerID)
      = [⟨7, "", .fin 5⟩, ⟨7, "", .fin 3⟩] := by
    simp only [sortSlice, GoMap.values, sharedCustomerID, List.map_cons, List.map_nil,
      List.insertionSort, List.orderedInsert, revenueGe, Float64.fin_lt_fin]
    norm_num
  have h2 : Float64.ofInt ((2 : ℕ) : ℤ) = .fin 2 := by
    rw [Float64.ofInt_natCast 2 (by norm_num)]
    norm_num
  have hm : (2 : ℚ) * 1 = ((2 : ℕ) : ℚ) := by norm_num
  have ht2 : Float64.toInt (Float64.mul (Float64.ofInt ((2 : ℕ) : ℤ))
      (NewProcessor (.fin 1)).quantile) = 2 := by
    show Float64.toInt (Float64.mul (Float64.ofInt ((2 : ℕ) : ℤ)) (.fin 1)) = 2
    rw [h2, Float64.mul_fin_fin, hm, Float64.round_natCast 2 (by norm_num),
      Float64.toInt_fin_natCast 2 (by norm_num)]
    norm_num
  have ht : (NewProcessor (.fin 1)).topCount 2 = 2 := by
    unfold topCount
    simp only [ht2]
    decide
  refine ⟨ht, ?_⟩
  unfold GetTopQuantileCustomers
  simp only
  rw [hs]
  have hl : ([⟨7, "", .fin 5⟩, ⟨7, "", .fin 3⟩] : List CustomerRevenue).length = 2 := rfl
  rw [hl, ht]
  rfl

/-- C12. Key/record consistency: every entry of the mapping returned by
`CalculateCustomerRevenue` is stored under its record's `CustomerID`. Whatever the
quantile, a mapping returned by `GetTopQuantileCustomers` stores every record under its
`CustomerID`. For a quantile in (0,1] (and fewer than 2 ^ 53 entries)
`GetTopQuantileCustomers` does return, on any map; when the input map
is keyed that way, the output keys are input keys, no key occurs twice and the output
values are exactly the selected records, one entry each. Without the invariant neither
is guaranteed: on `sharedCustomerID` two records are selected, the output has the single
key 7, and 7 is not an input key. -/
theorem C12_key_record_consistency (p : Processor) (fused : Bool)
    (events : List CustomerEventData)
    (prices : GoMap ℤ Float64) (emails : GoMap ℤ String) (m : RevenueMap)
    (hq0 : Float64.fin 0 < p.quantile) (hq1 : p.quantile ≤ Float64.fin 1)
    (hlen : m.length ≤ 2 ^ 53) :
    KeyedByCustomerID (p.CalculateCustomerRevenue fused events prices emails).1 ∧
    (∀ (p' : Processor) (out' : RevenueMap) (err : Option GoError),
      p'.GetTopQuantileCustomers m = .ok (out', err) → KeyedByCustomerID out') ∧
    (∃ out, p.GetTopQuantileCustomers m = .ok (out, none) ∧ KeyedByCustomerID out ∧
      (GoMap.WF m → KeyedByCustomerID m →
        (∀ k, k ∈ GoMap.keys out → k ∈ GoMap.keys m) ∧ GoMap.WF out ∧
        GoMap.values out = (sortSlice m.values).take (p.topCount m.length).toNat)) ∧
    (GoMap.WF sharedCustomerID ∧ ¬ KeyedByCustomerID sharedCustomerID ∧
      (NewProcessor (.fin 1)).topCount sharedCustomerID.length = 2 ∧
      (NewProcessor (.fin 1)).GetTopQuantileCustomers sharedCustomerID
        = .ok ([(7, ⟨7, "", .fin 3⟩)], none) ∧
      (7 : ℤ) ∉ GoMap.keys sharedCustomerID) := by
  have hl : (sortSlice m.values).length = m.length := by
    rw [length_sortSlice]
    exact List.length_map _ _
  have hb := topCount_bounds p m.length hq0 hq1 hlen
  have hle : (p.topCount (sortSlice m.values).length).toNat ≤ (sortSlice m.values).length := by
    rw [hl]
    omega
  have hget := GetTopQuantileCustomers_ok_foldl p m hle
  rw [hl] at hget
  refine ⟨KeyedByCustomerID_CalculateCustomerRevenue p fused events prices emails,
    fun p' out' err h => KeyedByCustomerID_GetTopQuantileCustomers p' m out' err h,
    ⟨_, hget, KeyedByCustomerID_foldl_set _ [] (fun e he => absurd he (List.not_mem_nil e)),
      ?_⟩, ?_⟩
  · intro hwf hkey
    have hnd := nodup_CustomerID_sortSlice m hwf hkey
    have hndtake : (((sortSlice m.values).take (p.topCount m.length).toNat).map
        (fun c => c.CustomerID)).Nodup :=
      List.Nodup.sublist (List.Sublist.map _ (List.take_sublist _ _)) hnd
    rw [foldl_set_eq _ [] (by simpa [GoMap.keys] using hndtake), List.nil_append]
    refine ⟨?_, ?_, ?_⟩
    · intro k hk
      unfold GoMap.keys at hk
      rw [List.map_map] at hk
      obtain ⟨c, hc, hck⟩ := List.mem_map.1 hk
      have hcs : c ∈ m.values :=
        (sortSlice_perm m.values).mem_iff.1 (List.mem_of_mem_take hc)
      obtain ⟨e, he, hec⟩ := List.mem_map.1 hcs
      have hke : e.1 = k := by
        rw [← hkey e he, hec]
        exact hck
      exact List.mem_map.2 ⟨e, he, hke⟩
    · unfold GoMap.WF GoMap.keys
      rw [List.map_map]
      exact hndtake
    · unfold GoMap.values
      rw [List.map_map]
      exact List.map_id _
  · refine ⟨by unfold GoMap.WF; decide, ?_, GetTopQuantileCustomers_sharedCustomerID.1,
      GetTopQuantileCustomers_sharedCustomerID.2, by decide⟩
    intro h
    have h1 := h (1, ⟨7, "", .fin 5⟩) (List.mem_cons_self _ _)
    exact absurd h1 (by decide)

/-- C12 at the example scenario and three customers, with the quantile 1/2. -/
theorem C12_key_record_consistency_witness :
    Float64.fin 0 < (NewProcessor (.fin (1 / 2))).quantile ∧
    (NewProcessor (.fin (1 / 2))).quantile ≤ Float64.fin 1 ∧
    threeCustomers.length ≤ 2 ^ 53 ∧
    (KeyedByCustomerID ((NewProcessor (.fin (1 / 2))).CalculateCustomerRevenue false
        exampleEvents examplePrices exampleEmails).1 ∧
    (∀ (p' : Processor) (out' : RevenueMap) (err : Option GoError),
      p'.GetTopQuantileCustomers threeCustomers = .ok (out', err) →
        KeyedByCustomerID out') ∧
    (∃ out, (NewProcessor (.fin (1 / 2))).GetTopQuantileCustomers threeCustomers
        = .ok (out, none) ∧
      KeyedByCustomerID out ∧
      (GoMap.WF threeCustomers → KeyedByCustomerID threeCustomers →
        (∀ k, k ∈ GoMap.keys out → k ∈ GoMap.keys threeCustomers) ∧ GoMap.WF out ∧
        GoMap.values out = (sortSlice (GoMap.values threeCustomers)).take
          ((NewProcessor (.fin (1 / 2))).topCount threeCustomers.length).toNat)) ∧
    (GoMap.WF sharedCustomerID ∧ ¬ KeyedByCustomerID sharedCustomerID ∧
      (NewProcessor (.fin 1)).topCount sharedCustomerID.length = 2 ∧
      (NewProcessor (.fin 1)).GetTopQuantileCustomers sharedCustomerID
        = .ok ([(7, ⟨7, "", .fin 3⟩)], none) ∧
      (7 : ℤ) ∉ GoMap.keys sharedCustomerID)) :=
  ⟨quantile_half_pos, quantile_half_le, by decide,
    C12_key_record_consistency (NewProcessor (.fin (1 / 2))) false exampleEvents
      examplePrices exampleEmails threeCustomers quantile_half_pos quantile_half_le
      (by decide)⟩

end Processor

/-! ## The example scenario of the specification -/

namespace Processor

/-- The example scenario: customer 100 totals 2 * 10 + 1 * 10 = 30 under the identity
`a@x.com`, customer 200 totals 5 * 3 = 15 under the sentinel, with and without fused
multiply-add. -/
theorem exampleScenario_revenue (fused : Bool) :
    ((NewProcessor quantileDefault).CalculateCustomerRevenue fused exampleEvents
        examplePrices exampleEmails).1.get? 100 = some ⟨100, "a@x.com", .fin 30⟩ ∧
    ((NewProcessor quantileDefault).CalculateCustomerRevenue fused exampleEvents
        examplePrices exampleEmails).1.get? 200
      = some ⟨200, "no-email@unknown.com", .fin 15⟩ := by
  have he100 : eventsOf exampleEvents 100 = [mkEvent 1 100 2, mkEvent 1 100 1] := rfl
  have he200 : eventsOf exampleEvents 200 = [mkEvent 2 200 5] := rfl
  have e100 : resolveEmail exampleEmails 100 = "a@x.com" := rfl
  have e200 : resolveEmail exampleEmails 200 = "no-email@unknown.com" := rfl
  have h100 : totalOf fused examplePrices [mkEvent 1 100 2, mkEvent 1 100 1]
      = some (.fin 30) := by
    rw [totalOf_exact fused examplePrices _ (List.cons_ne_nil _ _)]
    · simp only [List.map_cons, List.map_nil, List.sum_cons, List.sum_nil,
        exactRevenue_example_two, exactRevenue_example_one]
      norm_num
    · intro e hmem
      simp only [List.mem_cons, List.mem_singleton, List.mem_nil_iff, or_false] at hmem
      rcases hmem with rfl | rfl
      · exact finiteEvent_example 1 100 2 10 (by decide) rfl
      · exact finiteEvent_example 1 100 1 10 (by decide) rfl
    · intro e hmem
      simp only [List.mem_cons, List.mem_singleton, List.mem_nil_iff, or_false] at hmem
      rcases hmem with rfl | rfl
      · rw [exactRevenue_example_two]
        exact representable_small _ 20 (by norm_num) (by norm_num)
      · rw [exactRevenue_example_one]
        exact representable_small _ 10 (by norm_num) (by norm_num)
    · intro j hj
      have hj' : j ≤ 2 := hj
      interval_cases j
      · exact representable_small _ 0 (by simp) (by norm_num)
      · refine representable_small _ 20 ?_ (by norm_num)
        simp only [List.take_succ_cons, List.take_zero, List.map_cons, List.map_nil,
          List.sum_cons, List.sum_nil, exactRevenue_example_two]
        norm_num
      · refine representable_small _ 30 ?_ (by norm_num)
        simp only [List.take_succ_cons, List.take_zero, List.map_cons, List.map_nil,
          List.sum_cons, List.sum_nil, exactRevenue_example_two, exactRevenue_example_one]
        norm_num
  have h200 : totalOf fused examplePrices [mkEvent 2 200 5] = some (.fin 15) := by
    have h15 : Float64.round 15 = .fin 15 := by
      have := Float64.round_natCast 15 (by norm_num)
      simpa using this
    show some (eventRevenue examplePrices (mkEvent 2 200 5)) = _
    rw [eventRevenue_of_finite _ _ (finiteEvent_example 2 200 5 3 (by decide) rfl),
      exactRevenue_example_five, h15]
  constructor
  · rw [get?_CalculateCustomerRevenue, he100, h100, e100]
    rfl
  · rw [get?_CalculateCustomerRevenue, he200, h200, e200]
    rfl

/-- The example with 37 customers and the default quantile: `int(37 * 0.025)` is 0 and
the count is forced to 1. -/
theorem exampleScenario_topCount : (NewProcessor quantileDefault).topCount 37 = 1 :=
  topCount_of_floor_zero (NewProcessor quantileDefault) 37 _ rfl (by norm_num)
    (by norm_num) (by norm_num) (by norm_num)
    (by
      rw [Int.floor_eq_zero_iff]
      constructor <;> norm_num)

end Processor
